import Mathlib

/-!
Singly-linked list container (`src/ll.cpp`, `src/ref_ll.cpp`).

A shallow embedding of the C++ `LinkedList` into Lean.  The program works on raw
`Node *` pointers, so the embedding keeps an explicit memory:

* a store of node cells; a node pointer is the address of a cell, a natural
  number, and `0` is `nullptr`;
* a store of `LinkedList` objects, each of which is just its `head_` field; the
  address of an object (`this`, `&source`) is its index in that store.

Every member function is a state transformer over that memory which may stop in a
`Fault` (a null or dangling dereference, a read of a `head_` that was never
assigned, or a loop that never ends).  An `int` is an `Int` in the range of 32 bits.
The counter of `size()` stays in that range on every list of fewer than `2^31` nodes,
and longer lists are outside the model; the one `int` expression that leaves the
range on a short list, the loop bound `n - 1` of `RemoveNth` at `n = INT_MIN`, is
taken modulo `2^32` (`int_pred`).  The `while` loops are run with a bound taken from
the size of the node store (`stepBound`), which no walk along a null-terminated
chain can exceed; that they stay within it is part of every statement that a call
returns.

Both source files contain the same member functions, once for the fixed element
type `SnakeBodySegment` and once for a template parameter; the element type is the
parameter `α` here.  The functions of `ref_ll.cpp` are in the namespace
`LinkedList`, those of `ll.cpp` in the namespace `snakelinkedlist.LinkedList`, each
translated from its own file.  The section on the two source files shows which of them
are equal as functions; what is proved of a function of `ref_ll.cpp` then holds of the
one of `ll.cpp` as well.
-/

namespace SnakeLL

/-! ## Memory -/

/-- The `Node` struct: `data_` and `next_`. -/
structure Node (α : Type) where
  data_ : α
  next_ : Nat
deriving DecidableEq, Repr

/-- The ways in which an execution can leave defined behaviour. -/
inductive Fault where
  | nullDeref
  | dangling
  | indeterminate
  | diverges
deriving DecidableEq, Repr

/-- The memory: node cells (address `q + 1` lives at index `q`; a freed cell is `none`)
and list objects (the `head_` field of each; `none` while it holds no value that may be
read: never assigned, or the object has been destroyed). -/
structure Mem (α : Type) where
  cells : List (Option (Node α))
  objs : List (Option Nat)
deriving DecidableEq

/-- The memory with nothing in it. -/
def Mem.init {α : Type} : Mem α := ⟨[], []⟩

/-- The live node at an address, if any. -/
def Mem.lookup {α : Type} (s : Mem α) (p : Nat) : Option (Node α) :=
  match p with
  | 0 => none
  | q + 1 => (s.cells[q]?).join

/-- The value of `head_` of an object, if it has one. -/
def Mem.head {α : Type} (s : Mem α) (a : Nat) : Option Nat :=
  (s.objs[a]?).join

/-- Overwrite the cell at an address. -/
def Mem.write {α : Type} (s : Mem α) (p : Nat) (n : Node α) : Mem α :=
  { s with cells := s.cells.set (p - 1) (some n) }

/-- Release the cell at an address. -/
def Mem.free {α : Type} (s : Mem α) (p : Nat) : Mem α :=
  { s with cells := s.cells.set (p - 1) none }

/-- Add a fresh cell; its address is `s.cells.length + 1`. -/
def Mem.alloc {α : Type} (s : Mem α) (n : Node α) : Mem α :=
  { s with cells := s.cells ++ [some n] }

/-- Overwrite the `head_` field of an object. -/
def Mem.setHead {α : Type} (s : Mem α) (a : Nat) (p : Option Nat) : Mem α :=
  { s with objs := s.objs.set a p }

/-- Add storage for one more object; its address is `s.objs.length`. -/
def Mem.addObj {α : Type} (s : Mem α) : Mem α :=
  { s with objs := s.objs ++ [none] }

/-! ## Programs -/

/-- A computation over the memory that returns a value or stops in a fault. -/
def Prog (α β : Type) : Type := Mem α → Except Fault (β × Mem α)

/-- Return a value without touching the memory. -/
def Prog.ret {α β : Type} (x : β) : Prog α β := fun s => .ok (x, s)

/-- Run one computation, then the next on its result. -/
def Prog.andThen {α β γ : Type} (m : Prog α β) (f : β → Prog α γ) : Prog α γ := fun s =>
  match m s with
  | .ok (x, s') => f x s'
  | .error e => .error e

instance {α : Type} : Monad (Prog α) where
  pure := Prog.ret
  bind := Prog.andThen

/-- Stop in a fault. -/
def fail {α β : Type} (e : Fault) : Prog α β := fun _ => .error e

/-- The result of a computation with the final memory dropped. -/
def Prog.value {α β : Type} (m : Prog α β) (s : Mem α) : Except Fault β :=
  match m s with
  | .ok (x, _) => .ok x
  | .error e => .error e

/-- The node behind a pointer: the read of `*p`. -/
def load {α : Type} (p : Nat) : Prog α (Node α) := fun s =>
  match p with
  | 0 => .error .nullDeref
  | q + 1 =>
    match s.cells[q]? with
    | some (some n) => .ok (n, s)
    | _ => .error .dangling

/-- The read `p->next_`. -/
def getNext {α : Type} (p : Nat) : Prog α Nat := do
  let n ← load p
  pure n.next_

/-- The read `p->data_`. -/
def getData {α : Type} (p : Nat) : Prog α α := do
  let n ← load p
  pure n.data_

/-- The assignment `p->next_ = q`. -/
def setNext {α : Type} (p q : Nat) : Prog α Unit := do
  let n ← load p
  fun s => .ok ((), s.write p { n with next_ := q })

/-- The assignment `p->data_ = v`. -/
def setData {α : Type} (p : Nat) (v : α) : Prog α Unit := do
  let n ← load p
  fun s => .ok ((), s.write p { n with data_ := v })

/-- The expression `new Node()`: a fresh node, value-initialised (`next_` is `nullptr`). The
one `new Node` without parentheses, in `push_front`, assigns both fields before it reads
them and is modelled in the same way. -/
def newNode {α : Type} [Inhabited α] : Prog α Nat := fun s =>
  .ok (s.cells.length + 1, s.alloc ⟨default, 0⟩)

/-- The statement `delete p` on a node pointer (`delete nullptr` does nothing). -/
def deleteNode {α : Type} (p : Nat) : Prog α Unit := fun s =>
  match p with
  | 0 => .ok ((), s)
  | q + 1 =>
    match s.cells[q]? with
    | some (some _) => .ok ((), s.free (q + 1))
    | _ => .error .dangling

/-- The read of `head_` of an object. -/
def readHead {α : Type} (a : Nat) : Prog α Nat := fun s =>
  match s.objs[a]? with
  | some (some p) => .ok (p, s)
  | some none => .error .indeterminate
  | none => .error .dangling

/-- The assignment `head_ = p` in an object. -/
def writeHead {α : Type} (a : Nat) (p : Nat) : Prog α Unit := fun s =>
  if a < s.objs.length then .ok ((), s.setHead a (some p)) else .error .dangling

/-- Storage for a new `LinkedList` object, before any constructor has run: `head_` holds
no value yet. -/
def newObj {α : Type} : Prog α Nat := fun s =>
  .ok (s.objs.length, s.addObj)

/-- The end of an object's lifetime: its `head_` may no longer be read. -/
def endObj {α : Type} (a : Nat) : Prog α Unit := fun s =>
  if a < s.objs.length then .ok ((), s.setHead a none) else .error .dangling

/-- The value of the `int` expression `n - 1` for an `int` `n`.  An `int` has 32 bits and
the difference is taken modulo `2^32`: it is `n - 1`, except at `n = INT_MIN`, where
`n - 1` lies below the range and comes out as `INT_MAX`. -/
def int_pred (n : Int) : Int :=
  if n - 1 < -2147483648 then n - 1 + 4294967296 else n - 1

/-- A bound on the number of steps of any walk along a null-terminated chain: the nodes
visited are live and pairwise distinct, so there are at most as many as there are cells.
A loop that takes more steps than this is caught in a cycle. -/
def stepBound {α : Type} : Prog α Nat := fun s => .ok (s.cells.length + 1, s)

/-! ## The member functions -/

/-- The `Iterator` struct: the pointer `current_`. -/
structure Iterator where
  current_ : Nat
deriving DecidableEq, Repr

namespace Iterator

/-- The member `operator++`. -/
def operator_incr {α : Type} (it : Iterator) : Prog α Iterator :=
  if it.current_ ≠ 0 then do
    let nx ← getNext it.current_
    pure ⟨nx⟩
  else pure it

/-- The member `operator*`, read as a value. -/
def operator_deref {α : Type} (it : Iterator) : Prog α α :=
  getData it.current_

/-- The member `operator!=`. -/
def operator_ne (it other : Iterator) : Bool :=
  it.current_ != other.current_

/-- The cursor after `k` applications of `++`. -/
def advance {α : Type} : Nat → Iterator → Prog α Iterator
  | 0, it => pure it
  | k + 1, it => do
    let it ← operator_incr it
    advance k it

end Iterator

namespace LinkedList

/-- The default constructor of `ref_ll.cpp`: `head_` becomes `nullptr`, in the member
initialiser list. -/
def ctor_default {α : Type} (this : Nat) : Prog α Unit :=
  writeHead this 0

/-- The loop of the vector constructor, `for (int i = 1; i < values.size(); i++)`, run
over the values from index 1 on. -/
def ctor_vector_loop {α : Type} [Inhabited α] : List α → Nat → Prog α Unit
  | [], _ => pure ()
  | v :: rest, runner => do
    let current ← newNode
    setData current v
    setNext runner current
    let runner ← getNext runner
    ctor_vector_loop rest runner

/-- The body of the constructor from a vector.  On an empty vector it returns at once and
assigns nothing to `head_`. -/
def ctor_vector_body {α : Type} [Inhabited α] (this : Nat) (values : List α) : Prog α Unit :=
  match values with
  | [] => pure ()
  | v :: rest => do
    let fresh ← newNode
    writeHead this fresh
    let h ← readHead this
    setData h v
    let runner ← readHead this
    ctor_vector_loop rest runner

/-- The constructor from a vector.  It has no member initialiser list, so before its body
runs `head_` is whatever the class declaration makes it.  That declaration is in a header
which is not among the sources (`ll.h` for `ll.cpp`, and the header of the class template
for `ref_ll.cpp`): `decl` stands for the default member initialiser of `head_` there,
`none` if `head_` is declared without one (`Node *head_;`).  The other constructors do not
depend on it: each assigns `head_` itself, in its initialiser list or in its first
statement. -/
def ctor_vector {α : Type} [Inhabited α] (decl : Option Nat) (this : Nat) (values : List α) :
    Prog α Unit := do
  match decl with
    | some p => writeHead this p
    | none => pure ()
  ctor_vector_body this values

/-- The loop of the copy constructor, `while (source_runner->next_ != nullptr)`. -/
def ctor_copy_loop {α : Type} [Inhabited α] : Nat → Nat → Nat → Prog α Unit
  | 0, _, _ => fail .diverges
  | fuel + 1, local_runner, source_runner => do
    let nx ← getNext source_runner
    if nx ≠ 0 then do
      let current ← newNode
      let sn ← getNext source_runner
      let d ← getData sn
      setData current d
      setNext local_runner current
      let local_runner ← getNext local_runner
      let source_runner ← getNext source_runner
      ctor_copy_loop fuel local_runner source_runner
    else pure ()

/-- The copy constructor. -/
def ctor_copy {α : Type} [Inhabited α] (this source : Nat) : Prog α Unit := do
  writeHead this 0
  let sh ← readHead source
  if sh = 0 then pure ()
  else do
    let fresh ← newNode
    writeHead this fresh
    let sh ← readHead source
    let d ← getData sh
    let h ← readHead this
    setData h d
    let local_runner ← readHead this
    let source_runner ← readHead source
    let fuel ← stepBound
    ctor_copy_loop fuel local_runner source_runner

/-- The move constructor. -/
def ctor_move {α : Type} (this source : Nat) : Prog α Unit := do
  let sh ← readHead source
  writeHead this sh
  writeHead source 0

/-- The loop of `clear`, `while (head_ != nullptr)`. -/
def clear_loop {α : Type} (this : Nat) : Nat → Nat → Prog α Unit
  | 0, _ => fail .diverges
  | fuel + 1, runner => do
    let h ← readHead this
    if h ≠ 0 then do
      let nx ← getNext h
      writeHead this nx
      deleteNode runner
      let runner ← readHead this
      clear_loop this fuel runner
    else pure ()

/-- The member `clear`. -/
def clear {α : Type} (this : Nat) : Prog α Unit := do
  let h ← readHead this
  if h = 0 then pure ()
  else do
    let runner ← readHead this
    let fuel ← stepBound
    clear_loop this fuel runner

/-- The destructor: `clear`, after which the object is gone. -/
def dtor {α : Type} (this : Nat) : Prog α Unit := do
  clear this
  endObj this

/-- The copy assignment operator of `ref_ll.cpp`. -/
def assign_copy {α : Type} [Inhabited α] (this source : Nat) : Prog α Unit :=
  if this = source then pure ()
  else do
    clear this
    let temp_list ← newObj
    ctor_copy temp_list source
    let th ← readHead temp_list
    writeHead this th
    writeHead temp_list 0
    dtor temp_list

/-- The move assignment operator. -/
def assign_move {α : Type} (this source : Nat) : Prog α Unit :=
  if this = source then pure ()
  else do
    clear this
    let sh ← readHead source
    writeHead this sh
    writeHead source 0

/-- The member `push_front`. -/
def push_front {α : Type} [Inhabited α] (this : Nat) (value : α) : Prog α Unit := do
  let old_ptr ← readHead this
  let fresh ← newNode
  writeHead this fresh
  let h ← readHead this
  setData h value
  let h ← readHead this
  setNext h old_ptr

/-- The loop `while (runner->next_ != nullptr) runner = runner->next_;` of `push_back`
and of `back`; it returns the final `runner`. -/
def seek_last {α : Type} : Nat → Nat → Prog α Nat
  | 0, _ => fail .diverges
  | fuel + 1, runner => do
    let nx ← getNext runner
    if nx ≠ 0 then do
      let runner ← getNext runner
      seek_last fuel runner
    else pure runner

/-- The member `push_back`. -/
def push_back {α : Type} [Inhabited α] (this : Nat) (value : α) : Prog α Unit := do
  let h ← readHead this
  if h = 0 then do
    let fresh ← newNode
    writeHead this fresh
    let h ← readHead this
    setData h value
  else do
    let runner ← readHead this
    let fuel ← stepBound
    let runner ← seek_last fuel runner
    let fresh ← newNode
    setNext runner fresh
    let runner ← getNext runner
    setData runner value

/-- The member `front`. -/
def front {α : Type} [Inhabited α] (this : Nat) : Prog α α := do
  let h ← readHead this
  if h = 0 then pure default
  else do
    let h ← readHead this
    getData h

/-- The member `back`. -/
def back {α : Type} [Inhabited α] (this : Nat) : Prog α α := do
  let h ← readHead this
  if h = 0 then pure default
  else do
    let runner ← readHead this
    let fuel ← stepBound
    let runner ← seek_last fuel runner
    getData runner

/-- The member `pop_front`. -/
def pop_front {α : Type} (this : Nat) : Prog α Unit := do
  let h ← readHead this
  if h = 0 then pure ()
  else do
    let old_head ← readHead this
    let h ← readHead this
    let nx ← getNext h
    writeHead this nx
    deleteNode old_head

/-- The loop of `size`. -/
def size_loop {α : Type} : Nat → Int → Nat → Prog α Int
  | 0, _, _ => fail .diverges
  | fuel + 1, sum, runner => do
    let nx ← getNext runner
    if nx ≠ 0 then do
      let runner ← getNext runner
      size_loop fuel (sum + 1) runner
    else pure sum

/-- The member `size`. -/
def size {α : Type} (this : Nat) : Prog α Int := do
  let h ← readHead this
  if h = 0 then pure 0
  else do
    let runner ← readHead this
    let fuel ← stepBound
    size_loop fuel 1 runner

/-- The loop of `pop_back`; it returns the final `runner` and `previous`. -/
def pop_back_loop {α : Type} : Nat → Nat → Nat → Prog α (Nat × Nat)
  | 0, _, _ => fail .diverges
  | fuel + 1, runner, previous => do
    let nx ← getNext runner
    if nx ≠ 0 then do
      let previous := runner
      let runner ← getNext runner
      pop_back_loop fuel runner previous
    else pure (runner, previous)

/-- The member `pop_back`. -/
def pop_back {α : Type} (this : Nat) : Prog α Unit := do
  let h ← readHead this
  if h = 0 then pure ()
  else do
    let sz ← size this
    if sz = 1 then clear this
    else do
      let runner ← readHead this
      let previous := runner
      let fuel ← stepBound
      let (runner, previous) ← pop_back_loop fuel runner previous
      deleteNode runner
      setNext previous 0

/-- The loop of `GetVector`. -/
def GetVector_loop {α : Type} : Nat → List α → Nat → Prog α (List α)
  | 0, _, _ => fail .diverges
  | fuel + 1, vec, runner => do
    let nx ← getNext runner
    if nx ≠ 0 then do
      let d ← getData runner
      let runner ← getNext runner
      GetVector_loop fuel (vec ++ [d]) runner
    else pure vec

/-- The member `GetVector`. -/
def GetVector {α : Type} [Inhabited α] (this : Nat) : Prog α (List α) := do
  let h ← readHead this
  if h = 0 then pure []
  else do
    let runner ← readHead this
    let fuel ← stepBound
    let vec ← GetVector_loop fuel [] runner
    let b ← back this
    pure (vec ++ [b])

/-- The member `empty`. -/
def empty {α : Type} (this : Nat) : Prog α Bool := do
  let h ← readHead this
  if h = 0 then pure true else pure false

/-- The loop of `RemoveNth`, `for (int i = 0; i < n - 1; i++) runner = runner->next_;`,
given the number of its iterations. -/
def RemoveNth_loop {α : Type} : Nat → Nat → Prog α Nat
  | 0, runner => pure runner
  | k + 1, runner => do
    let runner ← getNext runner
    RemoveNth_loop k runner

/-- The member `RemoveNth`.  The loop `for (int i = 0; i < n - 1; i++)` runs as many
times as its bound `n - 1` says, the bound being an `int`: none if it is not positive. -/
def RemoveNth {α : Type} (this : Nat) (n : Int) : Prog α Unit :=
  if n = 0 then pop_front this
  else do
    let sz ← size this
    if n = sz - 1 then pop_back this
    else do
      let sz ← size this
      if n > sz - 1 then pure ()
      else do
        let runner ← readHead this
        let runner ← RemoveNth_loop (int_pred n).toNat runner
        let node_to_remove ← getNext runner
        let next_node ← getNext node_to_remove
        deleteNode node_to_remove
        setNext runner next_node

/-- The member `operator==`: the two `GetVector()` snapshots compared with the `==` of
`std::vector`, which compares the lengths and then the elements with the `==` of the
element type (the `BEq` instance here). -/
def operator_eq {α : Type} [Inhabited α] [BEq α] (this rhs : Nat) : Prog α Bool := do
  let l ← GetVector this
  let r ← GetVector rhs
  pure (l == r)

/-- The function `operator!=` on lists. -/
def operator_ne {α : Type} [Inhabited α] [BEq α] (lhs rhs : Nat) : Prog α Bool := do
  let e ← operator_eq lhs rhs
  pure (!e)

/-- The loop of `operator<<` in `ref_ll.cpp`,
`for (int i = 0; i < temp_vector.size() - 1; i++) os << temp_vector[i] << ", ";`,
given the number of iterations still to run and the index `i`. -/
def operator_lshift_loop {α : Type} [Inhabited α] (render : α → String)
    (temp_vector : List α) : Nat → Nat → String → String
  | 0, _, os => os
  | k + 1, i, os =>
    operator_lshift_loop render temp_vector k (i + 1)
      (os ++ render (temp_vector.getD i default) ++ ", ")

/-- The function `operator<<` of `ref_ll.cpp`.  The stream is the text written to it so
far, `render` is the `operator<<` of the element type, and `std::endl` writes a line
break.  The vector is never empty where its `size() - 1` is taken. -/
def operator_lshift {α : Type} [Inhabited α] (render : α → String) (os : String)
    (list : Nat) : Prog α String := do
  let e ← empty list
  if e then pure (os ++ "" ++ "\n")
  else do
    let temp_vector ← GetVector list
    let os := operator_lshift_loop render temp_vector (temp_vector.length - 1) 0 os
    let b ← back list
    pure (os ++ render b ++ "\n")

/-- The member `begin`. -/
def begin {α : Type} (this : Nat) : Prog α Iterator := do
  let h ← readHead this
  pure ⟨h⟩

/-- The member `end`. -/
def end_ {α : Type} (_this : Nat) : Prog α Iterator :=
  pure ⟨0⟩

end LinkedList

namespace snakelinkedlist.LinkedList

/-- The default constructor of `ll.cpp`: it assigns `nullptr` in its body, after the
default member initialiser `decl` of `head_`, if the class declaration has one. -/
def ctor_default {α : Type} (decl : Option Nat) (this : Nat) : Prog α Unit := do
  match decl with
    | some p => writeHead this p
    | none => pure ()
  writeHead this 0

/-- The loop of the vector constructor of `ll.cpp`,
`for (int i = 1; i < values.size(); i++)`, run over the values from index 1 on. -/
def ctor_vector_loop {α : Type} [Inhabited α] : List α → Nat → Prog α Unit
  | [], _ => pure ()
  | v :: rest, runner => do
    let current ← newNode
    setData current v
    setNext runner current
    let runner ← getNext runner
    ctor_vector_loop rest runner

/-- The body of the constructor from a vector in `ll.cpp`.  On an empty vector it returns
at once and assigns nothing to `head_`. -/
def ctor_vector_body {α : Type} [Inhabited α] (this : Nat) (values : List α) : Prog α Unit :=
  match values with
  | [] => pure ()
  | v :: rest => do
    let fresh ← newNode
    writeHead this fresh
    let h ← readHead this
    setData h v
    let runner ← readHead this
    ctor_vector_loop rest runner

/-- The constructor from a vector in `ll.cpp`.  As in `ref_ll.cpp` it has no member
initialiser list; `decl` is the default member initialiser of `head_` in the class
declaration of `ll.h`, which is a declaration of its own, apart from the one of the class
template of `ref_ll.cpp`. -/
def ctor_vector {α : Type} [Inhabited α] (decl : Option Nat) (this : Nat) (values : List α) :
    Prog α Unit := do
  match decl with
    | some p => writeHead this p
    | none => pure ()
  ctor_vector_body this values

/-- The loop of the copy constructor of `ll.cpp`,
`while (source_runner->next_ != nullptr)`. -/
def ctor_copy_loop {α : Type} [Inhabited α] : Nat → Nat → Nat → Prog α Unit
  | 0, _, _ => fail .diverges
  | fuel + 1, local_runner, source_runner => do
    let nx ← getNext source_runner
    if nx ≠ 0 then do
      let current ← newNode
      let sn ← getNext source_runner
      let d ← getData sn
      setData current d
      setNext local_runner current
      let local_runner ← getNext local_runner
      let source_runner ← getNext source_runner
      ctor_copy_loop fuel local_runner source_runner
    else pure ()

/-- The copy constructor of `ll.cpp`. -/
def ctor_copy {α : Type} [Inhabited α] (this source : Nat) : Prog α Unit := do
  writeHead this 0
  let sh ← readHead source
  if sh = 0 then pure ()
  else do
    let fresh ← newNode
    writeHead this fresh
    let sh ← readHead source
    let d ← getData sh
    let h ← readHead this
    setData h d
    let local_runner ← readHead this
    let source_runner ← readHead source
    let fuel ← stepBound
    ctor_copy_loop fuel local_runner source_runner

/-- The move constructor of `ll.cpp`. -/
def ctor_move {α : Type} (this source : Nat) : Prog α Unit := do
  let sh ← readHead source
  writeHead this sh
  writeHead source 0

/-- The loop of `clear` in `ll.cpp`, `while (head_ != nullptr)`. -/
def clear_loop {α : Type} (this : Nat) : Nat → Nat → Prog α Unit
  | 0, _ => fail .diverges
  | fuel + 1, runner => do
    let h ← readHead this
    if h ≠ 0 then do
      let nx ← getNext h
      writeHead this nx
      deleteNode runner
      let runner ← readHead this
      clear_loop this fuel runner
    else pure ()

/-- The member `clear` of `ll.cpp`. -/
def clear {α : Type} (this : Nat) : Prog α Unit := do
  let h ← readHead this
  if h = 0 then pure ()
  else do
    let runner ← readHead this
    let fuel ← stepBound
    clear_loop this fuel runner

/-- The destructor of `ll.cpp`: `clear`, after which the object is gone. -/
def dtor {α : Type} (this : Nat) : Prog α Unit := do
  clear this
  endObj this

/-- The copy assignment operator of `ll.cpp`: as in `ref_ll.cpp`, but `temp_list` is never
deleted. -/
def assign_copy {α : Type} [Inhabited α] (this source : Nat) : Prog α Unit :=
  if this = source then pure ()
  else do
    clear this
    let temp_list ← newObj
    ctor_copy temp_list source
    let th ← readHead temp_list
    writeHead this th
    writeHead temp_list 0

/-- The move assignment operator of `ll.cpp`. -/
def assign_move {α : Type} (this source : Nat) : Prog α Unit :=
  if this = source then pure ()
  else do
    clear this
    let sh ← readHead source
    writeHead this sh
    writeHead source 0

/-- The member `push_front` of `ll.cpp`. -/
def push_front {α : Type} [Inhabited α] (this : Nat) (value : α) : Prog α Unit := do
  let old_ptr ← readHead this
  let fresh ← newNode
  writeHead this fresh
  let h ← readHead this
  setData h value
  let h ← readHead this
  setNext h old_ptr

/-- The loop `while (runner->next_ != nullptr) runner = runner->next_;` of `push_back`
and of `back` in `ll.cpp`; it returns the final `runner`. -/
def seek_last {α : Type} : Nat → Nat → Prog α Nat
  | 0, _ => fail .diverges
  | fuel + 1, runner => do
    let nx ← getNext runner
    if nx ≠ 0 then do
      let runner ← getNext runner
      seek_last fuel runner
    else pure runner

/-- The member `push_back` of `ll.cpp`. -/
def push_back {α : Type} [Inhabited α] (this : Nat) (value : α) : Prog α Unit := do
  let h ← readHead this
  if h = 0 then do
    let fresh ← newNode
    writeHead this fresh
    let h ← readHead this
    setData h value
  else do
    let runner ← readHead this
    let fuel ← stepBound
    let runner ← seek_last fuel runner
    let fresh ← newNode
    setNext runner fresh
    let runner ← getNext runner
    setData runner value

/-- The member `front` of `ll.cpp`. -/
def front {α : Type} [Inhabited α] (this : Nat) : Prog α α := do
  let h ← readHead this
  if h = 0 then pure default
  else do
    let h ← readHead this
    getData h

/-- The member `back` of `ll.cpp`. -/
def back {α : Type} [Inhabited α] (this : Nat) : Prog α α := do
  let h ← readHead this
  if h = 0 then pure default
  else do
    let runner ← readHead this
    let fuel ← stepBound
    let runner ← seek_last fuel runner
    getData runner

/-- The member `pop_front` of `ll.cpp`. -/
def pop_front {α : Type} (this : Nat) : Prog α Unit := do
  let h ← readHead this
  if h = 0 then pure ()
  else do
    let old_head ← readHead this
    let h ← readHead this
    let nx ← getNext h
    writeHead this nx
    deleteNode old_head

/-- The loop of `size` in `ll.cpp`. -/
def size_loop {α : Type} : Nat → Int → Nat → Prog α Int
  | 0, _, _ => fail .diverges
  | fuel + 1, sum, runner => do
    let nx ← getNext runner
    if nx ≠ 0 then do
      let runner ← getNext runner
      size_loop fuel (sum + 1) runner
    else pure sum

/-- The member `size` of `ll.cpp`. -/
def size {α : Type} (this : Nat) : Prog α Int := do
  let h ← readHead this
  if h = 0 then pure 0
  else do
    let runner ← readHead this
    let fuel ← stepBound
    size_loop fuel 1 runner

/-- The loop of `pop_back` in `ll.cpp`; it returns the final `runner` and `previous`. -/
def pop_back_loop {α : Type} : Nat → Nat → Nat → Prog α (Nat × Nat)
  | 0, _, _ => fail .diverges
  | fuel + 1, runner, previous => do
    let nx ← getNext runner
    if nx ≠ 0 then do
      let previous := runner
      let runner ← getNext runner
      pop_back_loop fuel runner previous
    else pure (runner, previous)

/-- The member `pop_back` of `ll.cpp`. -/
def pop_back {α : Type} (this : Nat) : Prog α Unit := do
  let h ← readHead this
  if h = 0 then pure ()
  else do
    let sz ← size this
    if sz = 1 then clear this
    else do
      let runner ← readHead this
      let previous := runner
      let fuel ← stepBound
      let (runner, previous) ← pop_back_loop fuel runner previous
      deleteNode runner
      setNext previous 0

/-- The loop of `GetVector` in `ll.cpp`. -/
def GetVector_loop {α : Type} : Nat → List α → Nat → Prog α (List α)
  | 0, _, _ => fail .diverges
  | fuel + 1, snake_body_seg_list, runner => do
    let nx ← getNext runner
    if nx ≠ 0 then do
      let d ← getData runner
      let runner ← getNext runner
      GetVector_loop fuel (snake_body_seg_list ++ [d]) runner
    else pure snake_body_seg_list

/-- The member `GetVector` of `ll.cpp`. -/
def GetVector {α : Type} [Inhabited α] (this : Nat) : Prog α (List α) := do
  let h ← readHead this
  if h = 0 then pure []
  else do
    let runner ← readHead this
    let fuel ← stepBound
    let snake_body_seg_list ← GetVector_loop fuel [] runner
    let b ← back this
    pure (snake_body_seg_list ++ [b])

/-- The member `empty` of `ll.cpp`. -/
def empty {α : Type} (this : Nat) : Prog α Bool := do
  let h ← readHead this
  if h = 0 then pure true else pure false

/-- The loop of `RemoveNth` in `ll.cpp`,
`for (int i = 0; i < n - 1; i++) runner = runner->next_;`, given the number of its
iterations. -/
def RemoveNth_loop {α : Type} : Nat → Nat → Prog α Nat
  | 0, runner => pure runner
  | k + 1, runner => do
    let runner ← getNext runner
    RemoveNth_loop k runner

/-- The member `RemoveNth` of `ll.cpp`, with the `int` bound `n - 1` of its loop as in
`ref_ll.cpp`. -/
def RemoveNth {α : Type} (this : Nat) (n : Int) : Prog α Unit :=
  if n = 0 then pop_front this
  else do
    let sz ← size this
    if n = sz - 1 then pop_back this
    else do
      let sz ← size this
      if n > sz - 1 then pure ()
      else do
        let runner ← readHead this
        let runner ← RemoveNth_loop (int_pred n).toNat runner
        let node_to_remove ← getNext runner
        let next_node ← getNext node_to_remove
        deleteNode node_to_remove
        setNext runner next_node

/-- The member `operator==` of `ll.cpp`: the two `GetVector()` snapshots compared with the
`==` of `std::vector`. -/
def operator_eq {α : Type} [Inhabited α] [BEq α] (this rhs : Nat) : Prog α Bool := do
  let l ← GetVector this
  let r ← GetVector rhs
  pure (l == r)

/-- The function `operator!=` on lists in `ll.cpp`. -/
def operator_ne {α : Type} [Inhabited α] [BEq α] (lhs rhs : Nat) : Prog α Bool := do
  let e ← operator_eq lhs rhs
  pure (!e)

/-- The loop of `operator<<` in `ll.cpp`, `while (runner->next_ != nullptr)`. -/
def operator_lshift_loop {α : Type} (render : α → String) : Nat → Nat → String → Prog α String
  | 0, _, _ => fail .diverges
  | fuel + 1, runner, os => do
    let nx ← getNext runner
    if nx ≠ 0 then do
      let d ← getData runner
      let runner ← getNext runner
      operator_lshift_loop render fuel runner (os ++ render d ++ ", ")
    else pure os

/-- The function `operator<<` of `ll.cpp`, which walks the nodes itself. -/
def operator_lshift {α : Type} [Inhabited α] (render : α → String) (os : String)
    (list : Nat) : Prog α String := do
  let h ← readHead list
  if h = 0 then pure (os ++ "" ++ "\n")
  else do
    let runner ← readHead list
    let fuel ← stepBound
    let os ← operator_lshift_loop render fuel runner os
    let b ← back list
    pure (os ++ render b ++ "\n")

end snakelinkedlist.LinkedList

/-- The modifying member functions, each with its arguments. -/
inductive Modifier (α : Type) where
  | push_front (value : α)
  | push_back (value : α)
  | pop_front
  | pop_back
  | RemoveNth (n : Int)
  | clear

/-- The call of a modifier on the object `this`. -/
def Modifier.run {α : Type} [Inhabited α] (m : Modifier α) (this : Nat) : Prog α Unit :=
  match m with
  | .push_front value => LinkedList.push_front this value
  | .push_back value => LinkedList.push_back this value
  | .pop_front => LinkedList.pop_front this
  | .pop_back => LinkedList.pop_back this
  | .RemoveNth n => LinkedList.RemoveNth this n
  | .clear => LinkedList.clear this

/-- A memory with two lists: object `0` holds `[3, 1, 4, 1, 5]` in the nodes `1` to `5`,
object `1` holds `[9]` in node `6`. -/
def twoLists : Mem Nat :=
  ⟨[some ⟨3, 2⟩, some ⟨1, 3⟩, some ⟨4, 4⟩, some ⟨1, 5⟩, some ⟨5, 0⟩, some ⟨9, 0⟩],
    [some 1, some 6]⟩

/-- A memory with the list `[7]` in object `0` and the empty list in object `1`. -/
def oneAndNone : Mem Nat := ⟨[some ⟨7, 0⟩], [some 1, some 0]⟩

/-- The textual forms `parts` joined by `sep`, with no separator after the last. -/
def joined (sep : String) : List String → String
  | [] => ""
  | [x] => x
  | x :: y :: rest => x ++ sep ++ joined sep (y :: rest)

/-- The textual forms `parts`, each followed by `sep`. -/
def separated (sep : String) : List String → String
  | [] => ""
  | x :: rest => x ++ sep ++ separated sep rest

/-- Build a list from a vector in a new object and hand back the object; `decl` is the
default member initialiser of `head_`, as in `ctor_vector`. -/
def fromVector {α : Type} [Inhabited α] (decl : Option Nat) (values : List α) : Prog α Nat := do
  let a ← newObj
  LinkedList.ctor_vector decl a values
  pure a

/-- The calls of a modifier that the documentation of the container covers: the index of
`RemoveNth` is not negative. -/
def Modifier.Indexed {α : Type} : Modifier α → Prop
  | .RemoveNth n => 0 ≤ n
  | _ => True

/-- The fresh object `C` is a deep copy of the list `A`, both with the contents `xs`:
`GetVector()` returns `xs` on each, and whatever modifier is then called on `C` with an
index that is not negative, the call returns and `A.GetVector()` still returns `xs`. -/
def DeepCopy {α : Type} [Inhabited α] (t : Mem α) (A C : Nat) (xs : List α) : Prop :=
  LinkedList.GetVector C t = .ok (xs, t) ∧ LinkedList.GetVector A t = .ok (xs, t) ∧
    ∀ m : Modifier α, m.Indexed →
      ∃ u, m.run C t = .ok ((), u) ∧ LinkedList.GetVector A u = .ok (xs, u)

/-! ## Assertions -/

/-- Total correctness: from the memory `s` the computation returns, and its result and
final memory satisfy `Q`. -/
def Prog.Ok {α β : Type} (m : Prog α β) (s : Mem α) (Q : β → Mem α → Prop) : Prop :=
  ∃ r s', m s = .ok (r, s') ∧ Q r s'

/-- The pointer `p` starts a run of linked nodes that sit at the addresses `ps`, in this
order, and carry the values `xs`; the `next_` of the last one is `e` (and `p` is `e` when
the run is empty). -/
def Seg {α : Type} (s : Mem α) : Nat → Nat → List Nat → List α → Prop
  | p, e, [], [] => p = e
  | p, e, q :: ps, x :: xs => q = p ∧ ∃ nx, s.lookup p = some ⟨x, nx⟩ ∧ Seg s nx e ps xs
  | _, _, _, _ => False

/-- The pointer `p` starts a null-terminated chain whose nodes sit at the addresses `ps`,
in this order, and carry the values `xs`. -/
abbrev Chain {α : Type} (s : Mem α) (p : Nat) (ps : List Nat) (xs : List α) : Prop :=
  Seg s p 0 ps xs

/-- The object `a` is a list: its `head_` starts a chain with nodes at `ps` carrying `xs`. -/
def Holds {α : Type} (s : Mem α) (a : Nat) (ps : List Nat) (xs : List α) : Prop :=
  ∃ p, s.head a = some p ∧ Chain s p ps xs

/-- Whether a run of nodes is as described can be computed by walking it. -/
instance Seg.decidable {α : Type} [DecidableEq α] (s : Mem α) :
    (p e : Nat) → (ps : List Nat) → (xs : List α) → Decidable (Seg s p e ps xs)
  | p, e, [], [] => decidable_of_iff (p = e) (by simp [Seg])
  | _, _, [], _ :: _ => isFalse (by simp [Seg])
  | _, _, _ :: _, [] => isFalse (by simp [Seg])
  | p, e, q :: ps, x :: xs =>
    match h : s.lookup p with
    | none => isFalse (by simp [Seg, h])
    | some n =>
      have := Seg.decidable s n.next_ e ps xs
      decidable_of_iff (q = p ∧ n.data_ = x ∧ Seg s n.next_ e ps xs) (by
        cases n with
        | mk d nx =>
          simp only [Seg, h, Option.some.injEq, Node.mk.injEq]
          constructor
          · rintro ⟨h1, h2, h3⟩
            exact ⟨h1, nx, ⟨h2, rfl⟩, h3⟩
          · rintro ⟨h1, nx2, ⟨h2, h3⟩, h4⟩
            subst h3
            exact ⟨h1, h2, h4⟩)

/-- Whether an object is a list with given nodes and contents can be computed. -/
instance Holds.decidable {α : Type} [DecidableEq α] (s : Mem α) (a : Nat) (ps : List Nat)
    (xs : List α) : Decidable (Holds s a ps xs) :=
  match h : s.head a with
  | none => isFalse (by simp [Holds, h])
  | some p => decidable_of_iff (Chain s p ps xs) (by simp [Holds, h])

/-- What a member function called on the object `a`, whose nodes are at `ps`, leaves alone
on the way from `s` to `t`: every other object, and every live node outside `ps`. -/
def Frame {α : Type} (s t : Mem α) (a : Nat) (ps : List Nat) : Prop :=
  (∀ b v, b ≠ a → s.head b = some v → t.head b = some v) ∧
  (∀ q n, q ∉ ps → s.lookup q = some n → t.lookup q = some n) ∧
  s.objs.length ≤ t.objs.length ∧ s.cells.length ≤ t.cells.length

/-! ## Memory and program rules -/

section Rules

variable {α β γ : Type}

theorem lookup_some_pos {s : Mem α} {p : Nat} {n : Node α} (h : s.lookup p = some n) :
    p ≠ 0 ∧ p ≤ s.cells.length := by
  cases p with
  | zero => simp [Mem.lookup] at h
  | succ q =>
    refine ⟨by omega, ?_⟩
    by_contra hc
    have : s.cells[q]? = none := List.getElem?_eq_none (by omega)
    simp [Mem.lookup, this] at h

theorem lookup_succ {s : Mem α} {q : Nat} {n : Node α} :
    s.lookup (q + 1) = some n ↔ s.cells[q]? = some (some n) := by
  simp only [Mem.lookup]
  cases h : s.cells[q]? with
  | none => simp
  | some o => cases o <;> simp

theorem lookup_write {s : Mem α} {p : Nat} {m n : Node α} (h : s.lookup p = some m) (q : Nat) :
    (s.write p n).lookup q = if q = p then some n else s.lookup q := by
  obtain ⟨hp, hl⟩ := lookup_some_pos h
  cases q with
  | zero => simp [Mem.lookup, Ne.symm hp]
  | succ r =>
    simp only [Mem.lookup, Mem.write]
    by_cases e : r + 1 = p
    · subst e
      have hr : r < s.cells.length := hl
      simp [List.getElem?_set, hr]
    · have : p - 1 ≠ r := by omega
      simp [List.getElem?_set, this, e]

theorem lookup_free {s : Mem α} {p : Nat} (hp : p ≠ 0) (q : Nat) :
    (s.free p).lookup q = if q = p then none else s.lookup q := by
  cases q with
  | zero => simp [Mem.lookup]
  | succ r =>
    simp only [Mem.lookup, Mem.free]
    by_cases e : r + 1 = p
    · subst e
      by_cases hl : r < s.cells.length
      · simp [List.getElem?_set, hl]
      · simp [List.getElem?_eq_none (Nat.not_lt.mp hl), List.getElem?_set]
    · have : p - 1 ≠ r := by omega
      simp [List.getElem?_set, this, e]

theorem lookup_alloc {s : Mem α} {n : Node α} (q : Nat) :
    (s.alloc n).lookup q = if q = s.cells.length + 1 then some n else s.lookup q := by
  cases q with
  | zero => simp [Mem.lookup]
  | succ r =>
    simp only [Mem.lookup, Mem.alloc]
    by_cases e : r = s.cells.length
    · subst e
      simp
    · have e2 : ¬ (r + 1 = s.cells.length + 1) := by omega
      rw [if_neg e2]
      by_cases hl : r < s.cells.length
      · rw [List.getElem?_append_left hl]
      · have h1 : s.cells[r]? = none := List.getElem?_eq_none (by omega)
        have h2 : (s.cells ++ [some n])[r]? = none :=
          List.getElem?_eq_none (by simp; omega)
        rw [h1, h2]

@[simp] theorem lookup_setHead {s : Mem α} {a : Nat} {v : Option Nat} (q : Nat) :
    (s.setHead a v).lookup q = s.lookup q := rfl

@[simp] theorem head_write {s : Mem α} {p : Nat} {n : Node α} (b : Nat) :
    (s.write p n).head b = s.head b := rfl

@[simp] theorem head_free {s : Mem α} {p : Nat} (b : Nat) :
    (s.free p).head b = s.head b := rfl

@[simp] theorem head_alloc {s : Mem α} {n : Node α} (b : Nat) :
    (s.alloc n).head b = s.head b := rfl

theorem head_setHead {s : Mem α} {a : Nat} {v : Option Nat} (h : a < s.objs.length) (b : Nat) :
    (s.setHead a v).head b = if b = a then v else s.head b := by
  simp only [Mem.head, Mem.setHead]
  by_cases e : b = a
  · subst e
    simp [List.getElem?_set, h]
  · have : a ≠ b := fun h => e h.symm
    simp [List.getElem?_set, this, e]

theorem head_some_lt {s : Mem α} {a : Nat} {p : Nat} (h : s.head a = some p) :
    a < s.objs.length := by
  by_contra hc
  have : s.objs[a]? = none := List.getElem?_eq_none (by omega)
  simp [Mem.head, this] at h

theorem head_some_iff {s : Mem α} {a : Nat} {p : Nat} :
    s.head a = some p ↔ s.objs[a]? = some (some p) := by
  simp only [Mem.head]
  cases h : s.objs[a]? with
  | none => simp
  | some o => cases o <;> simp

@[simp] theorem cells_write_length {s : Mem α} {p : Nat} {n : Node α} :
    (s.write p n).cells.length = s.cells.length := by simp [Mem.write]

@[simp] theorem cells_free_length {s : Mem α} {p : Nat} :
    (s.free p).cells.length = s.cells.length := by simp [Mem.free]

@[simp] theorem cells_alloc_length {s : Mem α} {n : Node α} :
    (s.alloc n).cells.length = s.cells.length + 1 := by simp [Mem.alloc]

@[simp] theorem cells_setHead {s : Mem α} {a : Nat} {v : Option Nat} :
    (s.setHead a v).cells = s.cells := rfl

@[simp] theorem objs_write {s : Mem α} {p : Nat} {n : Node α} :
    (s.write p n).objs = s.objs := rfl

@[simp] theorem objs_free {s : Mem α} {p : Nat} : (s.free p).objs = s.objs := rfl

@[simp] theorem objs_alloc {s : Mem α} {n : Node α} : (s.alloc n).objs = s.objs := rfl

@[simp] theorem objs_setHead_length {s : Mem α} {a : Nat} {v : Option Nat} :
    (s.setHead a v).objs.length = s.objs.length := by simp [Mem.setHead]

theorem Ok_pure {x : β} {s : Mem α} {Q : β → Mem α → Prop} (h : Q x s) :
    Prog.Ok (pure x : Prog α β) s Q := ⟨x, s, rfl, h⟩

theorem Ok_bind {m : Prog α β} {f : β → Prog α γ} {s : Mem α} {Q : γ → Mem α → Prop}
    (h : Prog.Ok m s (fun x t => Prog.Ok (f x) t Q)) : Prog.Ok (m >>= f) s Q := by
  obtain ⟨x, t, hm, r, u, hf, hq⟩ := h
  refine ⟨r, u, ?_, hq⟩
  show Prog.andThen m f s = _
  simp [Prog.andThen, hm, hf]

theorem Ok_mono {m : Prog α β} {s : Mem α} {Q R : β → Mem α → Prop}
    (h : Prog.Ok m s Q) (hqr : ∀ x t, Q x t → R x t) : Prog.Ok m s R := by
  obtain ⟨x, t, hm, hq⟩ := h
  exact ⟨x, t, hm, hqr x t hq⟩

theorem Ok_load {p : Nat} {n : Node α} {s : Mem α} {Q : Node α → Mem α → Prop}
    (h : s.lookup p = some n) (hq : Q n s) : Prog.Ok (load p) s Q := by
  cases p with
  | zero => simp [Mem.lookup] at h
  | succ q =>
    rw [lookup_succ] at h
    exact ⟨n, s, by simp [load, h], hq⟩

theorem Ok_getNext {p : Nat} {n : Node α} {s : Mem α} {Q : Nat → Mem α → Prop}
    (h : s.lookup p = some n) (hq : Q n.next_ s) : Prog.Ok (getNext p) s Q :=
  Ok_bind (Ok_load h (Ok_pure hq))

theorem Ok_getData {p : Nat} {n : Node α} {s : Mem α} {Q : α → Mem α → Prop}
    (h : s.lookup p = some n) (hq : Q n.data_ s) : Prog.Ok (getData p) s Q :=
  Ok_bind (Ok_load h (Ok_pure hq))

theorem Ok_setNext {p q : Nat} {n : Node α} {s : Mem α} {Q : Unit → Mem α → Prop}
    (h : s.lookup p = some n) (hq : Q () (s.write p ⟨n.data_, q⟩)) :
    Prog.Ok (setNext p q) s Q :=
  Ok_bind (Ok_load h ⟨(), _, rfl, hq⟩)

theorem Ok_setData {p : Nat} {v : α} {n : Node α} {s : Mem α} {Q : Unit → Mem α → Prop}
    (h : s.lookup p = some n) (hq : Q () (s.write p ⟨v, n.next_⟩)) :
    Prog.Ok (setData p v) s Q :=
  Ok_bind (Ok_load h ⟨(), _, rfl, hq⟩)

theorem Ok_newNode [Inhabited α] {s : Mem α} {Q : Nat → Mem α → Prop}
    (hq : Q (s.cells.length + 1) (s.alloc ⟨default, 0⟩)) : Prog.Ok newNode s Q :=
  ⟨_, _, rfl, hq⟩

theorem Ok_deleteNode {p : Nat} {n : Node α} {s : Mem α} {Q : Unit → Mem α → Prop}
    (h : s.lookup p = some n) (hq : Q () (s.free p)) : Prog.Ok (deleteNode p) s Q := by
  cases p with
  | zero => simp [Mem.lookup] at h
  | succ q =>
    rw [lookup_succ] at h
    exact ⟨(), _, by simp [deleteNode, h], hq⟩

theorem Ok_readHead {a : Nat} {p : Nat} {s : Mem α} {Q : Nat → Mem α → Prop}
    (h : s.head a = some p) (hq : Q p s) : Prog.Ok (readHead a) s Q := by
  rw [head_some_iff] at h
  exact ⟨p, s, by simp [readHead, h], hq⟩

theorem Ok_writeHead {a : Nat} {p : Nat} {s : Mem α} {Q : Unit → Mem α → Prop}
    (h : a < s.objs.length) (hq : Q () (s.setHead a (some p))) :
    Prog.Ok (writeHead a p) s Q :=
  ⟨(), _, by simp [writeHead, h], hq⟩

theorem Ok_newObj {s : Mem α} {Q : Nat → Mem α → Prop}
    (hq : Q s.objs.length s.addObj) : Prog.Ok newObj s Q :=
  ⟨_, _, rfl, hq⟩

theorem Ok_endObj {a : Nat} {s : Mem α} {Q : Unit → Mem α → Prop}
    (h : a < s.objs.length) (hq : Q () (s.setHead a none)) : Prog.Ok (endObj a) s Q :=
  ⟨(), _, by simp [endObj, h], hq⟩

@[simp] theorem lookup_addObj {s : Mem α} (q : Nat) : s.addObj.lookup q = s.lookup q := rfl

@[simp] theorem cells_addObj {s : Mem α} : s.addObj.cells = s.cells := rfl

@[simp] theorem objs_addObj_length {s : Mem α} :
    s.addObj.objs.length = s.objs.length + 1 := by simp [Mem.addObj]

@[simp] theorem head_addObj {s : Mem α} (b : Nat) : s.addObj.head b = s.head b := by
  simp only [Mem.head, Mem.addObj]
  by_cases hl : b < s.objs.length
  · rw [List.getElem?_append_left hl]
  · by_cases e : b = s.objs.length
    · subst e
      simp
    · have h1 : s.objs[b]? = none := List.getElem?_eq_none (by omega)
      have h2 : (s.objs ++ [none])[b]? = none := List.getElem?_eq_none (by simp; omega)
      rw [h1, h2]

theorem Ok_stepBound {s : Mem α} {Q : Nat → Mem α → Prop}
    (hq : Q (s.cells.length + 1) s) : Prog.Ok stepBound s Q :=
  ⟨_, _, rfl, hq⟩

end Rules

/-! ## The two source files -/

section Variants

variable {α : Type}

theorem ll_ctor_copy_loop_eq [Inhabited α] :
    @snakelinkedlist.LinkedList.ctor_copy_loop α _ = @LinkedList.ctor_copy_loop α _ := by
  funext fuel
  induction fuel with
  | zero => rfl
  | succ fuel ih =>
    funext local_runner source_runner
    simp only [snakelinkedlist.LinkedList.ctor_copy_loop, LinkedList.ctor_copy_loop, ih]

theorem ll_ctor_copy_eq [Inhabited α] :
    @snakelinkedlist.LinkedList.ctor_copy α _ = @LinkedList.ctor_copy α _ := by
  funext this source
  simp only [snakelinkedlist.LinkedList.ctor_copy, LinkedList.ctor_copy, ll_ctor_copy_loop_eq]

theorem ll_clear_loop_eq :
    @snakelinkedlist.LinkedList.clear_loop α = @LinkedList.clear_loop α := by
  funext this fuel
  induction fuel with
  | zero => rfl
  | succ fuel ih =>
    funext runner
    simp only [snakelinkedlist.LinkedList.clear_loop, LinkedList.clear_loop, ih]

theorem ll_clear_eq : @snakelinkedlist.LinkedList.clear α = @LinkedList.clear α := by
  funext this
  simp only [snakelinkedlist.LinkedList.clear, LinkedList.clear, ll_clear_loop_eq]

theorem ll_dtor_eq : @snakelinkedlist.LinkedList.dtor α = @LinkedList.dtor α := by
  funext this
  simp only [snakelinkedlist.LinkedList.dtor, LinkedList.dtor, ll_clear_eq]

theorem ll_seek_last_eq : @snakelinkedlist.LinkedList.seek_last α = @LinkedList.seek_last α := by
  funext fuel
  induction fuel with
  | zero => rfl
  | succ fuel ih =>
    funext runner
    simp only [snakelinkedlist.LinkedList.seek_last, LinkedList.seek_last, ih]

theorem ll_back_eq [Inhabited α] :
    @snakelinkedlist.LinkedList.back α _ = @LinkedList.back α _ := by
  funext this
  simp only [snakelinkedlist.LinkedList.back, LinkedList.back, ll_seek_last_eq]

theorem ll_pop_front_eq :
    @snakelinkedlist.LinkedList.pop_front α = @LinkedList.pop_front α := rfl

theorem ll_size_loop_eq : @snakelinkedlist.LinkedList.size_loop α = @LinkedList.size_loop α := by
  funext fuel
  induction fuel with
  | zero => rfl
  | succ fuel ih =>
    funext sum runner
    simp only [snakelinkedlist.LinkedList.size_loop, LinkedList.size_loop, ih]

theorem ll_size_eq : @snakelinkedlist.LinkedList.size α = @LinkedList.size α := by
  funext this
  simp only [snakelinkedlist.LinkedList.size, LinkedList.size, ll_size_loop_eq]

theorem ll_pop_back_loop_eq :
    @snakelinkedlist.LinkedList.pop_back_loop α = @LinkedList.pop_back_loop α := by
  funext fuel
  induction fuel with
  | zero => rfl
  | succ fuel ih =>
    funext runner previous
    simp only [snakelinkedlist.LinkedList.pop_back_loop, LinkedList.pop_back_loop, ih]

theorem ll_pop_back_eq : @snakelinkedlist.LinkedList.pop_back α = @LinkedList.pop_back α := by
  funext this
  simp only [snakelinkedlist.LinkedList.pop_back, LinkedList.pop_back, ll_size_eq,
    ll_clear_eq, ll_pop_back_loop_eq]

theorem ll_RemoveNth_loop_eq :
    @snakelinkedlist.LinkedList.RemoveNth_loop α = @LinkedList.RemoveNth_loop α := by
  funext k
  induction k with
  | zero => rfl
  | succ k ih =>
    funext runner
    simp only [snakelinkedlist.LinkedList.RemoveNth_loop, LinkedList.RemoveNth_loop, ih]

theorem ll_RemoveNth_eq : @snakelinkedlist.LinkedList.RemoveNth α = @LinkedList.RemoveNth α := by
  funext this n
  simp only [snakelinkedlist.LinkedList.RemoveNth, LinkedList.RemoveNth, ll_pop_front_eq,
    ll_size_eq, ll_pop_back_eq, ll_RemoveNth_loop_eq]

end Variants

/-! ## Chains -/

section Chains

variable {α : Type}

@[simp] theorem seg_nil {s : Mem α} {p e : Nat} : Seg s p e [] [] ↔ p = e := by
  simp [Seg]

theorem seg_cons {s : Mem α} {p e q : Nat} {ps : List Nat} {x : α} {xs : List α} :
    Seg s p e (q :: ps) (x :: xs) ↔
      q = p ∧ ∃ nx, s.lookup p = some ⟨x, nx⟩ ∧ Seg s nx e ps xs := by
  simp [Seg]

@[simp] theorem seg_nil_cons {s : Mem α} {p e : Nat} {x : α} {xs : List α} :
    ¬ Seg s p e [] (x :: xs) := by
  simp [Seg]

@[simp] theorem seg_cons_nil {s : Mem α} {p e q : Nat} {ps : List Nat} :
    ¬ Seg s p e (q :: ps) ([] : List α) := by
  simp [Seg]

theorem Seg.length_eq {s : Mem α} {ps : List Nat} :
    ∀ {p e : Nat} {xs : List α}, Seg s p e ps xs → ps.length = xs.length := by
  induction ps with
  | nil => intro p e xs h; cases xs with
    | nil => rfl
    | cons x xs => exact absurd h seg_nil_cons
  | cons q ps ih => intro p e xs h; cases xs with
    | nil => exact absurd h seg_cons_nil
    | cons x xs =>
      obtain ⟨_, nx, _, h2⟩ := seg_cons.mp h
      simp [ih h2]

theorem Seg.live {s : Mem α} {ps : List Nat} :
    ∀ {p e : Nat} {xs : List α}, Seg s p e ps xs → ∀ q ∈ ps, ∃ n, s.lookup q = some n := by
  induction ps with
  | nil => intro p e xs _ q hq; simp at hq
  | cons r ps ih => intro p e xs h q hq; cases xs with
    | nil => exact absurd h seg_cons_nil
    | cons x xs =>
      obtain ⟨rfl, nx, h1, h2⟩ := seg_cons.mp h
      rcases List.mem_cons.mp hq with rfl | hq
      · exact ⟨_, h1⟩
      · exact ih h2 q hq

theorem Seg.congr {s t : Mem α} {ps : List Nat} :
    ∀ {p e : Nat} {xs : List α}, (∀ q ∈ ps, t.lookup q = s.lookup q) →
      Seg s p e ps xs → Seg t p e ps xs := by
  induction ps with
  | nil => intro p e xs _ h; cases xs with
    | nil => simpa using h
    | cons x xs => exact absurd h seg_nil_cons
  | cons r ps ih => intro p e xs hq h; cases xs with
    | nil => exact absurd h seg_cons_nil
    | cons x xs =>
      obtain ⟨rfl, nx, h1, h2⟩ := seg_cons.mp h
      refine seg_cons.mpr ⟨rfl, nx, ?_, ih (fun q hq1 => hq q (List.mem_cons_of_mem _ hq1)) h2⟩
      rw [hq r (List.mem_cons_self _ _)]
      exact h1

theorem Seg.append {s : Mem α} {ps1 : List Nat} :
    ∀ {p m e : Nat} {xs1 : List α} {ps2 : List Nat} {xs2 : List α},
      Seg s p m ps1 xs1 → Seg s m e ps2 xs2 → Seg s p e (ps1 ++ ps2) (xs1 ++ xs2) := by
  induction ps1 with
  | nil => intro p m e xs1 ps2 xs2 h1 h2; cases xs1 with
    | nil =>
      have : p = m := by simpa using h1
      subst this
      simpa using h2
    | cons x xs => exact absurd h1 seg_nil_cons
  | cons r ps ih => intro p m e xs1 ps2 xs2 h1 h2; cases xs1 with
    | nil => exact absurd h1 seg_cons_nil
    | cons x xs =>
      obtain ⟨rfl, nx, h3, h4⟩ := seg_cons.mp h1
      exact seg_cons.mpr ⟨rfl, nx, h3, ih h4 h2⟩

theorem Seg.snoc {s : Mem α} {p l e : Nat} {ps : List Nat} {xs : List α} {x : α}
    (h : Seg s p l ps xs) (hl : s.lookup l = some ⟨x, e⟩) :
    Seg s p e (ps ++ [l]) (xs ++ [x]) :=
  h.append (seg_cons.mpr ⟨rfl, e, hl, seg_nil.mpr rfl⟩)

theorem Seg.split {s : Mem α} {ps1 : List Nat} :
    ∀ {p e : Nat} {ps2 : List Nat} {xs : List α}, Seg s p e (ps1 ++ ps2) xs →
      ∃ m, Seg s p m ps1 (xs.take ps1.length) ∧ Seg s m e ps2 (xs.drop ps1.length) := by
  induction ps1 with
  | nil => intro p e ps2 xs h; exact ⟨p, by simp, by simpa using h⟩
  | cons r ps ih => intro p e ps2 xs h; cases xs with
    | nil => exact absurd h seg_cons_nil
    | cons x xs =>
      obtain ⟨rfl, nx, h1, h2⟩ := seg_cons.mp h
      obtain ⟨m, h3, h4⟩ := ih h2
      exact ⟨m, seg_cons.mpr ⟨rfl, nx, h1, h3⟩, by simpa using h4⟩

theorem Chain.null {s : Mem α} {ps : List Nat} {xs : List α} (h : Chain s 0 ps xs) :
    ps = [] ∧ xs = [] := by
  cases ps with
  | nil => cases xs with
    | nil => exact ⟨rfl, rfl⟩
    | cons x xs => exact absurd h seg_nil_cons
  | cons q ps => cases xs with
    | nil => exact absurd h seg_cons_nil
    | cons x xs =>
      obtain ⟨rfl, nx, h1, _⟩ := seg_cons.mp h
      simp [Mem.lookup] at h1

theorem Chain.functional {s : Mem α} {ps : List Nat} :
    ∀ {p : Nat} {xs : List α} {qs : List Nat} {ys : List α},
      Chain s p ps xs → Chain s p qs ys → ps = qs ∧ xs = ys := by
  induction ps with
  | nil => intro p xs qs ys h1 h2; cases xs with
    | nil =>
      have : p = 0 := by simpa using h1
      subst this
      obtain ⟨rfl, rfl⟩ := Chain.null h2
      exact ⟨rfl, rfl⟩
    | cons x xs => exact absurd h1 seg_nil_cons
  | cons r ps ih => intro p xs qs ys h1 h2; cases xs with
    | nil => exact absurd h1 seg_cons_nil
    | cons x xs =>
      obtain ⟨rfl, nx, h3, h4⟩ := seg_cons.mp h1
      cases qs with
      | nil => cases ys with
        | nil =>
          have : r = 0 := by simpa using h2
          subst this
          simp [Mem.lookup] at h3
        | cons y ys => exact absurd h2 seg_nil_cons
      | cons q qs => cases ys with
        | nil => exact absurd h2 seg_cons_nil
        | cons y ys =>
          obtain ⟨rfl, ny, h5, h6⟩ := seg_cons.mp h2
          rw [h3] at h5
          have e := Option.some.inj h5
          have e1 : x = y := congrArg Node.data_ e
          have e2 : nx = ny := congrArg Node.next_ e
          subst e1 e2
          obtain ⟨rfl, rfl⟩ := ih h4 h6
          exact ⟨rfl, rfl⟩

theorem Chain.suffix {s : Mem α} {ps : List Nat} :
    ∀ {p : Nat} {xs : List α} {q : Nat}, Chain s p ps xs → q ∈ ps →
      ∃ qs ys, Chain s q qs ys ∧ qs.length ≤ ps.length := by
  induction ps with
  | nil => intro p xs q _ hq; simp at hq
  | cons r ps ih => intro p xs q h hq; cases xs with
    | nil => exact absurd h seg_cons_nil
    | cons x xs =>
      obtain ⟨rfl, nx, h1, h2⟩ := seg_cons.mp h
      rcases List.mem_cons.mp hq with rfl | hq
      · exact ⟨_, _, h, le_refl _⟩
      · obtain ⟨qs, ys, h3, h4⟩ := ih h2 hq
        exact ⟨qs, ys, h3, by simp; omega⟩

theorem Chain.nodup {s : Mem α} {ps : List Nat} :
    ∀ {p : Nat} {xs : List α}, Chain s p ps xs → ps.Nodup := by
  induction ps with
  | nil => intro p xs _; exact List.nodup_nil
  | cons r ps ih => intro p xs h; cases xs with
    | nil => exact absurd h seg_cons_nil
    | cons x xs =>
      obtain ⟨rfl, nx, h1, h2⟩ := seg_cons.mp h
      refine List.nodup_cons.mpr ⟨?_, ih h2⟩
      intro hmem
      obtain ⟨qs, ys, h3, h4⟩ := Chain.suffix h2 hmem
      obtain ⟨e, _⟩ := Chain.functional h h3
      rw [← e] at h4
      simp at h4

theorem Chain.length_le {s : Mem α} {p : Nat} {ps : List Nat} {xs : List α}
    (h : Chain s p ps xs) : ps.length ≤ s.cells.length := by
  have hnd := Chain.nodup h
  have hsub : ps.toFinset ⊆ Finset.Icc 1 s.cells.length := by
    intro q hq
    obtain ⟨n, hn⟩ := Seg.live h q (List.mem_toFinset.mp hq)
    obtain ⟨h0, h1⟩ := lookup_some_pos hn
    exact Finset.mem_Icc.mpr ⟨by omega, h1⟩
  have := Finset.card_le_card hsub
  rw [List.toFinset_card_of_nodup hnd] at this
  simpa using this

theorem Chain.head_ne_zero {s : Mem α} {p : Nat} {ps : List Nat} {xs : List α}
    (h : Chain s p ps xs) (hp : p ≠ 0) :
    ∃ ps1 x xs1 nx, ps = p :: ps1 ∧ xs = x :: xs1 ∧ s.lookup p = some ⟨x, nx⟩ ∧
      Chain s nx ps1 xs1 := by
  cases ps with
  | nil => cases xs with
    | nil => exact absurd (seg_nil.mp h) hp
    | cons x xs => exact absurd h seg_nil_cons
  | cons q ps => cases xs with
    | nil => exact absurd h seg_cons_nil
    | cons x xs =>
      obtain ⟨rfl, nx, h1, h2⟩ := seg_cons.mp h
      exact ⟨ps, x, xs, nx, rfl, rfl, h1, h2⟩

theorem Seg.under_setHead {s : Mem α} {p e : Nat} {ps : List Nat} {xs : List α} (a : Nat)
    (v : Option Nat) (h : Seg s p e ps xs) : Seg (s.setHead a v) p e ps xs :=
  Seg.congr (s := s) (fun _ _ => rfl) h

theorem Frame.of_setHead {s : Mem α} {a : Nat} (v : Option Nat) (h : a < s.objs.length) :
    Frame s (s.setHead a v) a [] := by
  refine ⟨?_, fun _ _ _ hn => hn, by simp, by simp⟩
  intro b w hb hw
  rw [head_setHead h, if_neg hb]
  exact hw

theorem Frame.refl {s : Mem α} {a : Nat} {ps : List Nat} : Frame s s a ps :=
  ⟨fun _ _ _ h => h, fun _ _ _ h => h, le_refl _, le_refl _⟩

theorem Frame.holds {s t : Mem α} {a b : Nat} {ps qs : List Nat} {ys : List α}
    (hf : Frame s t a ps) (hb : Holds s b qs ys) (hab : b ≠ a) (hd : ∀ q ∈ qs, q ∉ ps) :
    Holds t b qs ys := by
  obtain ⟨p, hp, hc⟩ := hb
  refine ⟨p, hf.1 b p hab hp, Seg.congr ?_ hc⟩
  intro q hq
  obtain ⟨n, hn⟩ := Seg.live hc q hq
  rw [hn]
  exact hf.2.1 q n (hd q hq) hn

theorem Frame.trans {s u t : Mem α} {a : Nat} {ps qs rs : List Nat}
    (h1 : Frame s u a ps) (h2 : Frame u t a qs)
    (hp : ∀ q, q ∈ ps → q ∈ rs) (hq : ∀ q, q ∈ qs → q ≤ s.cells.length → q ∈ rs) :
    Frame s t a rs := by
  refine ⟨?_, ?_, h1.2.2.1.trans h2.2.2.1, h1.2.2.2.trans h2.2.2.2⟩
  · intro b v hb hv
    exact h2.1 b v hb (h1.1 b v hb hv)
  · intro q n hq1 hn
    refine h2.2.1 q n ?_ (h1.2.1 q n (fun hc => hq1 (hp q hc)) hn)
    intro hc
    exact hq1 (hq q hc (lookup_some_pos hn).2)

end Chains

/-! ## Reading a list -/

section Readers

variable {α : Type}

open LinkedList

theorem seek_last_spec {s : Mem α} {ps : List Nat} :
    ∀ {r q : Nat} {x : α} {xs : List α} {fuel : Nat} {Q : Nat → Mem α → Prop},
      Chain s r (q :: ps) (x :: xs) → ps.length < fuel →
      (∀ front fx l lx, q :: ps = front ++ [l] → x :: xs = fx ++ [lx] →
        Seg s r l front fx → s.lookup l = some ⟨lx, 0⟩ → Q l s) →
      Prog.Ok (seek_last fuel r) s Q := by
  induction ps with
  | nil =>
    intro r q x xs fuel Q h hf hQ
    obtain ⟨rfl, nx, h1, h2⟩ := seg_cons.mp h
    cases xs with
    | cons y ys => exact absurd h2 seg_nil_cons
    | nil =>
      have hnx : nx = 0 := by simpa using h2
      subst hnx
      cases fuel with
      | zero => omega
      | succ f =>
        rw [seek_last]
        refine Ok_bind (Ok_getNext h1 ?_)
        simp only [ne_eq, not_true_eq_false, if_false]
        exact Ok_pure (hQ [] [] q x rfl rfl (seg_nil.mpr rfl) h1)
  | cons p ps ih =>
    intro r q x xs fuel Q h hf hQ
    obtain ⟨rfl, nx, h1, h2⟩ := seg_cons.mp h
    cases xs with
    | nil => exact absurd h2 seg_cons_nil
    | cons y ys =>
      obtain ⟨rfl, ny, h3, h4⟩ := seg_cons.mp h2
      obtain ⟨hp0, _⟩ := lookup_some_pos h3
      cases fuel with
      | zero => omega
      | succ f =>
        rw [seek_last]
        refine Ok_bind (Ok_getNext h1 ?_)
        simp only [ne_eq, hp0, not_false_eq_true, if_true]
        refine Ok_bind (Ok_getNext h1 ?_)
        refine ih h2 (by simp at hf; omega) ?_
        intro front fx l lx e1 e2 hs hl
        refine hQ (q :: front) (x :: fx) l lx (by simp [e1]) (by simp [e2]) ?_ hl
        exact seg_cons.mpr ⟨rfl, p, h1, hs⟩

theorem size_loop_spec {s : Mem α} {ps : List Nat} :
    ∀ {r q : Nat} {x : α} {xs : List α} {fuel : Nat} {sum : Int} {Q : Int → Mem α → Prop},
      Chain s r (q :: ps) (x :: xs) → ps.length < fuel →
      Q (sum + ps.length) s → Prog.Ok (size_loop fuel sum r) s Q := by
  induction ps with
  | nil =>
    intro r q x xs fuel sum Q h hf hQ
    obtain ⟨rfl, nx, h1, h2⟩ := seg_cons.mp h
    cases xs with
    | cons y ys => exact absurd h2 seg_nil_cons
    | nil =>
      have hnx : nx = 0 := by simpa using h2
      subst hnx
      cases fuel with
      | zero => omega
      | succ f =>
        rw [size_loop]
        refine Ok_bind (Ok_getNext h1 ?_)
        simp only [ne_eq, not_true_eq_false, if_false]
        exact Ok_pure (by simpa using hQ)
  | cons p ps ih =>
    intro r q x xs fuel sum Q h hf hQ
    obtain ⟨rfl, nx, h1, h2⟩ := seg_cons.mp h
    cases xs with
    | nil => exact absurd h2 seg_cons_nil
    | cons y ys =>
      obtain ⟨rfl, ny, h3, h4⟩ := seg_cons.mp h2
      obtain ⟨hp0, _⟩ := lookup_some_pos h3
      cases fuel with
      | zero => omega
      | succ f =>
        rw [size_loop]
        refine Ok_bind (Ok_getNext h1 ?_)
        simp only [ne_eq, hp0, not_false_eq_true, if_true]
        refine Ok_bind (Ok_getNext h1 ?_)
        refine ih h2 (by simp at hf; omega) ?_
        have e : sum + 1 + (ps.length : Int) = sum + ((p :: ps).length : Int) := by
          simp; ring
        rw [e]
        exact hQ

theorem GetVector_loop_spec {s : Mem α} {ps : List Nat} :
    ∀ {r q : Nat} {x : α} {xs : List α} {fuel : Nat} {vec : List α}
      {Q : List α → Mem α → Prop},
      Chain s r (q :: ps) (x :: xs) → ps.length < fuel →
      Q (vec ++ (x :: xs).dropLast) s → Prog.Ok (GetVector_loop fuel vec r) s Q := by
  induction ps with
  | nil =>
    intro r q x xs fuel vec Q h hf hQ
    obtain ⟨rfl, nx, h1, h2⟩ := seg_cons.mp h
    cases xs with
    | cons y ys => exact absurd h2 seg_nil_cons
    | nil =>
      have hnx : nx = 0 := by simpa using h2
      subst hnx
      cases fuel with
      | zero => omega
      | succ f =>
        rw [GetVector_loop]
        refine Ok_bind (Ok_getNext h1 ?_)
        simp only [ne_eq, not_true_eq_false, if_false]
        exact Ok_pure (by simpa using hQ)
  | cons p ps ih =>
    intro r q x xs fuel vec Q h hf hQ
    obtain ⟨rfl, nx, h1, h2⟩ := seg_cons.mp h
    cases xs with
    | nil => exact absurd h2 seg_cons_nil
    | cons y ys =>
      obtain ⟨rfl, ny, h3, h4⟩ := seg_cons.mp h2
      obtain ⟨hp0, _⟩ := lookup_some_pos h3
      cases fuel with
      | zero => omega
      | succ f =>
        rw [GetVector_loop]
        refine Ok_bind (Ok_getNext h1 ?_)
        simp only [ne_eq, hp0, not_false_eq_true, if_true]
        refine Ok_bind (Ok_getData h1 ?_)
        refine Ok_bind (Ok_getNext h1 ?_)
        refine ih h2 (by simp at hf; omega) ?_
        simpa using hQ

theorem stepBound_enough {s : Mem α} {p q : Nat} {ps : List Nat} {xs : List α}
    (h : Chain s p (q :: ps) xs) : ps.length < s.cells.length + 1 := by
  have := Chain.length_le h
  simp at this
  omega

theorem empty_spec {s : Mem α} {a : Nat} {ps : List Nat} {xs : List α}
    (h : Holds s a ps xs) : empty a s = .ok (xs.isEmpty, s) := by
  obtain ⟨p, hp, hc⟩ := h
  have hh : readHead a s = .ok (p, s) := by
    simp [readHead, head_some_iff.mp hp]
  by_cases h0 : p = 0
  · subst h0
    obtain ⟨_, rfl⟩ := Chain.null hc
    show Prog.andThen _ _ s = _
    simp [Prog.andThen, hh]
    rfl
  · obtain ⟨ps1, x, xs1, nx, rfl, rfl, _, _⟩ := Chain.head_ne_zero hc h0
    show Prog.andThen _ _ s = _
    simp [Prog.andThen, hh, h0]
    rfl

theorem size_spec {s : Mem α} {a : Nat} {ps : List Nat} {xs : List α}
    (h : Holds s a ps xs) : size a s = .ok ((xs.length : Int), s) := by
  obtain ⟨p, hp, hc⟩ := h
  suffices hk : Prog.Ok (size a) s (fun r t => r = (xs.length : Int) ∧ t = s) by
    obtain ⟨r, t, e, rfl, rfl⟩ := hk
    exact e
  rw [size]
  refine Ok_bind (Ok_readHead hp ?_)
  by_cases h0 : p = 0
  · subst h0
    obtain ⟨_, rfl⟩ := Chain.null hc
    simp only [if_true]
    exact Ok_pure ⟨by simp, rfl⟩
  · obtain ⟨ps1, x, xs1, nx, rfl, rfl, _, _⟩ := Chain.head_ne_zero hc h0
    simp only [h0, if_false]
    refine Ok_bind (Ok_readHead hp ?_)
    refine Ok_bind (Ok_stepBound ?_)
    refine size_loop_spec hc (stepBound_enough hc) ⟨?_, rfl⟩
    have := Seg.length_eq hc
    simp at this
    simp [this]
    ring

theorem front_spec [Inhabited α] {s : Mem α} {a : Nat} {ps : List Nat} {xs : List α}
    (h : Holds s a ps xs) : front a s = .ok (xs.headD default, s) := by
  obtain ⟨p, hp, hc⟩ := h
  suffices hk : Prog.Ok (front a) s (fun r t => r = xs.headD default ∧ t = s) by
    obtain ⟨r, t, e, rfl, rfl⟩ := hk
    exact e
  rw [front]
  refine Ok_bind (Ok_readHead hp ?_)
  by_cases h0 : p = 0
  · subst h0
    obtain ⟨_, rfl⟩ := Chain.null hc
    simp only [if_true]
    exact Ok_pure ⟨rfl, rfl⟩
  · obtain ⟨ps1, x, xs1, nx, rfl, rfl, h1, _⟩ := Chain.head_ne_zero hc h0
    simp only [h0, if_false]
    refine Ok_bind (Ok_readHead hp ?_)
    exact Ok_getData h1 ⟨rfl, rfl⟩

theorem back_spec [Inhabited α] {s : Mem α} {a : Nat} {ps : List Nat} {xs : List α}
    (h : Holds s a ps xs) : back a s = .ok (xs.getLastD default, s) := by
  obtain ⟨p, hp, hc⟩ := h
  suffices hk : Prog.Ok (back a) s (fun r t => r = xs.getLastD default ∧ t = s) by
    obtain ⟨r, t, e, rfl, rfl⟩ := hk
    exact e
  rw [back]
  refine Ok_bind (Ok_readHead hp ?_)
  by_cases h0 : p = 0
  · subst h0
    obtain ⟨_, rfl⟩ := Chain.null hc
    simp only [if_true]
    exact Ok_pure ⟨rfl, rfl⟩
  · obtain ⟨ps1, x, xs1, nx, rfl, rfl, h1, _⟩ := Chain.head_ne_zero hc h0
    simp only [h0, if_false]
    refine Ok_bind (Ok_readHead hp ?_)
    refine Ok_bind (Ok_stepBound ?_)
    refine Ok_bind (seek_last_spec hc (stepBound_enough hc) ?_)
    intro front fx l lx _ e2 _ hl
    refine Ok_getData hl ⟨?_, rfl⟩
    rw [e2]
    simp

theorem GetVector_spec [Inhabited α] {s : Mem α} {a : Nat} {ps : List Nat} {xs : List α}
    (h : Holds s a ps xs) : GetVector a s = .ok (xs, s) := by
  have hb := back_spec h
  obtain ⟨p, hp, hc⟩ := h
  suffices hk : Prog.Ok (GetVector a) s (fun r t => r = xs ∧ t = s) by
    obtain ⟨r, t, e, rfl, rfl⟩ := hk
    exact e
  rw [GetVector]
  refine Ok_bind (Ok_readHead hp ?_)
  by_cases h0 : p = 0
  · subst h0
    obtain ⟨_, rfl⟩ := Chain.null hc
    simp only [if_true]
    exact Ok_pure ⟨rfl, rfl⟩
  · obtain ⟨ps1, x, xs1, nx, rfl, rfl, h1, _⟩ := Chain.head_ne_zero hc h0
    simp only [h0, if_false]
    refine Ok_bind (Ok_readHead hp ?_)
    refine Ok_bind (Ok_stepBound ?_)
    refine Ok_bind (GetVector_loop_spec hc (stepBound_enough hc) ?_)
    refine Ok_bind ⟨_, _, hb, ?_⟩
    refine Ok_pure ⟨?_, rfl⟩
    simp only [List.nil_append]
    rw [List.getLastD_eq_getLast?, List.getLast?_eq_getLast _ (List.cons_ne_nil x xs1)]
    exact List.dropLast_append_getLast (List.cons_ne_nil x xs1)

end Readers

/-! ## Building a list -/

section Builders

variable {α : Type}

open LinkedList

/-- The node `l` is the last of a chain from `h`; a fresh node carrying `v` is linked
behind it. -/
theorem link_fresh [Inhabited α] {s : Mem α} {h l : Nat} {front : List Nat} {fx : List α}
    {lx v : α} (hs : Seg s h l front fx) (hl : s.lookup l = some ⟨lx, 0⟩) :
    let c := s.cells.length + 1
    let t := (((s.alloc ⟨default, 0⟩).write c ⟨v, 0⟩).write l ⟨lx, c⟩)
    Seg t h c (front ++ [l]) (fx ++ [lx]) ∧ t.lookup c = some ⟨v, 0⟩ ∧
      t.lookup l = some ⟨lx, c⟩ ∧ t.objs = s.objs ∧ t.cells.length = s.cells.length + 1 ∧
      (∀ q, q ≠ l → q ≠ c → t.lookup q = s.lookup q) := by
  intro c t
  have hch : Chain s h (front ++ [l]) (fx ++ [lx]) := hs.snoc hl
  have hnd := Chain.nodup hch
  have hlc : l ≠ c := by
    have := (lookup_some_pos hl).2
    omega
  have l1 : ∀ q, (s.alloc ⟨default, 0⟩).lookup q
      = if q = c then some ⟨default, 0⟩ else s.lookup q := fun q => lookup_alloc q
  have l2 : ∀ q, ((s.alloc ⟨default, 0⟩).write c ⟨v, 0⟩).lookup q
      = if q = c then some ⟨v, 0⟩ else s.lookup q := by
    intro q
    rw [lookup_write (m := ⟨default, 0⟩) (by rw [l1]; simp), l1]
    by_cases e : q = c <;> simp [e]
  have l3 : ∀ q, t.lookup q
      = if q = l then some ⟨lx, c⟩ else if q = c then some ⟨v, 0⟩ else s.lookup q := by
    intro q
    show (Mem.write _ l _).lookup q = _
    rw [lookup_write (m := ⟨lx, 0⟩) (by rw [l2]; simp [hlc, hl]), l2]
  have hother : ∀ q, q ≠ l → q ≠ c → t.lookup q = s.lookup q := by
    intro q h1 h2
    rw [l3]
    simp [h1, h2]
  have htl : t.lookup l = some ⟨lx, c⟩ := by rw [l3]; simp
  refine ⟨?_, ?_, htl, rfl, by simp [t], hother⟩
  · refine Seg.snoc (Seg.congr ?_ hs) htl
    intro q hq
    obtain ⟨n, hn⟩ := Seg.live hs q hq
    refine hother q ?_ ?_
    · rintro rfl
      exact (List.nodup_append.mp hnd).2.2 hq (List.mem_singleton_self _)
    · have := (lookup_some_pos hn).2
      omega
  · rw [l3]
    simp [Ne.symm hlc]

theorem ctor_vector_loop_spec [Inhabited α] {rest : List α} :
    ∀ {s : Mem α} {h runner : Nat} {front : List Nat} {fx : List α} {lx : α}
      {Q : Unit → Mem α → Prop},
      Seg s h runner front fx → s.lookup runner = some ⟨lx, 0⟩ →
      (∀ t newps, Chain t h (front ++ [runner] ++ newps) (fx ++ [lx] ++ rest) →
        t.objs = s.objs → s.cells.length ≤ t.cells.length →
        (∀ q ∈ newps, s.cells.length < q) →
        (∀ q n, q ∉ front ++ [runner] → s.lookup q = some n → t.lookup q = some n) →
        Q () t) →
      Prog.Ok (ctor_vector_loop rest runner) s Q := by
  induction rest with
  | nil =>
    intro s h runner front fx lx Q hs hl hQ
    rw [ctor_vector_loop]
    refine Ok_pure (hQ s [] ?_ rfl (le_refl _) (by simp) (fun _ _ _ hn => hn))
    simpa using hs.snoc hl
  | cons v rest ih =>
    intro s h runner front fx lx Q hs hl hQ
    obtain ⟨k1, k2, k3, k4, k5, k6⟩ := link_fresh (v := v) hs hl
    have hrl := (lookup_some_pos hl).2
    rw [ctor_vector_loop]
    refine Ok_bind (Ok_newNode ?_)
    refine Ok_bind (Ok_setData (n := ⟨default, 0⟩) (by rw [lookup_alloc]; simp) ?_)
    refine Ok_bind (Ok_setNext (n := ⟨lx, 0⟩) ?_ ?_)
    · rw [lookup_write (m := ⟨default, 0⟩) (by rw [lookup_alloc]; simp), lookup_alloc]
      have : runner ≠ s.cells.length + 1 := by omega
      simp [this, hl]
    refine Ok_bind (Ok_getNext k3 ?_)
    refine ih k1 k2 ?_
    intro t newps c1 c2 c3 c4 c5
    refine hQ t ((s.cells.length + 1) :: newps) ?_ (c2.trans k4) ?_ ?_ ?_
    · simpa using c1
    · rw [k5] at c3
      omega
    · intro q hq
      rcases List.mem_cons.mp hq with rfl | hq
      · omega
      · have := c4 q hq
        rw [k5] at this
        omega
    · intro q n hq hn
      have hq1 : q ≠ runner := by
        rintro rfl
        exact hq (by simp)
      have hq2 : q ≠ s.cells.length + 1 := by
        have := (lookup_some_pos hn).2
        omega
      refine c5 q n ?_ ?_
      · simp only [List.mem_append, List.mem_singleton, not_or] at hq ⊢
        exact ⟨⟨hq.1, hq1⟩, hq2⟩
      · rw [k6 q hq1 hq2]
        exact hn

theorem ctor_vector_body_spec [Inhabited α] {s : Mem α} {this : Nat} {v : α}
    {rest : List α} (hobj : this < s.objs.length) :
    Prog.Ok (ctor_vector_body this (v :: rest)) s (fun _ t =>
      ∃ ps, Holds t this ps (v :: rest) ∧ Frame s t this [] ∧
        (∀ q ∈ ps, s.cells.length < q)) := by
  rw [ctor_vector_body]
  have l1 : ∀ q, (s.alloc ⟨(default : α), 0⟩).lookup q
      = if q = s.cells.length + 1 then some ⟨default, 0⟩ else s.lookup q :=
    fun q => lookup_alloc q
  have hd : ((s.alloc ⟨(default : α), 0⟩).setHead this (some (s.cells.length + 1))).head this
      = some (s.cells.length + 1) := by
    rw [head_setHead (by simpa using hobj)]
    simp
  refine Ok_bind (Ok_newNode ?_)
  refine Ok_bind (Ok_writeHead (by simpa using hobj) ?_)
  refine Ok_bind (Ok_readHead hd ?_)
  refine Ok_bind (Ok_setData (n := ⟨default, 0⟩) (by simp [l1]) ?_)
  refine Ok_bind (Ok_readHead (by simpa using hd) ?_)
  have l2 : ∀ q, (((s.alloc ⟨(default : α), 0⟩).setHead this (some (s.cells.length + 1))).write
      (s.cells.length + 1) ⟨v, 0⟩).lookup q
      = if q = s.cells.length + 1 then some ⟨v, 0⟩ else s.lookup q := by
    intro q
    rw [lookup_write (m := ⟨default, 0⟩) (by simp [l1])]
    by_cases e : q = s.cells.length + 1 <;> simp [e, l1]
  have hs0 : Seg (((s.alloc ⟨(default : α), 0⟩).setHead this (some (s.cells.length + 1))).write
      (s.cells.length + 1) ⟨v, 0⟩) (s.cells.length + 1) (s.cells.length + 1) [] ([] : List α) :=
    seg_nil.mpr rfl
  have hl0 := l2 (s.cells.length + 1)
  rw [if_pos rfl] at hl0
  refine ctor_vector_loop_spec hs0 hl0 ?_
  intro t newps c1 c2 c3 c4 c5
  refine ⟨_, ⟨s.cells.length + 1, ?_, c1⟩, ⟨?_, ?_, ?_, ?_⟩, ?_⟩
  · rw [head_some_iff, c2, ← head_some_iff]
    simpa using hd
  · intro b w hb hw
    rw [head_some_iff, c2, ← head_some_iff]
    show (Mem.setHead _ _ _).head b = _
    rw [head_setHead (by simpa using hobj)]
    simp [hb, hw]
  · intro q n _ hn
    refine c5 q n ?_ ?_
    · have := (lookup_some_pos hn).2
      simp
      omega
    · rw [l2]
      have := (lookup_some_pos hn).2
      have e : q ≠ s.cells.length + 1 := by omega
      simp [e, hn]
  · rw [c2]
    simp
  · simp at c3
    omega
  · intro q hq
    simp only [List.nil_append, List.singleton_append, List.mem_cons] at hq
    rcases hq with rfl | hq
    · omega
    · have := c4 q hq
      simp at this
      omega

theorem ctor_vector_spec [Inhabited α] {s : Mem α} {this : Nat} {v : α} {rest : List α}
    (decl : Option Nat) (hobj : this < s.objs.length) :
    Prog.Ok (ctor_vector decl this (v :: rest)) s (fun _ t =>
      ∃ ps, Holds t this ps (v :: rest) ∧ Frame s t this [] ∧
        (∀ q ∈ ps, s.cells.length < q)) := by
  unfold ctor_vector
  cases decl with
  | none => exact Ok_bind (Ok_pure (ctor_vector_body_spec hobj))
  | some p =>
    refine Ok_bind (Ok_writeHead hobj ?_)
    have hobj2 : this < (s.setHead this (some p)).objs.length := by simpa using hobj
    refine Ok_mono (ctor_vector_body_spec hobj2) ?_
    rintro _ t ⟨ps, k1, k2, k3⟩
    exact ⟨ps, k1, Frame.trans (Frame.of_setHead _ hobj) k2 (fun _ hq => hq)
      (fun _ hq _ => hq), by simpa using k3⟩

end Builders

/-! ## Modifying a list -/

section Modifiers

variable {α : Type}

open LinkedList

theorem Holds.lt {s : Mem α} {a : Nat} {ps : List Nat} {xs : List α} (h : Holds s a ps xs) :
    a < s.objs.length := by
  obtain ⟨p, hp, _⟩ := h
  exact head_some_lt hp

theorem push_front_spec [Inhabited α] {s : Mem α} {a : Nat} {ps : List Nat} {xs : List α}
    (v : α) (h : Holds s a ps xs) :
    Prog.Ok (push_front a v) s (fun _ t =>
      Holds t a ((s.cells.length + 1) :: ps) (v :: xs) ∧ Frame s t a ps) := by
  have hlt := h.lt
  obtain ⟨p, hp, hc⟩ := h
  have l1 : ∀ q, (s.alloc ⟨(default : α), 0⟩).lookup q
      = if q = s.cells.length + 1 then some ⟨default, 0⟩ else s.lookup q :=
    fun q => lookup_alloc q
  have hd : ((s.alloc ⟨(default : α), 0⟩).setHead a (some (s.cells.length + 1))).head a
      = some (s.cells.length + 1) := by
    rw [head_setHead (by simpa using hlt)]
    simp
  have l2 : ∀ q, (((s.alloc ⟨(default : α), 0⟩).setHead a (some (s.cells.length + 1))).write
      (s.cells.length + 1) ⟨v, 0⟩).lookup q
      = if q = s.cells.length + 1 then some ⟨v, 0⟩ else s.lookup q := by
    intro q
    rw [lookup_write (m := ⟨default, 0⟩) (by simp [l1])]
    by_cases e : q = s.cells.length + 1 <;> simp [e, l1]
  rw [push_front]
  refine Ok_bind (Ok_readHead hp ?_)
  refine Ok_bind (Ok_newNode ?_)
  refine Ok_bind (Ok_writeHead (by simpa using hlt) ?_)
  refine Ok_bind (Ok_readHead hd ?_)
  refine Ok_bind (Ok_setData (n := ⟨default, 0⟩) (by simp [l1]) ?_)
  refine Ok_bind (Ok_readHead (by simpa using hd) ?_)
  refine Ok_setNext (n := ⟨v, 0⟩) (by rw [l2]; simp) ?_
  have l3 : ∀ q, ((((s.alloc ⟨(default : α), 0⟩).setHead a (some (s.cells.length + 1))).write
      (s.cells.length + 1) ⟨v, 0⟩).write (s.cells.length + 1) ⟨v, p⟩).lookup q
      = if q = s.cells.length + 1 then some ⟨v, p⟩ else s.lookup q := by
    intro q
    rw [lookup_write (m := ⟨v, 0⟩) (by rw [l2]; simp)]
    by_cases e : q = s.cells.length + 1 <;> simp [e, l2]
  have hfresh : ∀ q n, s.lookup q = some n → q ≠ s.cells.length + 1 := by
    intro q n hn
    have := (lookup_some_pos hn).2
    omega
  refine ⟨⟨s.cells.length + 1, by simpa using hd, seg_cons.mpr ⟨rfl, p, ?_, ?_⟩⟩, ?_, ?_, ?_, ?_⟩
  · rw [l3]; simp
  · refine Seg.congr ?_ hc
    intro q hq
    obtain ⟨n, hn⟩ := Seg.live hc q hq
    rw [l3]
    simp [hfresh q n hn]
  · intro b w hb hw
    show (Mem.setHead _ _ _).head b = _
    rw [head_setHead (by simpa using hlt)]
    simp [hb, hw]
  · intro q n _ hn
    rw [l3]
    simp [hfresh q n hn, hn]
  · simp
  · simp

theorem pop_front_spec {s : Mem α} {a : Nat} {ps : List Nat} {xs : List α}
    (h : Holds s a ps xs) :
    Prog.Ok (pop_front a) s (fun _ t =>
      Holds t a ps.tail xs.tail ∧ Frame s t a ps ∧ (xs = [] → t = s)) := by
  have hlt := h.lt
  obtain ⟨p, hp, hc⟩ := h
  rw [pop_front]
  refine Ok_bind (Ok_readHead hp ?_)
  by_cases h0 : p = 0
  · subst h0
    obtain ⟨rfl, rfl⟩ := Chain.null hc
    simp only [if_true]
    exact Ok_pure ⟨⟨0, hp, hc⟩, Frame.refl, fun _ => rfl⟩
  · obtain ⟨ps1, x, xs1, nx, rfl, rfl, h1, h2⟩ := Chain.head_ne_zero hc h0
    simp only [h0, if_false]
    refine Ok_bind (Ok_readHead hp ?_)
    refine Ok_bind (Ok_readHead hp ?_)
    refine Ok_bind (Ok_getNext h1 ?_)
    refine Ok_bind (Ok_writeHead hlt ?_)
    refine Ok_deleteNode (n := ⟨x, nx⟩) (by simpa using h1) ?_
    have hnd := Chain.nodup hc
    have l1 : ∀ q, ((s.setHead a (some nx)).free p).lookup q
        = if q = p then none else s.lookup q := by
      intro q
      rw [lookup_free h0]
      simp
    refine ⟨⟨nx, ?_, ?_⟩, ⟨?_, ?_, ?_, ?_⟩, by simp⟩
    · rw [head_free, head_setHead hlt]
      simp
    · refine Seg.congr ?_ h2
      intro q hq
      rw [l1]
      have : q ≠ p := by
        rintro rfl
        exact (List.nodup_cons.mp hnd).1 hq
      simp [this]
    · intro b w hb hw
      rw [head_free, head_setHead hlt]
      simp [hb, hw]
    · intro q n hq hn
      rw [l1]
      have : q ≠ p := by
        rintro rfl
        exact hq (List.mem_cons_self _ _)
      simp [this, hn]
    · simp
    · simp

theorem clear_loop_spec {a : Nat} {ps : List Nat} :
    ∀ {s : Mem α} {p : Nat} {xs : List α} {fuel : Nat},
      s.head a = some p → Chain s p ps xs → ps.length < fuel →
      Prog.Ok (clear_loop a fuel p) s (fun _ t =>
        t.head a = some 0 ∧ (∀ b, b ≠ a → t.head b = s.head b) ∧
          (∀ q, t.lookup q = if q ∈ ps then none else s.lookup q) ∧
          t.cells.length = s.cells.length ∧ t.objs.length = s.objs.length) := by
  induction ps with
  | nil =>
    intro s p xs fuel hp hc hf
    cases xs with
    | cons y ys => exact absurd hc seg_nil_cons
    | nil =>
      have : p = 0 := by simpa using hc
      subst this
      cases fuel with
      | zero => omega
      | succ f =>
        rw [clear_loop]
        refine Ok_bind (Ok_readHead hp ?_)
        simp only [ne_eq, not_true_eq_false, if_false]
        exact Ok_pure ⟨hp, fun _ _ => rfl, by simp, rfl, rfl⟩
  | cons r ps ih =>
    intro s p xs fuel hp hc hf
    have hlt := head_some_lt hp
    cases xs with
    | nil => exact absurd hc seg_cons_nil
    | cons x xs =>
      have hnd := Chain.nodup hc
      obtain ⟨rfl, nx, h1, h2⟩ := seg_cons.mp hc
      obtain ⟨h0, _⟩ := lookup_some_pos h1
      cases fuel with
      | zero => omega
      | succ f =>
        rw [clear_loop]
        refine Ok_bind (Ok_readHead hp ?_)
        simp only [ne_eq, h0, not_false_eq_true, if_true]
        refine Ok_bind (Ok_getNext h1 ?_)
        refine Ok_bind (Ok_writeHead hlt ?_)
        refine Ok_bind (Ok_deleteNode (n := ⟨x, nx⟩) (by simpa using h1) ?_)
        have l1 : ∀ q, ((s.setHead a (some nx)).free r).lookup q
            = if q = r then none else s.lookup q := by
          intro q
          rw [lookup_free h0]
          simp
        have hd : ((s.setHead a (some nx)).free r).head a = some nx := by
          rw [head_free, head_setHead hlt]
          simp
        refine Ok_bind (Ok_readHead hd ?_)
        have hc2 : Chain ((s.setHead a (some nx)).free r) nx ps xs := by
          refine Seg.congr ?_ h2
          intro q hq
          rw [l1]
          have : q ≠ r := by
            rintro rfl
            exact (List.nodup_cons.mp hnd).1 hq
          simp [this]
        refine Ok_mono (ih hd hc2 (by simp at hf; omega)) ?_
        rintro _ t ⟨k1, k2, k3, k4, k5⟩
        refine ⟨k1, ?_, ?_, by simpa using k4, by simpa using k5⟩
        · intro b hb
          rw [k2 b hb, head_free, head_setHead hlt]
          simp [hb]
        · intro q
          rw [k3, l1]
          by_cases e1 : q = r
          · simp [e1]
          · by_cases e2 : q ∈ ps <;> simp [e1, e2]

theorem clear_spec {s : Mem α} {a : Nat} {ps : List Nat} {xs : List α}
    (h : Holds s a ps xs) :
    Prog.Ok (clear a) s (fun _ t =>
      t.head a = some 0 ∧ (∀ b, b ≠ a → t.head b = s.head b) ∧
        (∀ q, t.lookup q = if q ∈ ps then none else s.lookup q) ∧
        t.cells.length = s.cells.length ∧ t.objs.length = s.objs.length ∧
        (xs = [] → t = s)) := by
  obtain ⟨p, hp, hc⟩ := h
  rw [clear]
  refine Ok_bind (Ok_readHead hp ?_)
  by_cases h0 : p = 0
  · subst h0
    obtain ⟨rfl, rfl⟩ := Chain.null hc
    simp only [if_true]
    exact Ok_pure ⟨hp, fun _ _ => rfl, by simp, rfl, rfl, fun _ => rfl⟩
  · obtain ⟨ps1, x, xs1, nx, rfl, rfl, h1, h2⟩ := Chain.head_ne_zero hc h0
    simp only [h0, if_false]
    refine Ok_bind (Ok_readHead hp ?_)
    refine Ok_bind (Ok_stepBound ?_)
    refine Ok_mono (clear_loop_spec hp hc ?_) ?_
    · have := Chain.length_le hc
      omega
    · rintro _ t ⟨k1, k2, k3, k4, k5⟩
      exact ⟨k1, k2, k3, k4, k5, by simp⟩

theorem clear_holds {s : Mem α} {a : Nat} {ps : List Nat} {xs : List α}
    (h : Holds s a ps xs) :
    Prog.Ok (clear a) s (fun _ t =>
      Holds t a [] ([] : List α) ∧ Frame s t a ps ∧ (xs = [] → t = s)) := by
  refine Ok_mono (clear_spec h) ?_
  rintro _ t ⟨k1, k2, k3, k4, k5, k6⟩
  refine ⟨⟨0, k1, seg_nil.mpr rfl⟩, ⟨?_, ?_, by omega, by omega⟩, k6⟩
  · intro b v hb hv
    rw [k2 b hb]
    exact hv
  · intro q n hq hn
    rw [k3]
    simp [hq, hn]

theorem Seg.link {s t : Mem α} {h l c : Nat} {front : List Nat} {fx : List α} {lx v : α}
    (hs : Seg s h l front fx) (hl : s.lookup l = some ⟨lx, 0⟩) (hc : c = s.cells.length + 1)
    (ht : ∀ q, t.lookup q
      = if q = c then some ⟨v, 0⟩ else if q = l then some ⟨lx, c⟩ else s.lookup q) :
    Chain t h (front ++ [l] ++ [c]) (fx ++ [lx] ++ [v]) := by
  have hnd := Chain.nodup (hs.snoc hl)
  have hlc : l ≠ c := by
    have := (lookup_some_pos hl).2
    omega
  refine Seg.snoc (Seg.snoc (Seg.congr ?_ hs) ?_) ?_
  · intro q hq
    obtain ⟨n, hn⟩ := Seg.live hs q hq
    have e1 : q ≠ c := by
      have := (lookup_some_pos hn).2
      omega
    have e2 : q ≠ l := by
      rintro rfl
      exact (List.nodup_append.mp hnd).2.2 hq (List.mem_singleton_self _)
    rw [ht]
    simp [e1, e2]
  · rw [ht]
    simp [hlc]
  · rw [ht]
    simp

theorem push_back_spec [Inhabited α] {s : Mem α} {a : Nat} {ps : List Nat} {xs : List α}
    (v : α) (h : Holds s a ps xs) :
    Prog.Ok (push_back a v) s (fun _ t =>
      Holds t a (ps ++ [s.cells.length + 1]) (xs ++ [v]) ∧ Frame s t a ps) := by
  have hlt := h.lt
  obtain ⟨p, hp, hc⟩ := h
  have l1 : ∀ q, (s.alloc ⟨(default : α), 0⟩).lookup q
      = if q = s.cells.length + 1 then some ⟨default, 0⟩ else s.lookup q :=
    fun q => lookup_alloc q
  have hfresh : ∀ q n, s.lookup q = some n → q ≠ s.cells.length + 1 := by
    intro q n hn
    have := (lookup_some_pos hn).2
    omega
  rw [push_back]
  refine Ok_bind (Ok_readHead hp ?_)
  by_cases h0 : p = 0
  · subst h0
    obtain ⟨rfl, rfl⟩ := Chain.null hc
    simp only [if_true]
    have hd : ((s.alloc ⟨(default : α), 0⟩).setHead a (some (s.cells.length + 1))).head a
        = some (s.cells.length + 1) := by
      rw [head_setHead (by simpa using hlt)]
      simp
    have l2 : ∀ q, (((s.alloc ⟨(default : α), 0⟩).setHead a
        (some (s.cells.length + 1))).write (s.cells.length + 1) ⟨v, 0⟩).lookup q
        = if q = s.cells.length + 1 then some ⟨v, 0⟩ else s.lookup q := by
      intro q
      rw [lookup_write (m := ⟨default, 0⟩) (by simp [l1])]
      by_cases e : q = s.cells.length + 1 <;> simp [e, l1]
    refine Ok_bind (Ok_newNode ?_)
    refine Ok_bind (Ok_writeHead (by simpa using hlt) ?_)
    refine Ok_bind (Ok_readHead hd ?_)
    refine Ok_setData (n := ⟨default, 0⟩) (by simp [l1]) ?_
    refine ⟨⟨_, by simpa using hd, ?_⟩, ?_, ?_, by simp, by simp⟩
    · refine seg_cons.mpr ⟨rfl, 0, ?_, seg_nil.mpr rfl⟩
      rw [l2]
      simp
    · intro b w hb hw
      show (Mem.setHead _ _ _).head b = _
      rw [head_setHead (by simpa using hlt)]
      simp [hb, hw]
    · intro q n _ hn
      rw [l2]
      simp [hfresh q n hn, hn]
  · obtain ⟨ps1, x, xs1, nx, rfl, rfl, h1, h2⟩ := Chain.head_ne_zero hc h0
    simp only [h0, if_false]
    refine Ok_bind (Ok_readHead hp ?_)
    refine Ok_bind (Ok_stepBound ?_)
    refine Ok_bind (seek_last_spec hc (stepBound_enough hc) ?_)
    intro front fx l lx e1 e2 hs hl
    have hlc := hfresh l _ hl
    have l2 : ∀ q, ((s.alloc ⟨(default : α), 0⟩).write l ⟨lx, s.cells.length + 1⟩).lookup q
        = if q = l then some ⟨lx, s.cells.length + 1⟩
          else if q = s.cells.length + 1 then some ⟨default, 0⟩ else s.lookup q := by
      intro q
      rw [lookup_write (m := ⟨lx, 0⟩) (by rw [l1]; simp [hlc, hl]), l1]
    have l3 : ∀ q, (((s.alloc ⟨(default : α), 0⟩).write l ⟨lx, s.cells.length + 1⟩).write
        (s.cells.length + 1) ⟨v, 0⟩).lookup q
        = if q = s.cells.length + 1 then some ⟨v, 0⟩
          else if q = l then some ⟨lx, s.cells.length + 1⟩ else s.lookup q := by
      intro q
      rw [lookup_write (m := ⟨default, 0⟩) (by rw [l2]; simp [Ne.symm hlc]), l2]
      by_cases e3 : q = s.cells.length + 1
      · simp [e3]
      · by_cases e4 : q = l <;> simp [e3, e4]
    refine Ok_bind (Ok_newNode ?_)
    refine Ok_bind (Ok_setNext (n := ⟨lx, 0⟩) (by rw [l1]; simp [hlc, hl]) ?_)
    refine Ok_bind (Ok_getNext (n := ⟨lx, s.cells.length + 1⟩) (by rw [l2]; simp) ?_)
    refine Ok_setData (n := ⟨default, 0⟩) (by rw [l2]; simp [Ne.symm hlc]) ?_
    refine ⟨⟨p, by simpa using hp, ?_⟩, ?_, ?_, by simp, by simp⟩
    · have := Seg.link (v := v) hs hl rfl l3
      rw [e1, e2]
      exact this
    · intro b w _ hw
      simpa using hw
    · intro q n hq hn
      rw [l3]
      have e4 : q ≠ l := by
        rintro rfl
        exact hq (by rw [e1]; simp)
      simp [hfresh q n hn, e4, hn]

theorem pop_back_loop_spec {s : Mem α} {ps : List Nat} :
    ∀ {h pv r q : Nat} {x : α} {xs : List α} {f2 : List Nat} {fx2 : List α} {px : α}
      {fuel : Nat} {Q : Nat × Nat → Mem α → Prop},
      Seg s h pv f2 fx2 → s.lookup pv = some ⟨px, r⟩ → Chain s r (q :: ps) (x :: xs) →
      ps.length < fuel →
      (∀ g gx w wx l lx, f2 ++ [pv] ++ (q :: ps) = g ++ [w, l] →
        fx2 ++ [px] ++ (x :: xs) = gx ++ [wx, lx] → Seg s h w g gx →
        s.lookup w = some ⟨wx, l⟩ → s.lookup l = some ⟨lx, 0⟩ → Q (l, w) s) →
      Prog.Ok (pop_back_loop fuel r pv) s Q := by
  induction ps with
  | nil =>
    intro h pv r q x xs f2 fx2 px fuel Q hs hpv hc hf hQ
    obtain ⟨rfl, nx, h1, h2⟩ := seg_cons.mp hc
    cases xs with
    | cons y ys => exact absurd h2 seg_nil_cons
    | nil =>
      have hnx : nx = 0 := by simpa using h2
      subst hnx
      cases fuel with
      | zero => omega
      | succ f =>
        rw [pop_back_loop]
        refine Ok_bind (Ok_getNext h1 ?_)
        simp only [ne_eq, not_true_eq_false, if_false]
        exact Ok_pure (hQ f2 fx2 pv px q x (by simp) (by simp) hs hpv h1)
  | cons p ps ih =>
    intro h pv r q x xs f2 fx2 px fuel Q hs hpv hc hf hQ
    obtain ⟨rfl, nx, h1, h2⟩ := seg_cons.mp hc
    cases xs with
    | nil => exact absurd h2 seg_cons_nil
    | cons y ys =>
      obtain ⟨rfl, ny, h3, h4⟩ := seg_cons.mp h2
      obtain ⟨hp0, _⟩ := lookup_some_pos h3
      cases fuel with
      | zero => omega
      | succ f =>
        rw [pop_back_loop]
        refine Ok_bind (Ok_getNext h1 ?_)
        simp only [ne_eq, hp0, not_false_eq_true, if_true]
        refine Ok_bind (Ok_getNext h1 ?_)
        refine ih (hs.snoc hpv) h1 h2 (by simp at hf; omega) ?_
        intro g gx w wx l lx e1 e2 k1 k2 k3
        exact hQ g gx w wx l lx (by simpa using e1) (by simpa using e2) k1 k2 k3

theorem pop_back_spec {s : Mem α} {a : Nat} {ps : List Nat} {xs : List α}
    (h : Holds s a ps xs) :
    Prog.Ok (pop_back a) s (fun _ t =>
      Holds t a ps.dropLast xs.dropLast ∧ Frame s t a ps ∧ (xs = [] → t = s)) := by
  have hsz := size_spec h
  have hcl := clear_holds h
  have hlt := h.lt
  obtain ⟨p, hp, hc⟩ := h
  rw [pop_back]
  refine Ok_bind (Ok_readHead hp ?_)
  by_cases h0 : p = 0
  · subst h0
    obtain ⟨rfl, rfl⟩ := Chain.null hc
    simp only [if_true]
    exact Ok_pure ⟨⟨0, hp, hc⟩, Frame.refl, fun _ => rfl⟩
  · obtain ⟨ps1, x, xs1, nx, rfl, rfl, h1, h2⟩ := Chain.head_ne_zero hc h0
    simp only [h0, if_false]
    refine Ok_bind ⟨_, _, hsz, ?_⟩
    cases xs1 with
    | nil =>
      have : ps1 = [] := by
        have := Seg.length_eq h2
        simpa using this
      subst this
      simp only [List.length_singleton, Nat.cast_one, if_true]
      refine Ok_mono hcl ?_
      rintro _ t ⟨k1, k2, _⟩
      exact ⟨by simpa using k1, k2, by simp⟩
    | cons y ys =>
      have hne : ¬ (((x :: y :: ys).length : Int) = 1) := by
        simp
        omega
      simp only [hne, if_false]
      cases ps1 with
      | nil => exact absurd h2 seg_nil_cons
      | cons p2 ps2 =>
        obtain ⟨rfl, ny, h3, h4⟩ := seg_cons.mp h2
        obtain ⟨hp0, _⟩ := lookup_some_pos h3
        refine Ok_bind (Ok_readHead hp ?_)
        refine Ok_bind (Ok_stepBound ?_)
        have hfl := stepBound_enough hc
        rw [pop_back_loop]
        refine Ok_bind (Ok_bind (Ok_getNext h1 ?_))
        simp only [ne_eq, hp0, not_false_eq_true, if_true]
        refine Ok_bind (Ok_getNext h1 ?_)
        have hs0 : Seg s p p [] ([] : List α) := seg_nil.mpr rfl
        refine pop_back_loop_spec hs0 h1 h2 (by simp at hfl; omega) ?_
        intro g gx w wx l lx e1 e2 k1 k2 k3
        simp only [List.nil_append, List.singleton_append] at e1 e2
        have hnd := Chain.nodup hc
        rw [e1] at hnd
        have hwl : w ≠ l := by
          rintro rfl
          have := (List.nodup_append.mp hnd).2.1
          simp at this
        have hl0 := (lookup_some_pos k3).1
        have l1 : ∀ q, (s.free l).lookup q = if q = l then none else s.lookup q :=
          fun q => lookup_free hl0 q
        have l2 : ∀ q, ((s.free l).write w ⟨wx, 0⟩).lookup q
            = if q = w then some ⟨wx, 0⟩ else if q = l then none else s.lookup q := by
          intro q
          rw [lookup_write (m := ⟨wx, l⟩) (by rw [l1]; simp [hwl, k2]), l1]
        show Prog.Ok (deleteNode l >>= fun _ => setNext w 0) s _
        refine Ok_bind (Ok_deleteNode k3 ?_)
        refine Ok_setNext (n := ⟨wx, l⟩) (by rw [l1]; simp [hwl, k2]) ?_
        have ed1 : (p :: p2 :: ps2).dropLast = g ++ [w] := by
          rw [e1]
          have : g ++ [w, l] = (g ++ [w]) ++ [l] := by simp
          rw [this, List.dropLast_concat]
        have ed2 : (x :: y :: ys).dropLast = gx ++ [wx] := by
          rw [e2]
          have : gx ++ [wx, lx] = (gx ++ [wx]) ++ [lx] := by simp
          rw [this, List.dropLast_concat]
        refine ⟨⟨p, by simpa using hp, ?_⟩, ⟨?_, ?_, by simp, by simp⟩, by simp⟩
        · rw [ed1, ed2]
          refine Seg.snoc (Seg.congr ?_ k1) (by rw [l2]; simp)
          intro q hq
          have e3 : q ≠ w := by
            rintro rfl
            have := (List.nodup_append.mp hnd).2.2 hq
            simp at this
          have e4 : q ≠ l := by
            rintro rfl
            have := (List.nodup_append.mp hnd).2.2 hq
            simp at this
          rw [l2]
          simp [e3, e4]
        · intro b v _ hv
          simpa using hv
        · intro q n hq hn
          rw [e1] at hq
          have e3 : q ≠ w := by
            rintro rfl
            exact hq (by simp)
          have e4 : q ≠ l := by
            rintro rfl
            exact hq (by simp)
          rw [l2]
          simp [e3, e4, hn]

theorem RemoveNth_loop_spec {s : Mem α} {f : List Nat} :
    ∀ {p r : Nat} {fx : List α} {Q : Nat → Mem α → Prop},
      Seg s p r f fx → Q r s → Prog.Ok (RemoveNth_loop f.length p) s Q := by
  induction f with
  | nil =>
    intro p r fx Q hs hQ
    cases fx with
    | cons y ys => exact absurd hs seg_nil_cons
    | nil =>
      have : p = r := by simpa using hs
      subst this
      exact Ok_pure hQ
  | cons q f ih =>
    intro p r fx Q hs hQ
    cases fx with
    | nil => exact absurd hs seg_cons_nil
    | cons y ys =>
      obtain ⟨rfl, nx, h1, h2⟩ := seg_cons.mp hs
      rw [List.length_cons, RemoveNth_loop]
      refine Ok_bind (Ok_getNext h1 ?_)
      exact ih h2 hQ

theorem Seg.split_at {s : Mem α} {p e : Nat} {ps : List Nat} {xs : List α} (k : Nat)
    (h : Seg s p e ps xs) (hk : k ≤ ps.length) :
    ∃ m, Seg s p m (ps.take k) (xs.take k) ∧ Seg s m e (ps.drop k) (xs.drop k) := by
  have h1 : Seg s p e (ps.take k ++ ps.drop k) xs := by
    rw [List.take_append_drop]
    exact h
  obtain ⟨m, h2, h3⟩ := Seg.split h1
  have e1 : (ps.take k).length = k := by
    rw [List.length_take]
    omega
  rw [e1] at h2 h3
  exact ⟨m, h2, h3⟩

/-- The splice at the end of `RemoveNth`, for the node at an index that is neither the
first nor the last. -/
theorem RemoveNth_splice {s : Mem α} {a : Nat} {ps : List Nat} {xs : List α} {k : Nat}
    (h : Holds s a ps xs) (hk : k + 1 < ps.length) :
    Prog.Ok (do
        let runner ← readHead a
        let runner ← RemoveNth_loop k runner
        let node_to_remove ← getNext runner
        let next_node ← getNext node_to_remove
        deleteNode node_to_remove
        setNext runner next_node) s (fun _ t =>
      Holds t a (ps.eraseIdx (k + 1)) (xs.eraseIdx (k + 1)) ∧ Frame s t a ps) := by
  obtain ⟨p, hp, hc⟩ := h
  have hnd := Chain.nodup hc
  have hlen := Seg.length_eq hc
  obtain ⟨r, hA, hB⟩ := Seg.split_at k hc (by omega)
  have ep : ps = ps.take k ++ ps.drop k := (List.take_append_drop k ps).symm
  have ex : xs = xs.take k ++ xs.drop k := (List.take_append_drop k xs).symm
  have hfl : (ps.take k).length = k := by
    rw [List.length_take]
    omega
  have hdl : (ps.drop k).length = ps.length - k := List.length_drop k ps
  generalize ps.take k = f at hA ep hfl
  generalize xs.take k = fx at hA ex
  generalize ps.drop k = tl at hB ep hdl
  generalize xs.drop k = tlx at hB ex
  cases tl with
  | nil => simp at hdl; omega
  | cons r1 tl =>
    cases tlx with
    | nil => exact absurd hB seg_cons_nil
    | cons rx tlx =>
      obtain ⟨rfl, d, hr, hB2⟩ := seg_cons.mp hB
      cases tl with
      | nil => simp at hdl; omega
      | cons d1 rest =>
        cases tlx with
        | nil => exact absurd hB2 seg_cons_nil
        | cons dx restx =>
          obtain ⟨rfl, nn, hd, hB3⟩ := seg_cons.mp hB2
          subst ep ex
          have hrd : r1 ≠ d1 := by
            rintro rfl
            have := (List.nodup_append.mp hnd).2.1
            simp at this
          have hd0 := (lookup_some_pos hd).1
          have l1 : ∀ q, (s.free d1).lookup q = if q = d1 then none else s.lookup q :=
            fun q => lookup_free hd0 q
          have l2 : ∀ q, ((s.free d1).write r1 ⟨rx, nn⟩).lookup q
              = if q = r1 then some ⟨rx, nn⟩ else if q = d1 then none else s.lookup q := by
            intro q
            rw [lookup_write (m := ⟨rx, d1⟩) (by rw [l1]; simp [hrd, hr]), l1]
          refine Ok_bind (Ok_readHead hp ?_)
          rw [← hfl]
          refine Ok_bind (RemoveNth_loop_spec hA ?_)
          refine Ok_bind (Ok_getNext hr ?_)
          refine Ok_bind (Ok_getNext hd ?_)
          refine Ok_bind (Ok_deleteNode hd ?_)
          refine Ok_setNext (n := ⟨rx, d1⟩) (by rw [l1]; simp [hrd, hr]) ?_
          have hfxl : fx.length = f.length := (Seg.length_eq hA).symm
          have e1 : (f ++ r1 :: d1 :: rest).eraseIdx (f.length + 1) = f ++ r1 :: rest := by
            rw [List.eraseIdx_append_of_length_le (by omega)]
            simp
          have e2 : (fx ++ rx :: dx :: restx).eraseIdx (f.length + 1)
              = fx ++ rx :: restx := by
            rw [List.eraseIdx_append_of_length_le (by omega)]
            simp [hfxl]
          rw [e1, e2]
          have hout : ∀ q, q ≠ r1 → q ≠ d1 →
              ((s.free d1).write r1 ⟨rx, nn⟩).lookup q = s.lookup q := by
            intro q h1 h2
            rw [l2]
            simp [h1, h2]
          refine ⟨⟨p, by simpa using hp, ?_⟩, ?_, ?_, by simp, by simp⟩
          · refine Seg.append (Seg.congr ?_ hA) (seg_cons.mpr ⟨rfl, nn, ?_, Seg.congr ?_ hB3⟩)
            · intro q hq
              refine hout q ?_ ?_
              · rintro rfl
                have := (List.nodup_append.mp hnd).2.2 hq
                simp at this
              · rintro rfl
                have := (List.nodup_append.mp hnd).2.2 hq
                simp at this
            · rw [l2]
              simp
            · intro q hq
              have hnd2 := (List.nodup_append.mp hnd).2.1
              refine hout q ?_ ?_
              · rintro rfl
                simp [hq] at hnd2
              · rintro rfl
                simp [hq] at hnd2
          · intro b v _ hv
            simpa using hv
          · intro q n hq hn
            rw [hout q ?_ ?_]
            · exact hn
            · rintro rfl
              exact hq (by simp)
            · rintro rfl
              exact hq (by simp)

theorem RemoveNth_spec {s : Mem α} {a : Nat} {ps : List Nat} {xs : List α} {i : Nat}
    (h : Holds s a ps xs) (hi : i < xs.length) :
    Prog.Ok (RemoveNth a (i : Int)) s (fun _ t =>
      Holds t a (ps.eraseIdx i) (xs.eraseIdx i) ∧ Frame s t a ps) := by
  have hsz := size_spec h
  have hlen : ps.length = xs.length := by
    obtain ⟨p, _, hc⟩ := h
    exact Seg.length_eq hc
  rw [RemoveNth]
  cases i with
  | zero =>
    simp only [Nat.cast_zero, if_true, List.eraseIdx_zero]
    refine Ok_mono (pop_front_spec h) ?_
    rintro _ t ⟨k1, k2, _⟩
    exact ⟨k1, k2⟩
  | succ k =>
    have hne : ¬ (((k + 1 : Nat) : Int) = 0) := by omega
    simp only [hne, if_false]
    refine Ok_bind ⟨_, _, hsz, ?_⟩
    by_cases hlast : k + 2 = xs.length
    · have e : (((k + 1 : Nat) : Int) = (xs.length : Int) - 1) := by omega
      simp only [e, if_true]
      refine Ok_mono (pop_back_spec h) ?_
      rintro _ t ⟨k1, k2, _⟩
      rw [List.dropLast_eq_eraseIdx (i := k + 1) (by omega),
        List.dropLast_eq_eraseIdx (i := k + 1) (by omega)] at k1
      exact ⟨k1, k2⟩
    · have e : ¬ (((k + 1 : Nat) : Int) = (xs.length : Int) - 1) := by omega
      simp only [e, if_false]
      refine Ok_bind ⟨_, _, hsz, ?_⟩
      have e2 : ¬ (((k + 1 : Nat) : Int) > (xs.length : Int) - 1) := by omega
      simp only [e2, if_false]
      have e3 : (int_pred ((k + 1 : Nat) : Int)).toNat = k := by
        unfold int_pred
        split <;> omega
      rw [e3]
      exact RemoveNth_splice h (by omega)

theorem RemoveNth_beyond {s : Mem α} {a : Nat} {ps : List Nat} {xs : List α} {n : Int}
    (h : Holds s a ps xs) (hn : (xs.length : Int) ≤ n) :
    RemoveNth a n s = .ok ((), s) := by
  have hsz := size_spec h
  suffices hk : Prog.Ok (RemoveNth a n) s (fun _ t => t = s) by
    obtain ⟨r, t, e, rfl⟩ := hk
    exact e
  rw [RemoveNth]
  by_cases h0 : n = 0
  · simp only [h0, if_true]
    have : xs = [] := by
      have : xs.length = 0 := by omega
      exact List.length_eq_zero.mp this
    refine Ok_mono (pop_front_spec h) ?_
    rintro _ t ⟨_, _, k3⟩
    exact k3 this
  · simp only [h0, if_false]
    refine Ok_bind ⟨_, _, hsz, ?_⟩
    have e : ¬ (n = (xs.length : Int) - 1) := by omega
    simp only [e, if_false]
    refine Ok_bind ⟨_, _, hsz, ?_⟩
    have e2 : n > (xs.length : Int) - 1 := by omega
    simp only [e2, if_true]
    exact Ok_pure rfl

end Modifiers

/-! ## Copying and moving -/

section Copies

variable {α : Type}

open LinkedList

theorem ctor_copy_loop_spec [Inhabited α] {qs : List Nat} :
    ∀ {s : Mem α} {h lr sr q : Nat} {front : List Nat} {fx : List α} {lx y : α}
      {ys : List α} {fuel : Nat} {Q : Unit → Mem α → Prop},
      Seg s h lr front fx → s.lookup lr = some ⟨lx, 0⟩ →
      Chain s sr (q :: qs) (y :: ys) → lr ∉ q :: qs → qs.length < fuel →
      (∀ t newps, Chain t h (front ++ [lr] ++ newps) (fx ++ [lx] ++ ys) →
        t.objs = s.objs → s.cells.length ≤ t.cells.length →
        (∀ r ∈ newps, s.cells.length < r) →
        (∀ r n, r ∉ front ++ [lr] → s.lookup r = some n → t.lookup r = some n) →
        Q () t) →
      Prog.Ok (ctor_copy_loop fuel lr sr) s Q := by
  induction qs with
  | nil =>
    intro s h lr sr q front fx lx y ys fuel Q hs hl hc hdis hf hQ
    obtain ⟨rfl, nx, h1, h2⟩ := seg_cons.mp hc
    cases ys with
    | cons z zs => exact absurd h2 seg_nil_cons
    | nil =>
      have hnx : nx = 0 := by simpa using h2
      subst hnx
      cases fuel with
      | zero => omega
      | succ f =>
        rw [ctor_copy_loop]
        refine Ok_bind (Ok_getNext h1 ?_)
        simp only [ne_eq, not_true_eq_false, if_false]
        refine Ok_pure (hQ s [] ?_ rfl (le_refl _) (by simp) (fun _ _ _ hn => hn))
        simpa using hs.snoc hl
  | cons p qs ih =>
    intro s h lr sr q front fx lx y ys fuel Q hs hl hc hdis hf hQ
    have hnd := Chain.nodup hc
    obtain ⟨rfl, nx, h1, h2⟩ := seg_cons.mp hc
    cases ys with
    | nil => exact absurd h2 seg_cons_nil
    | cons z zs =>
      obtain ⟨rfl, ny, h3, h4⟩ := seg_cons.mp h2
      obtain ⟨hp0, _⟩ := lookup_some_pos h3
      obtain ⟨k1, k2, k3, k4, k5, k6⟩ := link_fresh (v := z) hs hl
      have hfresh : ∀ r n, s.lookup r = some n → r ≠ s.cells.length + 1 := by
        intro r n hn
        have := (lookup_some_pos hn).2
        omega
      have hlrq : q ≠ lr := by
        rintro rfl
        exact hdis (List.mem_cons_self _ _)
      have hlrp : p ≠ lr := by
        rintro rfl
        exact hdis (by simp)
      have a1 : ∀ r, (s.alloc ⟨(default : α), 0⟩).lookup r
          = if r = s.cells.length + 1 then some ⟨default, 0⟩ else s.lookup r :=
        fun r => lookup_alloc r
      cases fuel with
      | zero => omega
      | succ f =>
        rw [ctor_copy_loop]
        refine Ok_bind (Ok_getNext h1 ?_)
        simp only [ne_eq, hp0, not_false_eq_true, if_true]
        refine Ok_bind (Ok_newNode ?_)
        refine Ok_bind (Ok_getNext (n := ⟨y, p⟩) (by rw [a1]; simp [hfresh q _ h1, h1]) ?_)
        refine Ok_bind (Ok_getData (n := ⟨z, ny⟩) (by rw [a1]; simp [hfresh p _ h3, h3]) ?_)
        refine Ok_bind (Ok_setData (n := ⟨default, 0⟩) (by rw [a1]; simp) ?_)
        refine Ok_bind (Ok_setNext (n := ⟨lx, 0⟩) ?_ ?_)
        · rw [lookup_write (m := ⟨default, 0⟩) (by rw [a1]; simp), a1]
          simp [hfresh lr _ hl, hl]
        refine Ok_bind (Ok_getNext k3 ?_)
        refine Ok_bind (Ok_getNext (n := ⟨y, p⟩) ?_ ?_)
        · rw [k6 q hlrq (hfresh q _ h1)]
          exact h1
        have hc2 : Chain (((s.alloc ⟨(default : α), 0⟩).write (s.cells.length + 1) ⟨z, 0⟩).write
            lr ⟨lx, s.cells.length + 1⟩) p (p :: qs) (z :: zs) := by
          refine Seg.congr ?_ h2
          intro r hr
          obtain ⟨n, hn⟩ := Seg.live h2 r hr
          refine k6 r ?_ (hfresh r n hn)
          rintro rfl
          exact hdis (List.mem_cons_of_mem _ hr)
        have hdis2 : s.cells.length + 1 ∉ p :: qs := by
          intro hm
          obtain ⟨n, hn⟩ := Seg.live h2 _ hm
          exact hfresh _ n hn rfl
        refine ih k1 k2 hc2 hdis2 (by simp at hf; omega) ?_
        intro t newps c1 c2 c3 c4 c5
        refine hQ t ((s.cells.length + 1) :: newps) ?_ (c2.trans k4) ?_ ?_ ?_
        · simpa using c1
        · rw [k5] at c3
          omega
        · intro r hr
          rcases List.mem_cons.mp hr with rfl | hr
          · omega
          · have := c4 r hr
            rw [k5] at this
            omega
        · intro r n hr hn
          have hr1 : r ≠ lr := by
            rintro rfl
            exact hr (by simp)
          have hr2 := hfresh r n hn
          refine c5 r n ?_ ?_
          · simp only [List.mem_append, List.mem_singleton, not_or] at hr ⊢
            exact ⟨⟨hr.1, hr1⟩, hr2⟩
          · rw [k6 r hr1 hr2]
            exact hn

theorem ctor_copy_spec [Inhabited α] {s : Mem α} {this source : Nat} {qs : List Nat}
    {xs : List α} (hobj : this < s.objs.length) (hne : this ≠ source)
    (h : Holds s source qs xs) :
    Prog.Ok (ctor_copy this source) s (fun _ t =>
      ∃ ps, Holds t this ps xs ∧ Holds t source qs xs ∧ Frame s t this [] ∧
        (∀ q ∈ ps, s.cells.length < q) ∧ t.objs.length = s.objs.length) := by
  obtain ⟨p, hp, hc⟩ := h
  have hsrc : ∀ w, (s.setHead this w).head source = some p := by
    intro w
    rw [head_setHead hobj]
    simp [Ne.symm hne, hp]
  have hfr0 : ∀ w, ∀ b v, b ≠ this → s.head b = some v → (s.setHead this w).head b = some v := by
    intro w b v hb hv
    rw [head_setHead hobj]
    simp [hb, hv]
  rw [ctor_copy]
  refine Ok_bind (Ok_writeHead hobj ?_)
  refine Ok_bind (Ok_readHead (hsrc _) ?_)
  by_cases h0 : p = 0
  · subst h0
    obtain ⟨rfl, rfl⟩ := Chain.null hc
    simp only [if_true]
    refine Ok_pure ⟨[], ⟨0, ?_, seg_nil.mpr rfl⟩, ⟨0, hsrc _, seg_nil.mpr rfl⟩,
      ⟨hfr0 _, fun _ _ _ hn => hn, by simp, by simp⟩, by simp, by simp⟩
    rw [head_setHead hobj]
    simp
  · obtain ⟨qs1, x, xs1, nx, rfl, rfl, h1, h2⟩ := Chain.head_ne_zero hc h0
    simp only [h0, if_false]
    have hfresh : ∀ r n, s.lookup r = some n → r ≠ s.cells.length + 1 := by
      intro r n hn
      have := (lookup_some_pos hn).2
      omega
    have hobj2 : this < ((s.setHead this (some 0)).alloc ⟨(default : α), 0⟩).objs.length := by
      simpa using hobj
    have hd : ∀ w, ((((s.setHead this (some 0)).alloc ⟨(default : α), 0⟩).setHead this
        (some (s.cells.length + 1))).write (s.cells.length + 1) w).head this
        = some (s.cells.length + 1) := by
      intro w
      rw [head_write, head_setHead hobj2]
      simp
    have hd2 : ∀ w, ((((s.setHead this (some 0)).alloc ⟨(default : α), 0⟩).setHead this
        (some (s.cells.length + 1))).write (s.cells.length + 1) w).head source
        = some p := by
      intro w
      rw [head_write, head_setHead hobj2, if_neg (Ne.symm hne), head_alloc]
      exact hsrc _
    have l1 : ∀ q, (((s.setHead this (some 0)).alloc ⟨(default : α), 0⟩).setHead this
        (some (s.cells.length + 1))).lookup q
        = if q = s.cells.length + 1 then some ⟨default, 0⟩ else s.lookup q := by
      intro q
      rw [lookup_setHead]
      exact lookup_alloc q
    have l2 : ∀ q, ((((s.setHead this (some 0)).alloc ⟨(default : α), 0⟩).setHead this
        (some (s.cells.length + 1))).write (s.cells.length + 1) ⟨x, 0⟩).lookup q
        = if q = s.cells.length + 1 then some ⟨x, 0⟩ else s.lookup q := by
      intro q
      rw [lookup_write (m := ⟨default, 0⟩) (by rw [l1]; simp)]
      by_cases e : q = s.cells.length + 1 <;> simp [e, l1]
    refine Ok_bind (Ok_newNode ?_)
    simp only [cells_setHead]
    refine Ok_bind (Ok_writeHead hobj2 ?_)
    refine Ok_bind (Ok_readHead (p := p) ?_ ?_)
    · rw [head_setHead hobj2, if_neg (Ne.symm hne), head_alloc]
      exact hsrc _
    refine Ok_bind (Ok_getData (n := ⟨x, nx⟩) (by rw [l1]; simp [hfresh p _ h1, h1]) ?_)
    refine Ok_bind (Ok_readHead (p := s.cells.length + 1) ?_ ?_)
    · rw [head_setHead hobj2]
      simp
    refine Ok_bind (Ok_setData (n := ⟨default, 0⟩) (by rw [l1]; simp) ?_)
    refine Ok_bind (Ok_readHead (hd _) ?_)
    refine Ok_bind (Ok_readHead (hd2 _) ?_)
    refine Ok_bind (Ok_stepBound ?_)
    have hs0 : Seg ((((s.setHead this (some 0)).alloc ⟨(default : α), 0⟩).setHead this
        (some (s.cells.length + 1))).write (s.cells.length + 1) ⟨x, 0⟩)
        (s.cells.length + 1) (s.cells.length + 1) [] ([] : List α) := seg_nil.mpr rfl
    have hl0 := l2 (s.cells.length + 1)
    rw [if_pos rfl] at hl0
    have hc3 : Chain ((((s.setHead this (some 0)).alloc ⟨(default : α), 0⟩).setHead this
        (some (s.cells.length + 1))).write (s.cells.length + 1) ⟨x, 0⟩) p (p :: qs1)
        (x :: xs1) := by
      refine Seg.congr ?_ hc
      intro r hr
      obtain ⟨n, hn⟩ := Seg.live hc r hr
      rw [l2]
      simp [hfresh r n hn]
    have hdis : s.cells.length + 1 ∉ p :: qs1 := by
      intro hm
      obtain ⟨n, hn⟩ := Seg.live hc _ hm
      exact hfresh _ n hn rfl
    have hfu : qs1.length < s.cells.length + 1 + 1 := by
      have := stepBound_enough hc
      omega
    refine ctor_copy_loop_spec hs0 hl0 hc3 hdis (by simpa using hfu) ?_
    intro t newps c1 c2 c3 c4 c5
    have hkeep : ∀ r n, s.lookup r = some n → t.lookup r = some n := by
      intro r n hn
      refine c5 r n ?_ ?_
      · simpa using hfresh r n hn
      · rw [l2]
        simp [hfresh r n hn, hn]
    refine ⟨_, ⟨s.cells.length + 1, ?_, c1⟩, ⟨p, ?_, ?_⟩, ⟨?_, ?_, ?_, ?_⟩, ?_, ?_⟩
    · rw [head_some_iff, c2, ← head_some_iff]
      exact hd _
    · rw [head_some_iff, c2, ← head_some_iff]
      exact hd2 _
    · refine Seg.congr ?_ hc
      intro r hr
      obtain ⟨n, hn⟩ := Seg.live hc r hr
      rw [hn]
      exact hkeep r n hn
    · intro b w hb hw
      rw [head_some_iff, c2, ← head_some_iff, head_write, head_setHead hobj2, if_neg hb,
        head_alloc]
      exact hfr0 _ b w hb hw
    · intro r n _ hn
      exact hkeep r n hn
    · rw [c2]
      simp
    · simp at c3
      omega
    · intro q hq
      simp only [List.nil_append, List.singleton_append, List.mem_cons] at hq
      rcases hq with rfl | hq
      · omega
      · have := c4 q hq
        simp at this
        omega
    · rw [c2]
      simp

theorem ctor_move_spec {s : Mem α} {this source : Nat} {qs : List Nat} {xs : List α}
    (hobj : this < s.objs.length) (hne : this ≠ source) (h : Holds s source qs xs) :
    Prog.Ok (ctor_move this source) s (fun _ t =>
      Holds t this qs xs ∧ Holds t source [] ([] : List α) ∧ t.cells = s.cells ∧
        (∀ b, b ≠ this → b ≠ source → t.head b = s.head b) ∧
        t.objs.length = s.objs.length) := by
  have hlt := h.lt
  obtain ⟨p, hp, hc⟩ := h
  rw [ctor_move]
  refine Ok_bind (Ok_readHead hp ?_)
  refine Ok_bind (Ok_writeHead hobj ?_)
  refine Ok_writeHead (by simpa using hlt) ?_
  refine ⟨⟨p, ?_, (hc.under_setHead _ _).under_setHead _ _⟩, ⟨0, ?_, seg_nil.mpr rfl⟩, rfl, ?_, by simp⟩
  · rw [head_setHead (by simpa using hlt), if_neg hne, head_setHead hobj]
    simp
  · rw [head_setHead (by simpa using hlt)]
    simp
  · intro b h1 h2
    rw [head_setHead (by simpa using hlt), if_neg h2, head_setHead hobj, if_neg h1]

theorem assign_move_spec {s : Mem α} {this source : Nat} {ps qs : List Nat}
    {ys xs : List α} (hne : this ≠ source) (hthis : Holds s this ps ys)
    (hsrc : Holds s source qs xs) (hdis : ∀ q ∈ qs, q ∉ ps) :
    Prog.Ok (assign_move this source) s (fun _ t =>
      Holds t this qs xs ∧ Holds t source [] ([] : List α) ∧
        (∀ b, b ≠ this → b ≠ source → t.head b = s.head b) ∧
        (∀ q, t.lookup q = if q ∈ ps then none else s.lookup q) ∧
        t.cells.length = s.cells.length ∧ t.objs.length = s.objs.length) := by
  have hlt := hthis.lt
  have hlt2 := hsrc.lt
  obtain ⟨p, hp, hc⟩ := hsrc
  rw [assign_move]
  simp only [hne, if_false]
  refine Ok_bind (Ok_mono (clear_spec hthis) ?_)
  rintro _ u ⟨k1, k2, k3, k4, k5, _⟩
  have hpu : u.head source = some p := by
    rw [k2 source (Ne.symm hne)]
    exact hp
  refine Ok_bind (Ok_readHead hpu ?_)
  refine Ok_bind (Ok_writeHead (by omega) ?_)
  refine Ok_writeHead (by simp; omega) ?_
  have hl1 : source < (u.setHead this (some p)).objs.length := by simp; omega
  refine ⟨⟨p, ?_, ?_⟩, ⟨0, ?_, seg_nil.mpr rfl⟩, ?_, ?_, by simpa using k4, by simpa using k5⟩
  · rw [head_setHead hl1, if_neg hne, head_setHead (by omega)]
    simp
  · refine Seg.congr ?_ hc
    intro q hq
    show u.lookup q = _
    rw [k3]
    simp [hdis q hq]
  · rw [head_setHead hl1]
    simp
  · intro b h1 h2
    rw [head_setHead hl1, if_neg h2, head_setHead (by omega), if_neg h1]
    exact k2 b h1
  · intro q
    show u.lookup q = _
    exact k3 q

/-- The part of copy assignment that both source files share, up to the point where
`this` has taken over the chain of the fresh object. -/
theorem assign_copy_core [Inhabited α] {s : Mem α} {this source : Nat} {ps qs : List Nat}
    {ys xs : List α} (hne : this ≠ source) (hthis : Holds s this ps ys)
    (hsrc : Holds s source qs xs) (hdis : ∀ q ∈ qs, q ∉ ps)
    {k : Nat → Prog α Unit} {Q : Unit → Mem α → Prop}
    (hk : ∀ t ps1, Holds t this ps1 xs → Holds t source qs xs → Frame s t this ps →
      (∀ q ∈ ps1, s.cells.length < q) → t.objs.length = s.objs.length + 1 →
      Prog.Ok (k s.objs.length) t Q) :
    Prog.Ok (do
      clear this
      let temp_list ← newObj
      ctor_copy temp_list source
      let th ← readHead temp_list
      writeHead this th
      k temp_list) s Q := by
  have hlt := hthis.lt
  have hlt2 := hsrc.lt
  obtain ⟨p, hp, hc⟩ := hsrc
  refine Ok_bind (Ok_mono (clear_spec hthis) ?_)
  rintro _ u ⟨k1, k2, k3, k4, k5, _⟩
  refine Ok_bind (Ok_newObj ?_)
  rw [k5]
  have hsrcu : Holds u.addObj source qs xs := by
    refine ⟨p, ?_, Seg.congr ?_ hc⟩
    · rw [head_addObj, k2 source (Ne.symm hne)]
      exact hp
    · intro q hq
      rw [lookup_addObj, k3]
      simp [hdis q hq]
  have htmp : s.objs.length ≠ source := by omega
  have htmp2 : s.objs.length ≠ this := by omega
  refine Ok_bind (Ok_mono (ctor_copy_spec (by simp; omega) htmp hsrcu) ?_)
  rintro _ w ⟨ps1, c1, c2, c3, c4, c5⟩
  obtain ⟨th, hth, hch⟩ := c1
  obtain ⟨p2, hp2, hch2⟩ := c2
  have hwl : w.objs.length = s.objs.length + 1 := by
    rw [c5]
    simp
    omega
  refine Ok_bind (Ok_readHead hth ?_)
  refine Ok_bind (Ok_writeHead (by omega) ?_)
  have hl0 : this < w.objs.length := by omega
  refine hk _ ps1 ⟨th, ?_, hch.under_setHead _ _⟩ ⟨p2, ?_, hch2.under_setHead _ _⟩ ⟨?_, ?_, ?_, ?_⟩ ?_ ?_
  · rw [head_setHead hl0]
    simp
  · rw [head_setHead hl0, if_neg (Ne.symm hne)]
    exact hp2
  · intro b v hb hv
    have hbl := head_some_lt hv
    have hb2 : b ≠ s.objs.length := by omega
    rw [head_setHead hl0, if_neg hb]
    refine c3.1 b v hb2 ?_
    rw [head_addObj, k2 b hb]
    exact hv
  · intro q n hq hn
    show w.lookup q = _
    refine c3.2.1 q n (by simp) ?_
    rw [lookup_addObj, k3]
    simp [hq, hn]
  · simp
    omega
  · have := c3.2.2.2
    simp at this ⊢
    omega
  · intro q hq
    have := c4 q hq
    simp at this
    omega
  · simp
    omega

theorem Frame.after {s t u : Mem α} {a b : Nat} {ps : List Nat} (h1 : Frame s t a ps)
    (h2 : Frame t u b []) (hb : s.objs.length ≤ b) : Frame s u a ps := by
  refine ⟨?_, ?_, h1.2.2.1.trans h2.2.2.1, h1.2.2.2.trans h2.2.2.2⟩
  · intro c v hc hv
    have := head_some_lt hv
    exact h2.1 c v (by omega) (h1.1 c v hc hv)
  · intro q n hq hn
    exact h2.2.1 q n (by simp) (h1.2.1 q n hq hn)

theorem assign_copy_spec [Inhabited α] {s : Mem α} {this source : Nat} {ps qs : List Nat}
    {ys xs : List α} (hne : this ≠ source) (hthis : Holds s this ps ys)
    (hsrc : Holds s source qs xs) (hdis : ∀ q ∈ qs, q ∉ ps) :
    Prog.Ok (assign_copy this source) s (fun _ t =>
      ∃ ps1, Holds t this ps1 xs ∧ Holds t source qs xs ∧ Frame s t this ps ∧
        (∀ q ∈ ps1, s.cells.length < q)) := by
  have hlt := hthis.lt
  have hlt2 := hsrc.lt
  rw [assign_copy]
  simp only [hne, if_false]
  refine assign_copy_core hne hthis hsrc hdis ?_
  intro t ps1 c1 c2 c3 c4 c5
  refine Ok_bind (Ok_writeHead (by omega) ?_)
  have hf1 : Frame t (t.setHead s.objs.length (some 0)) s.objs.length [] :=
    Frame.of_setHead _ (by omega)
  have h0 : Holds (t.setHead s.objs.length (some 0)) s.objs.length [] ([] : List α) := by
    refine ⟨0, ?_, seg_nil.mpr rfl⟩
    rw [head_setHead (by omega)]
    simp
  rw [dtor]
  refine Ok_bind (Ok_mono (clear_spec h0) ?_)
  rintro _ u ⟨_, _, _, _, _, k6⟩
  have := k6 rfl
  subst this
  refine Ok_endObj (by simp; omega) ?_
  have hf2 : Frame (t.setHead s.objs.length (some 0))
      ((t.setHead s.objs.length (some 0)).setHead s.objs.length none) s.objs.length [] :=
    Frame.of_setHead _ (by simp; omega)
  refine ⟨ps1, hf2.holds (hf1.holds c1 (by omega) (by simp)) (by omega) (by simp),
    hf2.holds (hf1.holds c2 (by omega) (by simp)) (by omega) (by simp), ?_, c4⟩
  exact (c3.after hf1 (le_refl _)).after hf2 (le_refl _)

theorem ll_assign_copy_spec [Inhabited α] {s : Mem α} {this source : Nat}
    {ps qs : List Nat} {ys xs : List α} (hne : this ≠ source) (hthis : Holds s this ps ys)
    (hsrc : Holds s source qs xs) (hdis : ∀ q ∈ qs, q ∉ ps) :
    Prog.Ok (snakelinkedlist.LinkedList.assign_copy this source) s (fun _ t =>
      ∃ ps1, Holds t this ps1 xs ∧ Holds t source qs xs ∧ Frame s t this ps ∧
        (∀ q ∈ ps1, s.cells.length < q)) := by
  have hlt := hthis.lt
  have hlt2 := hsrc.lt
  rw [snakelinkedlist.LinkedList.assign_copy, ll_clear_eq, ll_ctor_copy_eq]
  simp only [hne, if_false]
  refine assign_copy_core hne hthis hsrc hdis ?_
  intro t ps1 c1 c2 c3 c4 c5
  refine Ok_writeHead (by omega) ?_
  have hf1 : Frame t (t.setHead s.objs.length (some 0)) s.objs.length [] :=
    Frame.of_setHead _ (by omega)
  exact ⟨ps1, hf1.holds c1 (by omega) (by simp), hf1.holds c2 (by omega) (by simp),
    c3.after hf1 (le_refl _), c4⟩

end Copies

/-! ## Faults and isolation -/

section Isolation

variable {α : Type}

open LinkedList

theorem bind_ok {β γ : Type} {m : Prog α β} {f : β → Prog α γ} {s t : Mem α} {x : β}
    (h : m s = .ok (x, t)) : (m >>= f) s = f x t := by
  show Prog.andThen m f s = _
  simp [Prog.andThen, h]

theorem bind_error {β γ : Type} {m : Prog α β} {f : β → Prog α γ} {s : Mem α} {e : Fault}
    (h : m s = .error e) : (m >>= f) s = .error e := by
  show Prog.andThen m f s = _
  simp [Prog.andThen, h]

theorem readHead_ok {s : Mem α} {a p : Nat} (h : s.head a = some p) :
    readHead a s = .ok (p, s) := by
  simp [readHead, head_some_iff.mp h]

theorem getNext_ok {s : Mem α} {p : Nat} {n : Node α} (h : s.lookup p = some n) :
    getNext p s = .ok (n.next_, s) := by
  obtain ⟨r, t, e, rfl, rfl⟩ :=
    Ok_getNext (Q := fun r t => r = n.next_ ∧ t = s) h ⟨rfl, rfl⟩
  exact e

theorem pure_ok {β : Type} {x : β} {s : Mem α} : (pure x : Prog α β) s = .ok (x, s) := rfl

theorem getNext_null {s : Mem α} : getNext 0 s = (.error .nullDeref : Except Fault (Nat × Mem α)) :=
  rfl

theorem bind_bind {β γ δ : Type} (m : Prog α β) (f : β → Prog α γ) (g : γ → Prog α δ)
    (s : Mem α) : ((m >>= f) >>= g) s = (m >>= fun x => f x >>= g) s := by
  show Prog.andThen (Prog.andThen m f) g s = Prog.andThen m (fun x => Prog.andThen (f x) g) s
  unfold Prog.andThen
  cases m s with
  | error e => rfl
  | ok r => rfl

/-- The value of `n - 1` as an `int`: the difference modulo `2^32`, for every `n` in the
range of `int`. -/
theorem int_pred_eq_wrap (n : Int) (h0 : -2147483648 ≤ n) (h1 : n ≤ 2147483647) :
    int_pred n = (n - 1 + 2147483648) % 4294967296 - 2147483648 := by
  unfold int_pred
  split <;> omega

theorem int_pred_of_gt {n : Int} (h : -2147483648 < n) : int_pred n = n - 1 := by
  unfold int_pred
  split <;> omega

/-- A negative index, other than `-1` on the empty list, passes all three guards of
`RemoveNth` and reaches the walk and the splice. -/
theorem RemoveNth_negative_eq {s : Mem α} {a : Nat} {ps : List Nat} {xs : List α} {n : Int}
    (h : Holds s a ps xs) (hn : n < 0) (hne : ¬ (xs = [] ∧ n = -1)) :
    RemoveNth a n s = (do
        let runner ← readHead a
        let runner ← RemoveNth_loop (int_pred n).toNat runner
        let node_to_remove ← getNext runner
        let next_node ← getNext node_to_remove
        deleteNode node_to_remove
        setNext runner next_node) s := by
  have hsz := size_spec h
  rw [RemoveNth]
  have e0 : ¬ (n = 0) := by omega
  simp only [e0, if_false]
  rw [bind_ok hsz]
  have e1 : ¬ (n = (xs.length : Int) - 1) := by
    intro e
    have hx : xs.length = 0 := by omega
    exact hne ⟨List.length_eq_zero.mp hx, by omega⟩
  simp only [e1, if_false]
  rw [bind_ok hsz]
  have e2 : ¬ (n > (xs.length : Int) - 1) := by omega
  simp only [e2, if_false]

/-- The walk of `RemoveNth` from `p` along a chain of `ps.length` nodes, with `k` steps
where `k + 1` is not below the number of nodes: the walk, or one of the two reads of
`next_` after it, is through a null pointer. -/
theorem RemoveNth_loop_runs_off {s : Mem α} {ps : List Nat} :
    ∀ {xs : List α} {p k : Nat}, Chain s p ps xs → ps.length ≤ k + 1 →
      (do
        let runner ← RemoveNth_loop k p
        let node_to_remove ← getNext runner
        let next_node ← getNext node_to_remove
        deleteNode node_to_remove
        setNext runner next_node) s = .error .nullDeref := by
  induction ps with
  | nil =>
    intro xs p k hc _
    cases xs with
    | cons y ys => exact absurd hc seg_nil_cons
    | nil =>
      have hp : p = 0 := by simpa using hc
      subst hp
      cases k with
      | zero =>
        rw [RemoveNth_loop, bind_ok pure_ok]
        exact bind_error getNext_null
      | succ k =>
        rw [RemoveNth_loop]
        exact bind_error (bind_error getNext_null)
  | cons q ps ih =>
    intro xs p k hc hk
    cases xs with
    | nil => exact absurd hc seg_cons_nil
    | cons y ys =>
      obtain ⟨rfl, nx, h1, h2⟩ := seg_cons.mp hc
      cases k with
      | zero =>
        have hps : ps = [] := List.length_eq_zero.mp (by rw [List.length_cons] at hk; omega)
        subst hps
        cases ys with
        | cons z zs => exact absurd h2 seg_nil_cons
        | nil =>
          have hnx : nx = 0 := by simpa using h2
          subst hnx
          rw [RemoveNth_loop, bind_ok pure_ok, bind_ok (getNext_ok h1)]
          exact bind_error getNext_null
      | succ k =>
        rw [RemoveNth_loop, bind_bind, bind_ok (getNext_ok h1)]
        exact ih h2 (by rw [List.length_cons] at hk; omega)

/-- A negative index on a list of two or more nodes, other than `INT_MIN`, passes all
three guards of `RemoveNth`; the loop does not run and the splice takes out the node at
index 1. -/
theorem RemoveNth_negative {s : Mem α} {a : Nat} {ps : List Nat} {xs : List α} {n : Int}
    (h : Holds s a ps xs) (hmin : -2147483648 < n) (hn : n < 0) (hlen : 2 ≤ xs.length) :
    Prog.Ok (RemoveNth a n) s (fun _ t =>
      Holds t a (ps.eraseIdx 1) (xs.eraseIdx 1) ∧ Frame s t a ps) := by
  have hl : ps.length = xs.length := by
    obtain ⟨p, _, hc⟩ := h
    exact Seg.length_eq hc
  have hne : ¬ (xs = [] ∧ n = -1) := by
    rintro ⟨rfl, _⟩
    simp at hlen
  have e3 : (int_pred n).toNat = 0 := by
    rw [int_pred_of_gt hmin]
    omega
  have hsp := RemoveNth_splice (k := 0) h (by omega)
  obtain ⟨r, t, e, hQ⟩ := hsp
  refine ⟨r, t, ?_, hQ⟩
  rw [RemoveNth_negative_eq h hn hne, e3]
  exact e

/-- A negative index, other than `-1` on the empty list, with a loop bound that reaches
the end of the list: the call stops in a null dereference. -/
theorem RemoveNth_negative_faults {s : Mem α} {a : Nat} {ps : List Nat} {xs : List α}
    {n : Int} (h : Holds s a ps xs) (hn : n < 0) (hne : ¬ (xs = [] ∧ n = -1))
    (hk : ps.length ≤ (int_pred n).toNat + 1) : RemoveNth a n s = .error .nullDeref := by
  rw [RemoveNth_negative_eq h hn hne]
  obtain ⟨p, hp, hc⟩ := h
  rw [bind_ok (readHead_ok hp)]
  exact RemoveNth_loop_runs_off hc hk

/-- A negative index on the empty list: `-1` equals `size() - 1` and goes to `pop_back`,
which does nothing; any other one reaches the splice with a null `head_`. -/
theorem RemoveNth_negative_nil {s : Mem α} {a : Nat} {n : Int}
    (h : Holds s a [] ([] : List α)) (hn : n < 0) :
    RemoveNth a n s = if n = -1 then .ok ((), s) else .error .nullDeref := by
  by_cases e1 : n = -1
  · have hsz := size_spec h
    have hpb := pop_back_spec h
    rw [if_pos e1, RemoveNth]
    subst e1
    have e0 : ¬ ((-1 : Int) = 0) := by omega
    simp only [e0, if_false]
    rw [bind_ok hsz]
    simp only [List.length_nil, Nat.cast_zero, zero_sub, if_true]
    obtain ⟨r, t, e, _, _, k⟩ := hpb
    rw [e, k rfl]
  · rw [if_neg e1]
    exact RemoveNth_negative_faults h hn (fun hc => e1 hc.2) (by simp)

/-- Whatever a modifier does to one list, a list in another object with other nodes stays
as it is; and the only modifier calls that do not return are `RemoveNth` calls with a
negative index, which stop in a null dereference. -/
theorem Modifier.isolated [Inhabited α] {s : Mem α} {a b : Nat} {psA psB : List Nat}
    {xs ys : List α} (hab : a ≠ b) (hA : Holds s a psA xs) (hB : Holds s b psB ys)
    (hd : ∀ q ∈ psA, q ∉ psB) (m : Modifier α) :
    (∃ t, m.run b s = .ok ((), t) ∧ Holds t a psA xs ∧
        ∃ psB1 ys1, Holds t b psB1 ys1 ∧ ∀ q ∈ psA, q ∉ psB1) ∨
      (∃ n, n < 0 ∧ m = .RemoveNth n ∧ m.run b s = .error .nullDeref) := by
  have hlive : ∀ q ∈ psA, q ≤ s.cells.length := by
    intro q hq
    obtain ⟨p, _, hc⟩ := hA
    obtain ⟨n, hn⟩ := Seg.live hc q hq
    exact (lookup_some_pos hn).2
  have key : ∀ {P : Unit → Mem α → Prop} {m : Prog α Unit}, Prog.Ok m s P →
      (∀ t, P () t → ∃ psB1 ys1, (Holds t b psB1 ys1 ∧ Frame s t b psB) ∧
        ∀ q ∈ psA, q ∉ psB1) →
      ∃ t, m s = .ok ((), t) ∧ Holds t a psA xs ∧
        ∃ psB1 ys1, Holds t b psB1 ys1 ∧ ∀ q ∈ psA, q ∉ psB1 := by
    intro P m hok hP
    obtain ⟨r, t, e, hp⟩ := hok
    obtain ⟨psB1, ys1, ⟨k1, k2⟩, k3⟩ := hP t hp
    exact ⟨t, e, k2.holds hA hab hd, psB1, ys1, k1, k3⟩
  cases m with
  | push_front v =>
    refine Or.inl (key (push_front_spec v hB) ?_)
    rintro t ⟨k1, k2⟩
    refine ⟨_, _, ⟨k1, k2⟩, ?_⟩
    intro q hq hc
    rcases List.mem_cons.mp hc with rfl | hc
    · have := hlive _ hq
      omega
    · exact hd q hq hc
  | push_back v =>
    refine Or.inl (key (push_back_spec v hB) ?_)
    rintro t ⟨k1, k2⟩
    refine ⟨_, _, ⟨k1, k2⟩, ?_⟩
    intro q hq hc
    rcases List.mem_append.mp hc with hc | hc
    · exact hd q hq hc
    · have := hlive _ hq
      simp at hc
      omega
  | pop_front =>
    refine Or.inl (key (pop_front_spec hB) ?_)
    rintro t ⟨k1, k2, _⟩
    exact ⟨_, _, ⟨k1, k2⟩, fun q hq hc => hd q hq (List.mem_of_mem_tail hc)⟩
  | pop_back =>
    refine Or.inl (key (pop_back_spec hB) ?_)
    rintro t ⟨k1, k2, _⟩
    exact ⟨_, _, ⟨k1, k2⟩, fun q hq hc => hd q hq (List.mem_of_mem_dropLast hc)⟩
  | clear =>
    refine Or.inl (key (clear_holds hB) ?_)
    rintro t ⟨k1, k2, _⟩
    exact ⟨_, _, ⟨k1, k2⟩, fun q _ hc => by simp at hc⟩
  | RemoveNth n =>
    have hlen : psB.length = ys.length := by
      obtain ⟨p, _, hc⟩ := hB
      exact Seg.length_eq hc
    by_cases h0 : 0 ≤ n
    · by_cases h1 : n < ys.length
      · have hi : n.toNat < ys.length := by omega
        have hspec := RemoveNth_spec hB hi
        have e : ((n.toNat : Nat) : Int) = n := by omega
        rw [e] at hspec
        refine Or.inl (key hspec ?_)
        rintro t ⟨k1, k2⟩
        exact ⟨_, _, ⟨k1, k2⟩, fun q hq hc => hd q hq (List.mem_of_mem_eraseIdx hc)⟩
      · refine Or.inl ⟨s, RemoveNth_beyond hB (by omega), hA, psB, ys, hB, hd⟩
    · have hneg : n < 0 := by omega
      by_cases hnil : ys = [] ∧ n = -1
      · obtain ⟨rfl, rfl⟩ := hnil
        have : psB = [] := List.length_eq_zero.mp (by simpa using hlen)
        subst this
        have hr := RemoveNth_negative_nil hB hneg
        rw [if_pos rfl] at hr
        exact Or.inl ⟨s, hr, hA, [], [], hB, hd⟩
      · by_cases hk : (int_pred n).toNat + 1 < psB.length
        · obtain ⟨r, t, e, hQ⟩ := RemoveNth_splice hB hk
          have hsp : Prog.Ok (LinkedList.RemoveNth b n) s (fun _ t =>
              Holds t b (psB.eraseIdx ((int_pred n).toNat + 1))
                (ys.eraseIdx ((int_pred n).toNat + 1)) ∧ Frame s t b psB) :=
            ⟨r, t, by rw [RemoveNth_negative_eq hB hneg hnil]; exact e, hQ⟩
          refine Or.inl (key hsp ?_)
          rintro t ⟨k1, k2⟩
          exact ⟨_, _, ⟨k1, k2⟩, fun q hq hc => hd q hq (List.mem_of_mem_eraseIdx hc)⟩
        · exact Or.inr ⟨n, hneg, rfl, RemoveNth_negative_faults hB hneg hnil (by omega)⟩

end Isolation

/-! ## Cursors -/

section Cursors

variable {α : Type}

open LinkedList

theorem getData_ok {s : Mem α} {p : Nat} {n : Node α} (h : s.lookup p = some n) :
    getData p s = .ok (n.data_, s) := by
  obtain ⟨r, t, e, rfl, rfl⟩ :=
    Ok_getData (Q := fun r t => r = n.data_ ∧ t = s) h ⟨rfl, rfl⟩
  exact e

theorem advance_at_end (k : Nat) (s : Mem α) :
    Iterator.advance k ⟨0⟩ s = .ok (⟨0⟩, s) := by
  induction k with
  | zero => rfl
  | succ k ih =>
    rw [Iterator.advance]
    have h1 : Iterator.operator_incr ⟨0⟩ s = .ok (⟨0⟩, s) := rfl
    rw [bind_ok h1]
    exact ih

/-- The cursor `k` steps into a chain points at its `k`-th node, and is the end cursor
from the length of the chain on. -/
theorem advance_along {s : Mem α} {ps : List Nat} :
    ∀ {p : Nat} {xs : List α} (k : Nat), Chain s p ps xs →
      Iterator.advance k ⟨p⟩ s = .ok (⟨(ps[k]?).getD 0⟩, s) := by
  induction ps with
  | nil =>
    intro p xs k h
    cases xs with
    | cons y ys => exact absurd h seg_nil_cons
    | nil =>
      have : p = 0 := by simpa using h
      subst this
      simpa using advance_at_end k s
  | cons q ps ih =>
    intro p xs k h
    cases xs with
    | nil => exact absurd h seg_cons_nil
    | cons x xs =>
      obtain ⟨rfl, nx, h1, h2⟩ := seg_cons.mp h
      obtain ⟨hp0, _⟩ := lookup_some_pos h1
      cases k with
      | zero =>
        rw [Iterator.advance]
        simp only [List.getElem?_cons_zero, Option.getD_some]
        rfl
      | succ k =>
        rw [Iterator.advance]
        have hinc : Iterator.operator_incr ⟨q⟩ s = .ok (⟨nx⟩, s) := by
          unfold Iterator.operator_incr
          simp only [ne_eq, hp0, not_false_eq_true, if_true]
          rw [bind_ok (getNext_ok h1)]
          rfl
        rw [bind_ok hinc, ih k h2]
        simp

theorem Seg.lookup_at {s : Mem α} {ps : List Nat} :
    ∀ {p e : Nat} {xs : List α} (k : Nat) (hk : k < ps.length) (hx : k < xs.length),
      Seg s p e ps xs → ∃ nx, s.lookup ps[k] = some ⟨xs[k], nx⟩ := by
  induction ps with
  | nil => intro p e xs k hk; simp at hk
  | cons q ps ih =>
    intro p e xs k hk hx h
    cases xs with
    | nil => exact absurd h seg_cons_nil
    | cons x xs =>
      obtain ⟨rfl, nx, h1, h2⟩ := seg_cons.mp h
      cases k with
      | zero => exact ⟨nx, h1⟩
      | succ k =>
        simp only [List.getElem_cons_succ]
        exact ih k (by simpa using hk) (by simpa using hx) h2

theorem Chain.zero_not_mem {s : Mem α} {p : Nat} {ps : List Nat} {xs : List α}
    (h : Chain s p ps xs) : 0 ∉ ps := by
  intro hm
  obtain ⟨n, hn⟩ := Seg.live h 0 hm
  exact (lookup_some_pos hn).1 rfl

/-- Two positions of a chain, its end included, hold the same pointer only if they are the
same position. -/
theorem Chain.position_inj {s : Mem α} {p : Nat} {ps : List Nat} {xs : List α}
    (h : Chain s p ps xs) {i j : Nat} (hi : i ≤ ps.length) (hj : j ≤ ps.length)
    (e : (ps[i]?).getD 0 = (ps[j]?).getD 0) : i = j := by
  have hnd := Chain.nodup h
  have h0 := Chain.zero_not_mem h
  by_cases hi2 : i < ps.length
  · by_cases hj2 : j < ps.length
    · rw [List.getElem?_eq_getElem hi2, List.getElem?_eq_getElem hj2] at e
      exact (hnd.getElem_inj_iff).mp (by simpa using e)
    · rw [List.getElem?_eq_getElem hi2, List.getElem?_eq_none (by omega)] at e
      simp only [Option.getD_some, Option.getD_none] at e
      exact absurd (e ▸ List.getElem_mem hi2) h0
  · by_cases hj2 : j < ps.length
    · rw [List.getElem?_eq_none (by omega), List.getElem?_eq_getElem hj2] at e
      simp only [Option.getD_some, Option.getD_none] at e
      exact absurd (e ▸ List.getElem_mem hj2) h0
    · omega

theorem begin_ok {s : Mem α} {a p : Nat} (h : s.head a = some p) :
    begin a s = .ok (⟨p⟩, s) := by
  rw [begin, bind_ok (readHead_ok h)]
  rfl

end Cursors

/-! ## Rendering -/

section Rendering

variable {α : Type}

open LinkedList

theorem joined_concat (sep : String) (l : List String) (x : String) :
    joined sep (l ++ [x]) = separated sep l ++ x := by
  induction l with
  | nil => simp [joined, separated]
  | cons y l ih =>
    cases l with
    | nil => simp [joined, separated, String.append_assoc]
    | cons z l =>
      have e : joined sep (y :: z :: l ++ [x]) = y ++ sep ++ joined sep (z :: l ++ [x]) := rfl
      rw [e, ih]
      simp [separated, String.append_assoc]

theorem operator_lshift_loop_spec [Inhabited α] (render : α → String) (tv : List α) :
    ∀ (k i : Nat) (os : String), i + k ≤ tv.length →
      operator_lshift_loop render tv k i os
        = os ++ separated ", " (((tv.drop i).take k).map render) := by
  intro k
  induction k with
  | zero =>
    intro i os _
    simp [operator_lshift_loop, separated]
  | succ k ih =>
    intro i os hi
    have hlt : i < tv.length := by omega
    rw [operator_lshift_loop, ih (i + 1) _ (by omega)]
    have e1 : tv.getD i default = tv[i] := by
      simp [List.getElem?_eq_getElem hlt]
    have e2 : tv.drop i = tv[i] :: tv.drop (i + 1) := List.drop_eq_getElem_cons hlt
    rw [e1, e2]
    simp [separated, String.append_assoc]

theorem ll_operator_lshift_loop_spec (render : α → String) {s : Mem α} {ps : List Nat} :
    ∀ {r q : Nat} {x : α} {xs : List α} {fuel : Nat} {os : String}
      {Q : String → Mem α → Prop},
      Chain s r (q :: ps) (x :: xs) → ps.length < fuel →
      Q (os ++ separated ", " ((x :: xs).dropLast.map render)) s →
      Prog.Ok (snakelinkedlist.LinkedList.operator_lshift_loop render fuel r os) s Q := by
  induction ps with
  | nil =>
    intro r q x xs fuel os Q h hf hQ
    obtain ⟨rfl, nx, h1, h2⟩ := seg_cons.mp h
    cases xs with
    | cons y ys => exact absurd h2 seg_nil_cons
    | nil =>
      have hnx : nx = 0 := by simpa using h2
      subst hnx
      cases fuel with
      | zero => omega
      | succ f =>
        rw [snakelinkedlist.LinkedList.operator_lshift_loop]
        refine Ok_bind (Ok_getNext h1 ?_)
        simp only [ne_eq, not_true_eq_false, if_false]
        exact Ok_pure (by simpa [separated] using hQ)
  | cons p ps ih =>
    intro r q x xs fuel os Q h hf hQ
    obtain ⟨rfl, nx, h1, h2⟩ := seg_cons.mp h
    cases xs with
    | nil => exact absurd h2 seg_cons_nil
    | cons y ys =>
      obtain ⟨rfl, ny, h3, h4⟩ := seg_cons.mp h2
      obtain ⟨hp0, _⟩ := lookup_some_pos h3
      cases fuel with
      | zero => omega
      | succ f =>
        rw [snakelinkedlist.LinkedList.operator_lshift_loop]
        refine Ok_bind (Ok_getNext h1 ?_)
        simp only [ne_eq, hp0, not_false_eq_true, if_true]
        refine Ok_bind (Ok_getData h1 ?_)
        refine Ok_bind (Ok_getNext h1 ?_)
        refine ih h2 (by simp at hf; omega) ?_
        simpa [separated, String.append_assoc] using hQ

/-- What both versions of `operator<<` write for a list with contents `xs`: the textual
forms of the elements joined by `", "`, and a line break. -/
theorem operator_lshift_spec [Inhabited α] (render : α → String) (os : String) {s : Mem α}
    {a : Nat} {ps : List Nat} {xs : List α} (h : Holds s a ps xs) :
    operator_lshift render os a s
        = .ok (os ++ joined ", " (xs.map render) ++ "\n", s) ∧
      snakelinkedlist.LinkedList.operator_lshift render os a s
        = .ok (os ++ joined ", " (xs.map render) ++ "\n", s) := by
  have he := empty_spec h
  have hg := GetVector_spec h
  have hb := back_spec h
  obtain ⟨p, hp, hc⟩ := h
  by_cases h0 : p = 0
  · subst h0
    obtain ⟨rfl, rfl⟩ := Chain.null hc
    constructor
    · rw [operator_lshift, bind_ok he]
      rfl
    · rw [snakelinkedlist.LinkedList.operator_lshift, bind_ok (readHead_ok hp)]
      rfl
  · obtain ⟨ps1, x, xs1, nx, rfl, rfl, h1, h2⟩ := Chain.head_ne_zero hc h0
    obtain ⟨fx, lx, hfl⟩ : ∃ fx lx, x :: xs1 = fx ++ [lx] :=
      ⟨(x :: xs1).dropLast, (x :: xs1).getLast (List.cons_ne_nil _ _),
        (List.dropLast_append_getLast (List.cons_ne_nil _ _)).symm⟩
    have hlast : (x :: xs1).getLastD default = lx := by
      rw [hfl]
      simp
    have hdrop : (x :: xs1).dropLast = fx := by
      rw [hfl, List.dropLast_concat]
    have hjoin : joined ", " ((x :: xs1).map render)
        = separated ", " (fx.map render) ++ render lx := by
      rw [hfl, List.map_append, List.map_singleton, joined_concat]
    constructor
    · rw [operator_lshift, bind_ok he]
      simp only [List.isEmpty_cons, Bool.false_eq_true, if_false]
      rw [bind_ok hg, bind_ok hb, hlast, hjoin,
        operator_lshift_loop_spec render _ _ 0 os (by simp)]
      have e : ((x :: xs1).drop 0).take ((x :: xs1).length - 1) = fx := by
        rw [List.drop_zero, ← List.dropLast_eq_take, hdrop]
      rw [e]
      simp [String.append_assoc]
      rfl
    · suffices hk : Prog.Ok (snakelinkedlist.LinkedList.operator_lshift render os a) s
          (fun r t => r = os ++ joined ", " ((x :: xs1).map render) ++ "\n" ∧ t = s) by
        obtain ⟨r, t, e, rfl, rfl⟩ := hk
        exact e
      rw [snakelinkedlist.LinkedList.operator_lshift, ll_back_eq]
      refine Ok_bind (Ok_readHead hp ?_)
      simp only [h0, if_false]
      refine Ok_bind (Ok_readHead hp ?_)
      refine Ok_bind (Ok_stepBound ?_)
      refine Ok_bind (ll_operator_lshift_loop_spec render hc (stepBound_enough hc) ?_)
      refine Ok_bind ⟨_, _, hb, ?_⟩
      refine Ok_pure ⟨?_, rfl⟩
      rw [hlast, hjoin, hdrop]
      simp [String.append_assoc]

end Rendering

/-! ## The properties of the container -/

section Claims

variable {α : Type}

open LinkedList

/-- The constructor from a non-empty vector: on any object storage it builds a list whose
`GetVector()` is the vector and whose `size()` is its length, out of fresh nodes. -/
theorem ctor_vector_roundtrip [Inhabited α] (decl : Option Nat) (s : Mem α) (this : Nat)
    (v : α) (rest : List α) (hobj : this < s.objs.length) :
    ∃ t ps, ctor_vector decl this (v :: rest) s = .ok ((), t) ∧ Holds t this ps (v :: rest) ∧
      GetVector this t = .ok (v :: rest, t) ∧
      size this t = .ok (((v :: rest).length : Int), t) ∧
      empty this t = .ok (false, t) ∧ Frame s t this [] := by
  have hspec : Prog.Ok (ctor_vector decl this (v :: rest)) s _ := ctor_vector_spec decl hobj
  obtain ⟨r, t, e, ps, k1, k2, _⟩ := hspec
  exact ⟨t, ps, e, k1, GetVector_spec k1, size_spec k1, empty_spec k1, k2⟩

/-- C1, where the code departs from it: on an empty vector the constructor returns without
assigning `head_`.  With `head_` declared without a default member initialiser the memory
is left as it was found, an object built on fresh storage from the empty vector has no
`head_` to read, and `empty()`, `size()` and `GetVector()` on it are reads of an
indeterminate pointer.  The default constructor on the same storage gives an empty list,
and so would the vector constructor if the declaration initialised `head_` to `nullptr`. -/
theorem ctor_vector_nil_unassigned :
    (∀ (s : Mem Nat) (this : Nat), ctor_vector none this [] s = .ok ((), s)) ∧
    (fromVector none ([] : List Nat) >>= empty).value Mem.init = .error .indeterminate ∧
    (fromVector none ([] : List Nat) >>= size).value Mem.init = .error .indeterminate ∧
    (fromVector none ([] : List Nat) >>= GetVector).value Mem.init = .error .indeterminate ∧
    ((newObj >>= fun a => ctor_default a >>= fun _ => empty a) : Prog Nat Bool).value Mem.init
      = .ok true ∧
    (fromVector (some 0) ([] : List Nat) >>= empty).value Mem.init = .ok true :=
  ⟨fun _ _ => rfl, rfl, rfl, rfl, rfl, rfl⟩

/-- C2: on a list with contents `xs`, `RemoveNth(n)` with `0 <= n < size()` returns, and
afterwards `GetVector()` is `xs` with the element at index `n` erased and `size()` is one
less than before; the remaining nodes are the old ones, in their order. -/
theorem RemoveNth_in_range [Inhabited α] (s : Mem α) (a : Nat) (ps : List Nat) (xs : List α)
    (n : Int) (h : Holds s a ps xs) (h0 : 0 ≤ n) (h1 : n < xs.length) :
    GetVector a s = .ok (xs, s) ∧ size a s = .ok ((xs.length : Int), s) ∧
    ∃ t, RemoveNth a n s = .ok ((), t) ∧
      GetVector a t = .ok (xs.eraseIdx n.toNat, t) ∧
      size a t = .ok ((xs.length : Int) - 1, t) ∧
      Holds t a (ps.eraseIdx n.toNat) (xs.eraseIdx n.toNat) := by
  have hi : n.toNat < xs.length := by omega
  have hspec := RemoveNth_spec h hi
  have e : ((n.toNat : Nat) : Int) = n := by omega
  rw [e] at hspec
  obtain ⟨r, t, e1, k1, _⟩ := hspec
  refine ⟨GetVector_spec h, size_spec h, t, e1, GetVector_spec k1, ?_, k1⟩
  have := size_spec k1
  rw [List.length_eraseIdx, if_pos hi] at this
  rw [this]
  congr 2
  omega

theorem RemoveNth_in_range_witness :
    Holds twoLists 0 [1, 2, 3, 4, 5] [3, 1, 4, 1, 5] ∧
    GetVector 0 twoLists = .ok ([3, 1, 4, 1, 5], twoLists) ∧
    size 0 twoLists = .ok (5, twoLists) ∧
    ∃ t, RemoveNth 0 2 twoLists = .ok ((), t) ∧ GetVector 0 t = .ok ([3, 1, 1, 5], t) ∧
      size 0 t = .ok (4, t) ∧ Holds t 0 [1, 2, 4, 5] [3, 1, 1, 5] :=
  ⟨by decide,
    RemoveNth_in_range twoLists 0 [1, 2, 3, 4, 5] [3, 1, 4, 1, 5] 2 (by decide)
      (by decide) (by decide)⟩

/-- C3, where the code departs from it: a negative index is not rejected.  On `[1, 2]`,
`RemoveNth(-1)` removes the second element; on `[3, 1, 4]`, `RemoveNth(-5)` removes the
`1`; on `[7]`, `RemoveNth(-1)` dereferences a null pointer. -/
theorem RemoveNth_negative_not_a_noop :
    (fromVector none [1, 2] >>= fun a => RemoveNth a (-1) >>= fun _ => GetVector a).value
        (Mem.init : Mem Nat) = .ok [1] ∧
    (fromVector none [3, 1, 4] >>= fun a => RemoveNth a (-5) >>= fun _ => GetVector a).value
        (Mem.init : Mem Nat) = .ok [3, 4] ∧
    (fromVector none [7] >>= fun a => RemoveNth a (-1) >>= fun _ => GetVector a).value
        (Mem.init : Mem Nat) = .error .nullDeref :=
  ⟨rfl, rfl, rfl⟩

/-- C4: on a list with contents `xs`, the empty one included, `RemoveNth(n)` with
`n >= size()` returns and leaves the whole memory as it was, so `GetVector()` and `size()`
are what they were. -/
theorem RemoveNth_out_of_range [Inhabited α] (s : Mem α) (a : Nat) (ps : List Nat)
    (xs : List α) (n : Int) (h : Holds s a ps xs) (hn : (xs.length : Int) ≤ n) :
    RemoveNth a n s = .ok ((), s) ∧ GetVector a s = .ok (xs, s) ∧
      size a s = .ok ((xs.length : Int), s) :=
  ⟨RemoveNth_beyond h hn, GetVector_spec h, size_spec h⟩

theorem RemoveNth_out_of_range_witness :
    Holds oneAndNone 1 [] ([] : List Nat) ∧
    RemoveNth 1 0 oneAndNone = .ok ((), oneAndNone) ∧
    GetVector 1 oneAndNone = .ok ([], oneAndNone) ∧ size 1 oneAndNone = .ok (0, oneAndNone) :=
  ⟨by decide, RemoveNth_out_of_range oneAndNone 1 [] [] 0 (by decide) (by decide)⟩

theorem DeepCopy.intro [Inhabited α] {t : Mem α} {A C : Nat} {psA psC : List Nat}
    {xs : List α} (hAC : A ≠ C) (hA : Holds t A psA xs) (hC : Holds t C psC xs)
    (hd : ∀ q ∈ psA, q ∉ psC) : DeepCopy t A C xs := by
  refine ⟨GetVector_spec hC, GetVector_spec hA, ?_⟩
  intro m hm
  rcases Modifier.isolated hAC hA hC hd m with ⟨u, e, k, _⟩ | ⟨n, hn, rfl, e⟩
  · exact ⟨u, e, GetVector_spec k⟩
  · have h0 : (0 : Int) ≤ n := hm
    omega

/-- What the copy operations do right.  Let `A` be a list with contents `xs`.  Copy
assignment from `A` into any other list `B` (in `ref_ll.cpp` and in `ll.cpp`), and copy
construction from `A` into a new object, return; `A` keeps its nodes and contents; the
target is a deep copy: its `GetVector()` is `xs`, and a modifier called on it with an index
that is not negative returns and leaves `A.GetVector()` at `xs`. -/
theorem copy_isolated [Inhabited α] (s : Mem α) (A B : Nat) (psA psB : List Nat)
    (xs ys : List α) (hAB : B ≠ A) (hA : Holds s A psA xs) (hB : Holds s B psB ys)
    (hd : ∀ q ∈ psA, q ∉ psB) :
    (∃ t, assign_copy B A s = .ok ((), t) ∧ Holds t A psA xs ∧ DeepCopy t A B xs) ∧
    (∃ t, snakelinkedlist.LinkedList.assign_copy B A s = .ok ((), t) ∧ Holds t A psA xs ∧
      DeepCopy t A B xs) ∧
    (∃ t, (newObj >>= fun c => ctor_copy c A) s = .ok ((), t) ∧ Holds t A psA xs ∧
      DeepCopy t A s.objs.length xs) := by
  have hlive : ∀ q ∈ psA, q ≤ s.cells.length := by
    intro q hq
    obtain ⟨p, _, hc⟩ := hA
    obtain ⟨n, hn⟩ := Seg.live hc q hq
    exact (lookup_some_pos hn).2
  have hfresh : ∀ ps1 : List Nat, (∀ q ∈ ps1, s.cells.length < q) → ∀ q ∈ psA, q ∉ ps1 := by
    intro ps1 h1 q hq hc
    have := h1 q hc
    have := hlive q hq
    omega
  refine ⟨?_, ?_, ?_⟩
  · obtain ⟨r, t, e, ps1, k1, k2, _, k4⟩ := assign_copy_spec hAB hB hA hd
    exact ⟨t, e, k2, DeepCopy.intro (Ne.symm hAB) k2 k1 (hfresh ps1 k4)⟩
  · obtain ⟨r, t, e, ps1, k1, k2, _, k4⟩ := ll_assign_copy_spec hAB hB hA hd
    exact ⟨t, e, k2, DeepCopy.intro (Ne.symm hAB) k2 k1 (hfresh ps1 k4)⟩
  · have hlt := hA.lt
    have hA2 : Holds s.addObj A psA xs := by
      obtain ⟨p, hp, hc⟩ := hA
      exact ⟨p, by simpa using hp, Seg.congr (s := s) (fun _ _ => rfl) hc⟩
    have hst : s.objs.length < s.addObj.objs.length := by simp
    obtain ⟨r, t, e, ps1, k1, k2, _, k4, _⟩ := ctor_copy_spec hst (by omega) hA2
    refine ⟨t, ?_, k2, DeepCopy.intro (by omega) k2 k1 (hfresh ps1 (by simpa using k4))⟩
    rw [bind_ok (rfl : newObj s = .ok (s.objs.length, s.addObj))]
    exact e

/-- C5, where the code departs from it: a modifier called on the copy need not leave
`A.GetVector()` as it was, because the call itself can leave defined behaviour.  Let `A`
be the list `[7]`.  Its copy, made by the copy constructor or by copy assignment into a
list that held `[1, 2]` (in `ref_ll.cpp` and in `ll.cpp`), has the contents `[7]`; then
`RemoveNth(-1)` on the copy passes the three guards and dereferences the null successor of
the only node, and nothing after it, `A.GetVector()` included, is defined.  With
`RemoveNth(0)` in its place the call returns and `A.GetVector()` is still `[7]`. -/
theorem copy_then_RemoveNth_negative :
    (fromVector none [7] >>= fun a => newObj >>= fun c => ctor_copy c a >>= fun _ =>
      GetVector c).value (Mem.init : Mem Nat) = .ok [7] ∧
    (fromVector none [7] >>= fun a => newObj >>= fun c => ctor_copy c a >>= fun _ =>
      RemoveNth c (-1) >>= fun _ => GetVector a).value (Mem.init : Mem Nat)
        = .error .nullDeref ∧
    (fromVector none [7] >>= fun a => fromVector none [1, 2] >>= fun b =>
      assign_copy b a >>= fun _ => RemoveNth b (-1) >>= fun _ => GetVector a).value
        (Mem.init : Mem Nat) = .error .nullDeref ∧
    (fromVector none [7] >>= fun a => fromVector none [1, 2] >>= fun b =>
      snakelinkedlist.LinkedList.assign_copy b a >>= fun _ =>
      snakelinkedlist.LinkedList.RemoveNth b (-1) >>= fun _ =>
      snakelinkedlist.LinkedList.GetVector a).value (Mem.init : Mem Nat)
        = .error .nullDeref ∧
    (fromVector none [7] >>= fun a => newObj >>= fun c => ctor_copy c a >>= fun _ =>
      RemoveNth c 0 >>= fun _ => GetVector a).value (Mem.init : Mem Nat) = .ok [7] :=
  ⟨rfl, rfl, rfl, rfl, rfl⟩

/-- C6: copy assignment of a list to itself (in `ref_ll.cpp` and in `ll.cpp`) and move
assignment of a list to itself return and leave the whole memory as it was; so
`GetVector()` still returns the contents `xs`, and `empty()` is true only if `xs` is
empty. -/
theorem self_assignment_keeps [Inhabited α] (s : Mem α) (a : Nat) (ps : List Nat)
    (xs : List α) (h : Holds s a ps xs) :
    assign_copy a a s = .ok ((), s) ∧
    snakelinkedlist.LinkedList.assign_copy a a s = .ok ((), s) ∧
    assign_move a a s = .ok ((), s) ∧
    GetVector a s = .ok (xs, s) ∧ empty a s = .ok (xs.isEmpty, s) := by
  refine ⟨?_, ?_, ?_, GetVector_spec h, empty_spec h⟩
  · simp only [assign_copy, if_true]
    rfl
  · simp only [snakelinkedlist.LinkedList.assign_copy, if_true]
    rfl
  · simp only [assign_move, if_true]
    rfl

theorem self_assignment_keeps_witness :
    Holds oneAndNone 0 [1] [7] ∧
    assign_copy 0 0 oneAndNone = .ok ((), oneAndNone) ∧
    snakelinkedlist.LinkedList.assign_copy 0 0 oneAndNone = .ok ((), oneAndNone) ∧
    assign_move 0 0 oneAndNone = .ok ((), oneAndNone) ∧
    GetVector 0 oneAndNone = .ok ([7], oneAndNone) ∧
    empty 0 oneAndNone = .ok (false, oneAndNone) :=
  ⟨by decide, self_assignment_keeps oneAndNone 0 [1] [7] (by decide)⟩

/-- C7: let `A1` be a list with contents `xs` in the nodes `ps1`.  Move assignment from
`A1` into any other list `A2`, and move construction from `A1` into a new object, return;
afterwards the target owns the very nodes `ps1`, its `GetVector()` is `xs`, and
`A1.empty()` is true. -/
theorem move_transfers [Inhabited α] (s : Mem α) (A1 A2 : Nat) (ps1 ps2 : List Nat)
    (xs ys : List α) (hne : A2 ≠ A1) (h1 : Holds s A1 ps1 xs) (h2 : Holds s A2 ps2 ys)
    (hd : ∀ q ∈ ps1, q ∉ ps2) :
    (∃ t, assign_move A2 A1 s = .ok ((), t) ∧ GetVector A2 t = .ok (xs, t) ∧
      empty A1 t = .ok (true, t) ∧ Holds t A2 ps1 xs) ∧
    (∃ t, (newObj >>= fun c => ctor_move c A1) s = .ok ((), t) ∧
      GetVector s.objs.length t = .ok (xs, t) ∧ empty A1 t = .ok (true, t) ∧
      Holds t s.objs.length ps1 xs) := by
  refine ⟨?_, ?_⟩
  · obtain ⟨r, t, e, k1, k2, _⟩ := assign_move_spec hne h2 h1 hd
    exact ⟨t, e, GetVector_spec k1, empty_spec k2, k1⟩
  · have hlt := h1.lt
    have hA2 : Holds s.addObj A1 ps1 xs := by
      obtain ⟨p, hp, hc⟩ := h1
      exact ⟨p, by simpa using hp, Seg.congr (s := s) (fun _ _ => rfl) hc⟩
    have hst : s.objs.length < s.addObj.objs.length := by simp
    obtain ⟨r, t, e, k1, k2, _⟩ := ctor_move_spec hst (by omega) hA2
    refine ⟨t, ?_, GetVector_spec k1, empty_spec k2, k1⟩
    rw [bind_ok (rfl : newObj s = .ok (s.objs.length, s.addObj))]
    exact e

theorem move_transfers_witness :
    Holds twoLists 0 [1, 2, 3, 4, 5] [3, 1, 4, 1, 5] ∧ Holds twoLists 1 [6] [9] ∧
    (∃ t, assign_move 1 0 twoLists = .ok ((), t) ∧
      GetVector 1 t = .ok ([3, 1, 4, 1, 5], t) ∧ empty 0 t = .ok (true, t) ∧
      Holds t 1 [1, 2, 3, 4, 5] [3, 1, 4, 1, 5]) ∧
    (∃ t, (newObj >>= fun c => ctor_move c 0) twoLists = .ok ((), t) ∧
      GetVector 2 t = .ok ([3, 1, 4, 1, 5], t) ∧ empty 0 t = .ok (true, t) ∧
      Holds t 2 [1, 2, 3, 4, 5] [3, 1, 4, 1, 5]) :=
  ⟨by decide, (by decide),
    move_transfers twoLists 0 1 [1, 2, 3, 4, 5] [6] [3, 1, 4, 1, 5] [9] (by decide)
      (by decide) (by decide) (by decide)⟩

/-- C8: on a list with contents `xs`, `push_back(v)` returns and afterwards `GetVector()`
is `xs ++ [v]`; on the empty list that is `[v]`. -/
theorem push_back_appends [Inhabited α] (s : Mem α) (a : Nat) (ps : List Nat) (xs : List α)
    (v : α) (h : Holds s a ps xs) :
    ∃ t, push_back a v s = .ok ((), t) ∧ GetVector a t = .ok (xs ++ [v], t) ∧
      (xs = [] → GetVector a t = .ok ([v], t)) := by
  obtain ⟨r, t, e, k1, _⟩ := push_back_spec v h
  refine ⟨t, e, GetVector_spec k1, ?_⟩
  rintro rfl
  exact GetVector_spec k1

theorem push_back_appends_witness :
    Holds oneAndNone 1 [] ([] : List Nat) ∧
    ∃ t, push_back 1 9 oneAndNone = .ok ((), t) ∧ GetVector 1 t = .ok ([9], t) ∧
      (([] : List Nat) = [] → GetVector 1 t = .ok ([9], t)) :=
  ⟨by decide, push_back_appends oneAndNone 1 [] [] 9 (by decide)⟩

/-- C9: on a list with contents `xs`, `push_front(v)` returns and afterwards `GetVector()`
is `v :: xs`, `front()` is `v`, and `size()` is one more than before. -/
theorem push_front_prepends [Inhabited α] (s : Mem α) (a : Nat) (ps : List Nat)
    (xs : List α) (v : α) (h : Holds s a ps xs) :
    size a s = .ok ((xs.length : Int), s) ∧
    ∃ t, push_front a v s = .ok ((), t) ∧ GetVector a t = .ok (v :: xs, t) ∧
      front a t = .ok (v, t) ∧ size a t = .ok ((xs.length : Int) + 1, t) := by
  obtain ⟨r, t, e, k1, _⟩ := push_front_spec v h
  refine ⟨size_spec h, t, e, GetVector_spec k1, front_spec k1, ?_⟩
  have := size_spec k1
  simpa using this

theorem push_front_prepends_witness :
    Holds twoLists 0 [1, 2, 3, 4, 5] [3, 1, 4, 1, 5] ∧
    size 0 twoLists = .ok (5, twoLists) ∧
    ∃ t, push_front 0 9 twoLists = .ok ((), t) ∧
      GetVector 0 t = .ok ([9, 3, 1, 4, 1, 5], t) ∧ front 0 t = .ok (9, t) ∧
      size 0 t = .ok (6, t) :=
  ⟨by decide, push_front_prepends twoLists 0 [1, 2, 3, 4, 5] [3, 1, 4, 1, 5] 9 (by decide)⟩

/-- C10: on a list with contents `xs`, `pop_back()` returns and afterwards `GetVector()`
is `xs` without its last element; on the empty list the memory is left as it was; on a
list of one element the call does exactly what `clear()` does, and the list is empty
afterwards. -/
theorem pop_back_drops_last [Inhabited α] (s : Mem α) (a : Nat) (ps : List Nat)
    (xs : List α) (h : Holds s a ps xs) :
    ∃ t, pop_back a s = .ok ((), t) ∧ GetVector a t = .ok (xs.dropLast, t) ∧
      (xs = [] → t = s) ∧
      (xs.length = 1 → pop_back a s = clear a s ∧ empty a t = .ok (true, t)) := by
  have hsz := size_spec h
  obtain ⟨r, t, e, k1, _, k3⟩ := pop_back_spec h
  refine ⟨t, e, GetVector_spec k1, k3, ?_⟩
  intro hlen
  obtain ⟨x, rfl⟩ := List.length_eq_one.mp hlen
  refine ⟨?_, by simpa using empty_spec k1⟩
  obtain ⟨p, hp, hc⟩ := h
  have h0 : p ≠ 0 := by
    rintro rfl
    have := (Chain.null hc).2
    simp at this
  rw [pop_back, bind_ok (readHead_ok hp)]
  simp only [h0, if_false]
  rw [bind_ok hsz]
  simp

theorem pop_back_drops_last_witness :
    Holds oneAndNone 0 [1] [7] ∧
    ∃ t, pop_back 0 oneAndNone = .ok ((), t) ∧ GetVector 0 t = .ok ([], t) ∧
      ([7] = [] → t = oneAndNone) ∧
      ([7].length = 1 → pop_back 0 oneAndNone = clear 0 oneAndNone ∧
        empty 0 t = .ok (true, t)) :=
  ⟨by decide, pop_back_drops_last oneAndNone 0 [1] [7] (by decide)⟩

/-- C11: on a list with contents `xs`, `pop_front()` returns and afterwards `GetVector()`
is `xs` without its first element (`rest` for `xs = x :: rest`); on the empty list the
memory is left as it was and the list is still empty. -/
theorem pop_front_drops_first [Inhabited α] (s : Mem α) (a : Nat) (ps : List Nat)
    (xs : List α) (h : Holds s a ps xs) :
    ∃ t, pop_front a s = .ok ((), t) ∧ GetVector a t = .ok (xs.tail, t) ∧
      (∀ x rest, xs = x :: rest → GetVector a t = .ok (rest, t)) ∧
      (xs = [] → t = s ∧ empty a t = .ok (true, t)) := by
  obtain ⟨r, t, e, k1, _, k3⟩ := pop_front_spec h
  refine ⟨t, e, GetVector_spec k1, ?_, ?_⟩
  · rintro x rest rfl
    exact GetVector_spec k1
  · rintro rfl
    exact ⟨k3 rfl, by simpa using empty_spec k1⟩

theorem pop_front_drops_first_witness :
    Holds twoLists 0 [1, 2, 3, 4, 5] [3, 1, 4, 1, 5] ∧
    ∃ t, pop_front 0 twoLists = .ok ((), t) ∧ GetVector 0 t = .ok ([1, 4, 1, 5], t) ∧
      (∀ x rest, [3, 1, 4, 1, 5] = x :: rest → GetVector 0 t = .ok (rest, t)) ∧
      ([3, 1, 4, 1, 5] = [] → t = twoLists ∧ empty 0 t = .ok (true, t)) :=
  ⟨by decide, pop_front_drops_first twoLists 0 [1, 2, 3, 4, 5] [3, 1, 4, 1, 5] (by decide)⟩

/-- C12: on a list with contents `xs` (what `GetVector()` returns), `front()` returns the
first and `back()` the last element of `xs` when `xs` is not empty, both return the
default-constructed value when it is, and both leave the memory as it was. -/
theorem front_back_values [Inhabited α] (s : Mem α) (a : Nat) (ps : List Nat) (xs : List α)
    (h : Holds s a ps xs) :
    GetVector a s = .ok (xs, s) ∧
    (∀ hne : xs ≠ [], front a s = .ok (xs.head hne, s) ∧ back a s = .ok (xs.getLast hne, s)) ∧
    (xs = [] → front a s = .ok (default, s) ∧ back a s = .ok (default, s)) := by
  refine ⟨GetVector_spec h, ?_, ?_⟩
  · intro hne
    have hf := front_spec h
    have hb := back_spec h
    obtain ⟨x, rest, rfl⟩ := List.exists_cons_of_ne_nil hne
    refine ⟨by simpa using hf, ?_⟩
    rw [hb, List.getLastD_eq_getLast?, List.getLast?_eq_getLast _ hne]
    rfl
  · rintro rfl
    exact ⟨front_spec h, back_spec h⟩

theorem front_back_values_witness :
    Holds twoLists 0 [1, 2, 3, 4, 5] [3, 1, 4, 1, 5] ∧
    GetVector 0 twoLists = .ok ([3, 1, 4, 1, 5], twoLists) ∧
    (∀ hne : [3, 1, 4, 1, 5] ≠ [],
      front 0 twoLists = .ok ([3, 1, 4, 1, 5].head hne, twoLists) ∧
      back 0 twoLists = .ok ([3, 1, 4, 1, 5].getLast hne, twoLists)) ∧
    ([3, 1, 4, 1, 5] = [] →
      front 0 twoLists = .ok (default, twoLists) ∧ back 0 twoLists = .ok (default, twoLists)) :=
  ⟨by decide, front_back_values twoLists 0 [1, 2, 3, 4, 5] [3, 1, 4, 1, 5] (by decide)⟩

theorem ctor_default_holds {s : Mem α} {this : Nat} (hobj : this < s.objs.length) :
    Holds (s.setHead this (some 0)) this [] ([] : List α) := by
  refine ⟨0, ?_, seg_nil.mpr rfl⟩
  rw [head_setHead hobj]
  simp

theorem ctor_default_ok {s : Mem α} {this : Nat} (hobj : this < s.objs.length) :
    ctor_default this s = .ok ((), s.setHead this (some 0)) := by
  simp [ctor_default, writeHead, hobj]

/-- The default constructors of the two source files do the same on every memory. -/
theorem ll_ctor_default_eq (decl : Option Nat) (this : Nat) (s : Mem α) :
    snakelinkedlist.LinkedList.ctor_default decl this s = ctor_default this s := by
  unfold snakelinkedlist.LinkedList.ctor_default
  cases decl with
  | none => exact bind_ok pure_ok
  | some p =>
    by_cases hobj : this < s.objs.length
    · have h1 : writeHead this p s = .ok ((), s.setHead this (some p)) := by
        simp [writeHead, hobj]
      show (writeHead this p >>= fun _ => writeHead this 0) s = _
      rw [bind_ok h1]
      simp [ctor_default, writeHead, hobj, Mem.setHead]
    · have h1 : writeHead this p s = .error .dangling := by
        simp [writeHead, hobj]
      show (writeHead this p >>= fun _ => writeHead this 0) s = _
      rw [bind_error h1]
      simp [ctor_default, writeHead, hobj]

/-- C13: on a list whose nodes, reached from `head_`, are `ps` and whose contents are `xs`,
`size()` returns the number of those nodes, which is the length of what `GetVector()`
returns, and `empty()` returns true exactly when `size()` returns 0.  A list default
constructed in a new object (by either source file) has `empty()` true and `size()` 0. -/
theorem size_counts_nodes [Inhabited α] (s : Mem α) (a : Nat) (ps : List Nat) (xs : List α)
    (h : Holds s a ps xs) :
    size a s = .ok ((ps.length : Int), s) ∧ GetVector a s = .ok (xs, s) ∧
    ps.length = xs.length ∧
    (∃ b n, empty a s = .ok (b, s) ∧ size a s = .ok (n, s) ∧ (b = true ↔ n = 0)) ∧
    (∃ t, (newObj >>= ctor_default) s = .ok ((), t) ∧
      empty s.objs.length t = .ok (true, t) ∧ size s.objs.length t = .ok (0, t)) ∧
    (∀ decl, ∃ t, (newObj >>= snakelinkedlist.LinkedList.ctor_default decl) s = .ok ((), t) ∧
      empty s.objs.length t = .ok (true, t) ∧ size s.objs.length t = .ok (0, t)) := by
  have hlen : ps.length = xs.length := by
    obtain ⟨p, _, hc⟩ := h
    exact Seg.length_eq hc
  have hnew : newObj s = .ok (s.objs.length, s.addObj) := rfl
  have hobj : s.objs.length < s.addObj.objs.length := by simp
  have hd : Holds (s.addObj.setHead s.objs.length (some 0)) s.objs.length [] ([] : List α) :=
    ctor_default_holds hobj
  have he := empty_spec hd
  have hs := size_spec hd
  have hrun : (newObj >>= ctor_default) s
      = .ok ((), s.addObj.setHead s.objs.length (some 0)) := by
    rw [bind_ok hnew]
    exact ctor_default_ok hobj
  refine ⟨by rw [hlen]; exact size_spec h, GetVector_spec h, hlen,
    ⟨xs.isEmpty, xs.length, empty_spec h, size_spec h, ?_⟩,
    ⟨s.addObj.setHead s.objs.length (some 0), hrun, he, hs⟩, ?_⟩
  · cases xs with
    | nil => simp
    | cons x rest =>
      simp
      omega
  · intro decl
    refine ⟨s.addObj.setHead s.objs.length (some 0), ?_, he, hs⟩
    rw [bind_ok hnew, ll_ctor_default_eq]
    exact ctor_default_ok hobj

theorem size_counts_nodes_witness :
    Holds twoLists 0 [1, 2, 3, 4, 5] [3, 1, 4, 1, 5] ∧
    size 0 twoLists = .ok (5, twoLists) ∧
    GetVector 0 twoLists = .ok ([3, 1, 4, 1, 5], twoLists) ∧
    [1, 2, 3, 4, 5].length = [3, 1, 4, 1, 5].length ∧
    (∃ b n, empty 0 twoLists = .ok (b, twoLists) ∧ size 0 twoLists = .ok (n, twoLists) ∧
      (b = true ↔ n = 0)) ∧
    (∃ t, (newObj >>= ctor_default) twoLists = .ok ((), t) ∧
      empty 2 t = .ok (true, t) ∧ size 2 t = .ok (0, t)) ∧
    (∀ decl, ∃ t,
      (newObj >>= snakelinkedlist.LinkedList.ctor_default decl) twoLists = .ok ((), t) ∧
      empty 2 t = .ok (true, t) ∧ size 2 t = .ok (0, t)) :=
  ⟨by decide, size_counts_nodes twoLists 0 [1, 2, 3, 4, 5] [3, 1, 4, 1, 5] (by decide)⟩

/-- C14: on a list with nodes `ps`, `clear()` returns; afterwards `head_` is `nullptr` as
after the default constructor (which, run on the cleared object, changes nothing),
`empty()` is true, `size()` is 0, `GetVector()` is empty and every node of `ps` has been
released; a second `clear()` returns and leaves the memory as it is. -/
theorem clear_resets [Inhabited α] (s : Mem α) (a : Nat) (ps : List Nat) (xs : List α)
    (h : Holds s a ps xs) :
    ∃ t, clear a s = .ok ((), t) ∧ t.head a = some 0 ∧ ctor_default a t = .ok ((), t) ∧
      empty a t = .ok (true, t) ∧ size a t = .ok (0, t) ∧ GetVector a t = .ok ([], t) ∧
      (∀ q ∈ ps, t.lookup q = none) ∧ clear a t = .ok ((), t) ∧
      empty a t = .ok (true, t) := by
  obtain ⟨r, t, e, k1, _, k3, _, k5, _⟩ := clear_spec h
  have hd : Holds t a [] ([] : List α) := ⟨0, k1, seg_nil.mpr rfl⟩
  obtain ⟨r2, t2, e2, _, _, _, _, _, k6⟩ := clear_spec hd
  have ht2 := k6 rfl
  subst ht2
  have hlt := head_some_lt k1
  refine ⟨t2, e, k1, ?_, by simpa using empty_spec hd, by simpa using size_spec hd,
    GetVector_spec hd, ?_, e2, by simpa using empty_spec hd⟩
  · rw [ctor_default_ok hlt]
    have h1 : t2.objs[a]? = some (some 0) := head_some_iff.mp k1
    have h2 : t2.objs.set a (some 0) = t2.objs := by
      apply List.ext_getElem?
      intro i
      by_cases hi : a = i
      · subst hi
        simp [List.getElem?_set, h1, hlt]
      · simp [List.getElem?_set, hi]
    simp [Mem.setHead, h2]
  · intro q hq
    rw [k3]
    simp [hq]

theorem clear_resets_witness :
    Holds twoLists 0 [1, 2, 3, 4, 5] [3, 1, 4, 1, 5] ∧
    ∃ t, clear 0 twoLists = .ok ((), t) ∧ t.head 0 = some 0 ∧
      ctor_default 0 t = .ok ((), t) ∧
      empty 0 t = .ok (true, t) ∧ size 0 t = .ok (0, t) ∧ GetVector 0 t = .ok ([], t) ∧
      (∀ q ∈ [1, 2, 3, 4, 5], t.lookup q = none) ∧ clear 0 t = .ok ((), t) ∧
      empty 0 t = .ok (true, t) :=
  ⟨by decide, clear_resets twoLists 0 [1, 2, 3, 4, 5] [3, 1, 4, 1, 5] (by decide)⟩

theorem begin_advance {s : Mem α} {a : Nat} {ps : List Nat} {xs : List α}
    (h : Holds s a ps xs) (k : Nat) :
    (begin a >>= Iterator.advance k) s = .ok (⟨(ps[k]?).getD 0⟩, s) := by
  obtain ⟨p, hp, hc⟩ := h
  rw [bind_ok (begin_ok hp)]
  exact advance_along k hc

/-- C17: on a list with contents `xs` (what `GetVector()` returns, `size()` being its
length), the cursor `begin()` advanced `k` times with `++` dereferences to `xs[k]` for
every `k < size()` and differs from `end()` there; advanced exactly `size()` times, or
more often, it does not differ from `end()`.  The walk changes nothing in memory. -/
theorem iteration_in_order [Inhabited α] (s : Mem α) (a : Nat) (ps : List Nat)
    (xs : List α) (h : Holds s a ps xs) :
    GetVector a s = .ok (xs, s) ∧ size a s = .ok ((xs.length : Int), s) ∧
    end_ a s = .ok (⟨0⟩, s) ∧
    (∀ (k : Nat) (hk : k < xs.length), ∃ it, (begin a >>= Iterator.advance k) s = .ok (it, s) ∧
      Iterator.operator_deref it s = .ok (xs[k], s) ∧ it.operator_ne ⟨0⟩ = true) ∧
    (∀ k, xs.length ≤ k → ∃ it, (begin a >>= Iterator.advance k) s = .ok (it, s) ∧
      it.operator_ne ⟨0⟩ = false) := by
  have hadv := begin_advance h
  obtain ⟨p, hp, hc⟩ := h
  have hlen := Seg.length_eq hc
  refine ⟨GetVector_spec ⟨p, hp, hc⟩, size_spec ⟨p, hp, hc⟩, rfl, ?_, ?_⟩
  · intro k hk
    have hk2 : k < ps.length := by omega
    obtain ⟨nx, hl⟩ := Seg.lookup_at k hk2 hk hc
    refine ⟨_, hadv k, ?_, ?_⟩
    · rw [List.getElem?_eq_getElem hk2]
      exact getData_ok hl
    · rw [List.getElem?_eq_getElem hk2]
      have := (lookup_some_pos hl).1
      simpa [Iterator.operator_ne] using this
  · intro k hk
    refine ⟨_, hadv k, ?_⟩
    rw [List.getElem?_eq_none (by omega)]
    rfl

theorem iteration_in_order_witness :
    Holds twoLists 0 [1, 2, 3, 4, 5] [3, 1, 4, 1, 5] ∧
    GetVector 0 twoLists = .ok ([3, 1, 4, 1, 5], twoLists) ∧
    size 0 twoLists = .ok (5, twoLists) ∧
    end_ 0 twoLists = .ok (⟨0⟩, twoLists) ∧
    (∀ (k : Nat) (hk : k < [3, 1, 4, 1, 5].length), ∃ it,
      (begin 0 >>= Iterator.advance k) twoLists = .ok (it, twoLists) ∧
      Iterator.operator_deref it twoLists = .ok ([3, 1, 4, 1, 5][k], twoLists) ∧
      it.operator_ne ⟨0⟩ = true) ∧
    (∀ k, [3, 1, 4, 1, 5].length ≤ k → ∃ it,
      (begin 0 >>= Iterator.advance k) twoLists = .ok (it, twoLists) ∧
      it.operator_ne ⟨0⟩ = false) :=
  ⟨by decide, iteration_in_order twoLists 0 [1, 2, 3, 4, 5] [3, 1, 4, 1, 5] (by decide)⟩

/-- C18: on a list with contents `xs`, `begin()` does not differ from `end()` exactly when
the list is empty (`empty()` true).  Two cursors do not differ under `!=` exactly when
they point at the same node or are both the end cursor; for the cursors `i` and `j`
steps from `begin()`, up to the end, that is exactly when `i = j`.  The end cursor
advanced with `++` does not differ from `end()`. -/
theorem cursor_comparison [Inhabited α] (s : Mem α) (a : Nat) (ps : List Nat) (xs : List α)
    (h : Holds s a ps xs) :
    (∃ b, begin a s = .ok (b, s) ∧ end_ a s = .ok (⟨0⟩, s) ∧
      (b.operator_ne ⟨0⟩ = false ↔ xs = []) ∧
      (b.operator_ne ⟨0⟩ = false ↔ empty a s = .ok (true, s))) ∧
    (∀ it1 it2 : Iterator, it1.operator_ne it2 = false ↔
      (it1.current_ ≠ 0 ∧ it1.current_ = it2.current_) ∨
        (it1.current_ = 0 ∧ it2.current_ = 0)) ∧
    (∀ i j, i ≤ xs.length → j ≤ xs.length → ∃ it1 it2,
      (begin a >>= Iterator.advance i) s = .ok (it1, s) ∧
      (begin a >>= Iterator.advance j) s = .ok (it2, s) ∧
      (it1.operator_ne it2 = false ↔ i = j)) ∧
    (end_ a >>= Iterator.operator_incr) s = .ok (⟨0⟩, s) := by
  have hadv := begin_advance h
  have hemp := empty_spec h
  obtain ⟨p, hp, hc⟩ := h
  have hlen := Seg.length_eq hc
  have hp0 : p = 0 ↔ xs = [] := by
    constructor
    · rintro rfl
      exact (Chain.null hc).2
    · rintro rfl
      cases ps with
      | nil => simpa using hc
      | cons q ps => exact absurd hc seg_cons_nil
  refine ⟨⟨⟨p⟩, begin_ok hp, rfl, ?_, ?_⟩, ?_, ?_, rfl⟩
  · rw [← hp0]
    simp [Iterator.operator_ne]
  · rw [hemp]
    have : (⟨p⟩ : Iterator).operator_ne ⟨0⟩ = false ↔ p = 0 := by
      simp [Iterator.operator_ne]
    rw [this, hp0]
    cases xs <;> simp
  · intro it1 it2
    simp only [Iterator.operator_ne, bne_eq_false_iff_eq, ne_eq]
    constructor
    · intro e
      by_cases h0 : it1.current_ = 0
      · exact Or.inr ⟨h0, by rw [← e]; exact h0⟩
      · exact Or.inl ⟨h0, e⟩
    · rintro (⟨_, e⟩ | ⟨e1, e2⟩)
      · exact e
      · rw [e1, e2]
  · intro i j hi hj
    refine ⟨_, _, hadv i, hadv j, ?_⟩
    simp only [Iterator.operator_ne, bne_eq_false_iff_eq]
    constructor
    · intro e
      exact Chain.position_inj hc (by omega) (by omega) e
    · rintro rfl
      rfl

theorem cursor_comparison_witness :
    Holds twoLists 0 [1, 2, 3, 4, 5] [3, 1, 4, 1, 5] ∧
    (∃ b, begin 0 twoLists = .ok (b, twoLists) ∧ end_ 0 twoLists = .ok (⟨0⟩, twoLists) ∧
      (b.operator_ne ⟨0⟩ = false ↔ [3, 1, 4, 1, 5] = []) ∧
      (b.operator_ne ⟨0⟩ = false ↔ empty 0 twoLists = .ok (true, twoLists))) ∧
    (∀ it1 it2 : Iterator, it1.operator_ne it2 = false ↔
      (it1.current_ ≠ 0 ∧ it1.current_ = it2.current_) ∨
        (it1.current_ = 0 ∧ it2.current_ = 0)) ∧
    (∀ i j, i ≤ [3, 1, 4, 1, 5].length → j ≤ [3, 1, 4, 1, 5].length → ∃ it1 it2,
      (begin 0 >>= Iterator.advance i) twoLists = .ok (it1, twoLists) ∧
      (begin 0 >>= Iterator.advance j) twoLists = .ok (it2, twoLists) ∧
      (it1.operator_ne it2 = false ↔ i = j)) ∧
    (end_ 0 >>= Iterator.operator_incr) twoLists = .ok (⟨0⟩, twoLists) :=
  ⟨by decide, cursor_comparison twoLists 0 [1, 2, 3, 4, 5] [3, 1, 4, 1, 5] (by decide)⟩

theorem value_ok {β : Type} {m : Prog α β} {s t : Mem α} {x : β} (h : m s = .ok (x, t)) :
    m.value s = .ok x := by
  simp [Prog.value, h]

theorem beq_iff_positions [BEq α] (xs : List α) :
    ∀ ys : List α, (xs == ys) = true ↔
      xs.length = ys.length ∧
        ∀ (i : Nat) (h1 : i < xs.length) (h2 : i < ys.length), (xs[i] == ys[i]) = true := by
  induction xs with
  | nil =>
    intro ys
    cases ys with
    | nil => simp [BEq.beq]
    | cons y ys => simp [BEq.beq]
  | cons x xs ih =>
    intro ys
    cases ys with
    | nil => simp [BEq.beq]
    | cons y ys =>
      have e : ((x :: xs) == (y :: ys)) = (x == y && xs == ys) := rfl
      rw [e, Bool.and_eq_true, ih ys]
      constructor
      · rintro ⟨h0, hl, hi⟩
        refine ⟨by simp [hl], ?_⟩
        intro i h1 h2
        cases i with
        | zero => exact h0
        | succ i => exact hi i (by simpa using h1) (by simpa using h2)
      · rintro ⟨hl, hi⟩
        refine ⟨hi 0 (by simp) (by simp), by simpa using hl, ?_⟩
        intro i h1 h2
        exact hi (i + 1) (by simpa using h1) (by simpa using h2)

theorem operator_eq_spec [Inhabited α] [BEq α] {s : Mem α} {a b : Nat} {ps qs : List Nat}
    {xs ys : List α} (ha : Holds s a ps xs) (hb : Holds s b qs ys) :
    operator_eq a b s = .ok (xs == ys, s) ∧ operator_ne a b s = .ok (!(xs == ys), s) := by
  have h1 : operator_eq a b s = .ok (xs == ys, s) := by
    rw [operator_eq, bind_ok (GetVector_spec ha), bind_ok (GetVector_spec hb)]
    rfl
  refine ⟨h1, ?_⟩
  rw [operator_ne, bind_ok h1]
  rfl

theorem fromVector_spec [Inhabited α] (decl : Option Nat) (s : Mem α) (v : α)
    (rest : List α) :
    ∃ t ps, fromVector decl (v :: rest) s = .ok (s.objs.length, t) ∧
      Holds t s.objs.length ps (v :: rest) ∧ Frame s t s.objs.length [] ∧
      s.objs.length < t.objs.length := by
  have hobj : s.objs.length < s.addObj.objs.length := by simp
  have hspec : Prog.Ok (ctor_vector decl s.objs.length (v :: rest)) s.addObj _ :=
    ctor_vector_spec decl hobj
  obtain ⟨r, t, e, ps, k1, k2, _⟩ := hspec
  have k4 : s.objs.length < t.objs.length := by
    have := k2.2.2.1
    simp at this
    omega
  refine ⟨t, ps, ?_, k1, ?_, k4⟩
  · rw [fromVector, bind_ok (rfl : newObj s = .ok (s.objs.length, s.addObj)), bind_ok e]
    rfl
  · refine ⟨?_, ?_, ?_, by simpa using k2.2.2.2⟩
    · intro b w hb hw
      exact k2.1 b w hb (by simpa using hw)
    · intro q n hq hn
      exact k2.2.1 q n hq (by simpa using hn)
    · omega

/-- On any two lists, `==` returns what comparing the `GetVector()` snapshots gives, and
`!=` its negation; the snapshots compare equal exactly when they have the same length and
equal elements at every position. -/
theorem operator_eq_compares_snapshots [Inhabited α] [BEq α] (s : Mem α) (a b : Nat)
    (ps qs : List Nat) (xs ys : List α) (ha : Holds s a ps xs) (hb : Holds s b qs ys) :
    GetVector a s = .ok (xs, s) ∧ GetVector b s = .ok (ys, s) ∧
    operator_eq a b s = .ok (xs == ys, s) ∧ operator_ne a b s = .ok (!(xs == ys), s) ∧
    ((xs == ys) = true ↔ xs.length = ys.length ∧
      ∀ (i : Nat) (h1 : i < xs.length) (h2 : i < ys.length), (xs[i] == ys[i]) = true) :=
  ⟨GetVector_spec ha, GetVector_spec hb, (operator_eq_spec ha hb).1, (operator_eq_spec ha hb).2,
    beq_iff_positions xs ys⟩

/-- Two lists built from non-empty vectors compare equal exactly when the vectors are
equal. -/
theorem fromVector_compare [Inhabited α] [BEq α] [LawfulBEq α] (decl : Option Nat)
    (s : Mem α) (v1 : α) (r1 : List α) (v2 : α) (r2 : List α) :
    ∃ e, (fromVector decl (v1 :: r1) >>= fun a =>
        fromVector decl (v2 :: r2) >>= fun b => operator_eq a b).value s = .ok e ∧
      (fromVector decl (v1 :: r1) >>= fun a =>
        fromVector decl (v2 :: r2) >>= fun b => operator_ne a b).value s = .ok (!e) ∧
      (e = true ↔ v1 :: r1 = v2 :: r2) := by
  obtain ⟨t, ps, e1, k1, _, k3⟩ := fromVector_spec decl s v1 r1
  obtain ⟨u, qs, e2, c1, c2, _⟩ := fromVector_spec decl t v2 r2
  have hlt := k1.lt
  have ha : Holds u s.objs.length ps (v1 :: r1) := c2.holds k1 (by omega) (by simp)
  obtain ⟨h1, h2⟩ := operator_eq_spec ha c1
  refine ⟨(v1 :: r1) == (v2 :: r2), ?_, ?_, beq_iff_eq⟩
  · refine value_ok (t := u) ?_
    rw [bind_ok e1, bind_ok e2]
    exact h1
  · refine value_ok (t := u) ?_
    rw [bind_ok e1, bind_ok e2]
    exact h2

/-- C15, where the code departs from it: two lists built from the same vector need not
compare equal.  Built from the empty vector, with `head_` declared without a default
member initialiser, neither has a `head_` to read, and `==` and `!=` read an indeterminate
pointer instead of returning `true` and `false`; likewise when only one of the two vectors
is empty.  With `head_` initialised to `nullptr` by the declaration the comparison is
right. -/
theorem compare_built_from_empty :
    (fromVector none ([] : List Nat) >>= fun a =>
      fromVector none [] >>= fun b => operator_eq a b).value Mem.init
        = .error .indeterminate ∧
    (fromVector none ([] : List Nat) >>= fun a =>
      fromVector none [] >>= fun b => operator_ne a b).value Mem.init
        = .error .indeterminate ∧
    (fromVector none ([] : List Nat) >>= fun a =>
      fromVector none [1] >>= fun b => operator_eq a b).value Mem.init
        = .error .indeterminate ∧
    (fromVector (some 0) ([] : List Nat) >>= fun a =>
      fromVector (some 0) [] >>= fun b => operator_eq a b).value Mem.init = .ok true ∧
    (fromVector (some 0) ([] : List Nat) >>= fun a =>
      fromVector (some 0) [1] >>= fun b => operator_eq a b).value Mem.init = .ok false :=
  ⟨rfl, rfl, rfl, rfl, rfl⟩

/-- C16 as stated fails: the text written ends in a line break.  For an empty list,
`operator<<` writes `"\n"`, not the empty text, and for `[3, 1, 4, 1, 5]` it writes
`"3, 1, 4, 1, 5\n"`, not `"3, 1, 4, 1, 5"`; so does the version of `ll.cpp`. -/
theorem operator_lshift_not_bare :
    (newObj >>= fun a => ctor_default a >>= fun _ =>
      operator_lshift (fun n : Nat => toString n) "" a).value Mem.init ≠ .ok "" ∧
    (operator_lshift (fun n : Nat => toString n) "" 0).value twoLists
      ≠ .ok "3, 1, 4, 1, 5" ∧
    (snakelinkedlist.LinkedList.operator_lshift (fun n : Nat => toString n) "" 0).value
      twoLists ≠ .ok "3, 1, 4, 1, 5" := by
  have h1 : (newObj >>= fun a => ctor_default a >>= fun _ =>
      operator_lshift (fun n : Nat => toString n) "" a).value Mem.init = .ok "\n" := rfl
  have h2 : (operator_lshift (fun n : Nat => toString n) "" 0).value twoLists
      = .ok "3, 1, 4, 1, 5\n" := rfl
  have h3 : (snakelinkedlist.LinkedList.operator_lshift (fun n : Nat => toString n) "" 0).value
      twoLists = .ok "3, 1, 4, 1, 5\n" := rfl
  rw [h1, h2, h3]
  exact ⟨fun h => absurd (Except.ok.inj h) (by decide),
    fun h => absurd (Except.ok.inj h) (by decide),
    fun h => absurd (Except.ok.inj h) (by decide)⟩

/-- C16, amended: for a list with contents `xs`, `operator<<` (in `ref_ll.cpp` and in
`ll.cpp`) adds to the stream the textual forms of the elements of `xs`, in order, joined
by `", "` with no separator after the last, and then a line break; for an empty list it
adds the line break alone.  The list is left as it was. -/
theorem operator_lshift_text [Inhabited α] (render : α → String) (os : String) (s : Mem α)
    (a : Nat) (ps : List Nat) (xs : List α) (h : Holds s a ps xs) :
    GetVector a s = .ok (xs, s) ∧
    operator_lshift render os a s = .ok (os ++ joined ", " (xs.map render) ++ "\n", s) ∧
    snakelinkedlist.LinkedList.operator_lshift render os a s
      = .ok (os ++ joined ", " (xs.map render) ++ "\n", s) ∧
    (xs = [] → operator_lshift render os a s = .ok (os ++ "\n", s) ∧
      snakelinkedlist.LinkedList.operator_lshift render os a s = .ok (os ++ "\n", s)) := by
  obtain ⟨h1, h2⟩ := operator_lshift_spec render os h
  refine ⟨GetVector_spec h, h1, h2, ?_⟩
  rintro rfl
  rw [h1, h2]
  simp [joined]

theorem operator_lshift_text_witness :
    Holds twoLists 0 [1, 2, 3, 4, 5] [3, 1, 4, 1, 5] ∧
    GetVector 0 twoLists = .ok ([3, 1, 4, 1, 5], twoLists) ∧
    operator_lshift (fun n : Nat => toString n) "" 0 twoLists
      = .ok ("3, 1, 4, 1, 5\n", twoLists) ∧
    snakelinkedlist.LinkedList.operator_lshift (fun n : Nat => toString n) "" 0 twoLists
      = .ok ("3, 1, 4, 1, 5\n", twoLists) ∧
    ([3, 1, 4, 1, 5] = [] →
      operator_lshift (fun n : Nat => toString n) "" 0 twoLists = .ok ("" ++ "\n", twoLists) ∧
      snakelinkedlist.LinkedList.operator_lshift (fun n : Nat => toString n) "" 0 twoLists
        = .ok ("" ++ "\n", twoLists)) :=
  ⟨by decide,
    operator_lshift_text (fun n : Nat => toString n) "" twoLists 0 [1, 2, 3, 4, 5]
      [3, 1, 4, 1, 5] (by decide)⟩

/-- C21 as stated fails: take the negative index `INT_MIN`.  On `[1, 2]` and on
`[3, 1, 4]`, `RemoveNth(INT_MIN)` removes nothing: the bound `n - 1` of the loop overflows
to `INT_MAX`, the walk runs off the end of the list, and the call stops in a null
dereference.  With `-1` in its place the second element goes. -/
theorem RemoveNth_INT_MIN_not_second :
    (fromVector none [1, 2] >>= fun a => RemoveNth a (-2147483648) >>= fun _ =>
      GetVector a).value (Mem.init : Mem Nat) = .error .nullDeref ∧
    (fromVector none [3, 1, 4] >>= fun a => RemoveNth a (-2147483648) >>= fun _ =>
      GetVector a).value (Mem.init : Mem Nat) = .error .nullDeref ∧
    (fromVector none [1, 2] >>= fun a => RemoveNth a (-1) >>= fun _ =>
      GetVector a).value (Mem.init : Mem Nat) = .ok ([1, 2].eraseIdx 1) :=
  ⟨rfl, rfl, rfl⟩

/-- C21, amended: on a list of two or more elements with contents `xs`,
`RemoveNth(n)` with any negative `n` other than `INT_MIN` returns and removes the element
at index 1: afterwards `GetVector()` is `xs` with index 1 erased and `size()` is one less
than before; the node released is the second one, the others stay in their order.
`RemoveNth` of `ll.cpp` does the same. -/
theorem RemoveNth_negative_removes_second [Inhabited α] (s : Mem α) (a : Nat)
    (ps : List Nat) (xs : List α) (n : Int) (h : Holds s a ps xs) (hmin : -2147483648 < n)
    (hn : n < 0) (hlen : 2 ≤ xs.length) :
    GetVector a s = .ok (xs, s) ∧ size a s = .ok ((xs.length : Int), s) ∧
    (∃ t, RemoveNth a n s = .ok ((), t) ∧
      GetVector a t = .ok (xs.eraseIdx 1, t) ∧
      size a t = .ok ((xs.length : Int) - 1, t) ∧
      Holds t a (ps.eraseIdx 1) (xs.eraseIdx 1)) ∧
    snakelinkedlist.LinkedList.RemoveNth a n s = RemoveNth a n s := by
  obtain ⟨r, t, e, k1, _⟩ := RemoveNth_negative h hmin hn hlen
  refine ⟨GetVector_spec h, size_spec h, ⟨t, e, GetVector_spec k1, ?_, k1⟩,
    by rw [ll_RemoveNth_eq]⟩
  have := size_spec k1
  rw [List.length_eraseIdx, if_pos (by omega)] at this
  rw [this]
  congr 2
  omega

theorem RemoveNth_negative_removes_second_witness :
    Holds twoLists 0 [1, 2, 3, 4, 5] [3, 1, 4, 1, 5] ∧
    GetVector 0 twoLists = .ok ([3, 1, 4, 1, 5], twoLists) ∧
    size 0 twoLists = .ok (5, twoLists) ∧
    (∃ t, RemoveNth 0 (-7) twoLists = .ok ((), t) ∧ GetVector 0 t = .ok ([3, 4, 1, 5], t) ∧
      size 0 t = .ok (4, t) ∧ Holds t 0 [1, 3, 4, 5] [3, 4, 1, 5]) ∧
    snakelinkedlist.LinkedList.RemoveNth 0 (-7) twoLists = RemoveNth 0 (-7) twoLists :=
  ⟨by decide,
    RemoveNth_negative_removes_second twoLists 0 [1, 2, 3, 4, 5] [3, 1, 4, 1, 5] (-7)
      (by decide) (by decide) (by decide) (by decide)⟩

end Claims

end SnakeLL
